import Mathlib

/-!
# stagit: the incremental history-rendering pipeline

A shallow embedding of `src/stagit.c` (commit statistics, the history walk, the
cache protocol of `main`, the references and their page, the Atom feed, the
page of a commit) and theorems about it.

Conventions of the embedding.

* A C string or a byte stream is a `List Char`.
* A pointer that may be `NULL` is an `Option`.
* The answers of libgit2 and of the C library are read from an explicit
  environment (`git_repository`, `Sys`): a call that can fail is a field
  returning `Option` (or a `Bool` saying whether the call fails).
* `size_t` counters are `Nat`: the line counters of `commitinfo_getstats` count
  lines of patches held in memory and `remcommits` counts commits of one walk,
  so none of them can reach `2^64`.  `nlogcommits` (a `long long` that is only
  ever decremented while positive) is an `Int`.
* `calloc` and `fdopen` are assumed to succeed.
* A file is a path with a content (`World`); paths are compared as text.  A
  stream opened for writing is kept as the bytes written so far and reaches
  its file when it is closed or when the process ends (`exit` flushes).
* A call of `err`, `errx` or `usage` ends the process with status 1: the
  functions that can reach one return the files at that moment.
* Where `main` writes a page other than the log, its text is a parameter
  (`Sys`) and the function that writes it is taken to return;
  `printshowfile`, `writerefs` and `writeatom` are embedded on their own, as
  the bytes they write to their stream.
* The lookup of a commit follows libgit2: the object database is the
  environment (`odb_commit`), and `git_commit_lookup` parses the object it
  holds, author included.
* Heap memory is followed where the code can read or free it after it was
  freed (`getrefs` and the functions that use its array): such a run ends as
  `Outcome.fault`.
* The type `float` is IEEE 754 binary32 and every operation on it is rounded
  on its own (`f32`); the one expression in `float`, the length of the bar of
  the diffstat, is computed this way.
-/

namespace Stagit

/-! ## Object ids -/

/-- Number of hexadecimal digits of an object id (`GIT_OID_HEXSZ`). -/
def GIT_OID_HEXSZ : Nat := 40

/-- An object id (`git_oid`): `GIT_OID_RAWSZ = 20` raw bytes, kept as their 40
half-bytes, most significant first. -/
abbrev git_oid := { l : List (Fin 16) // l.length = 40 }

/-- The all-zero object id: the value of the static `lastoid` before anything
is read into it. -/
def git_oid.zero : git_oid := ⟨List.replicate 40 0, by simp⟩

/-- The lower-case hexadecimal digit of a half-byte, as `git_oid_tostr` prints it. -/
def hexdigit (n : Fin 16) : Char :=
  if n.val < 10 then Char.ofNat (48 + n.val) else Char.ofNat (87 + n.val)

/-- The value of a hexadecimal digit, upper or lower case (`git__fromhex`);
`none` for any other character. -/
def fromhex (c : Char) : Option (Fin 16) :=
  if 48 ≤ c.toNat ∧ c.toNat ≤ 57 then some (Fin.ofNat (c.toNat - 48))
  else if 97 ≤ c.toNat ∧ c.toNat ≤ 102 then some (Fin.ofNat (c.toNat - 87))
  else if 65 ≤ c.toNat ∧ c.toNat ≤ 70 then some (Fin.ofNat (c.toNat - 55))
  else none

/-- The 40 hexadecimal digits of an object id (`git_oid_tostr` with a buffer of
`GIT_OID_HEXSZ + 1` bytes). -/
def git_oid_tostr (id : git_oid) : List Char := id.val.map hexdigit

/-- Parse every character of `s` as a hexadecimal digit. -/
def parsehex : List Char → Option (List (Fin 16))
  | [] => some []
  | c :: cs =>
    match fromhex c, parsehex cs with
    | some n, some ns => some (n :: ns)
    | _, _ => none

/-- The library call `git_oid_fromstr`: it reads exactly the first
`GIT_OID_HEXSZ` characters of `s` and fails when one of them is not a
hexadecimal digit (the terminating NUL of a shorter string included).  What
follows the 40 digits is not looked at. -/
def git_oid_fromstr (s : List Char) : Option git_oid :=
  match parsehex (s.take 40) with
  | some ns => if h : ns.length = 40 then some ⟨ns, h⟩ else none
  | none => none

/-! ## What libgit2 answers -/

/-- A line of a hunk (`git_diff_line`): its line numbers in the old and in the
new file, `-1` when it is absent there, and its `content_len` bytes of
`content`. -/
structure git_diff_line where
  old_lineno : Int
  new_lineno : Int
  content : List Char
deriving DecidableEq, Repr

/-- The status of a delta (`git_delta_t`); `OTHER` is any value that
`printshowfile` does not name. -/
inductive git_delta_t where
  | GIT_DELTA_ADDED
  | GIT_DELTA_COPIED
  | GIT_DELTA_DELETED
  | GIT_DELTA_MODIFIED
  | GIT_DELTA_RENAMED
  | GIT_DELTA_TYPECHANGE
  | OTHER
deriving DecidableEq, Repr

/-- A patch (`git_patch`) as the code reads it.  `binary` is
`delta->flags & GIT_DIFF_FLAG_BINARY`; `hunks` has `git_patch_num_hunks`
entries, entry `j` being `none` when `git_patch_get_hunk` fails for `j` and
otherwise the lines of hunk `j` (`git_patch_get_line_in_hunk` succeeds for
exactly the indices of that list).  `status`, `old_path` and `new_path` are
`delta->status`, `delta->old_file.path` and `delta->new_file.path` of
`git_patch_get_delta`; entry `j` of `headers` is the `header_len` bytes of
`hunk->header` of hunk `j`. -/
structure git_patch where
  binary : Bool
  hunks : List (Option (List git_diff_line))
  status : git_delta_t
  old_path : List Char
  new_path : List Char
  headers : List (List Char)
deriving DecidableEq, Repr

/-- A diff (`git_diff`): `git_diff_num_deltas` is the length of `patches`;
`git_patch_from_diff` fails for `i` when entry `i` is `none`. -/
structure git_diff where
  patches : List (Option git_patch)
deriving DecidableEq, Repr

/-- A tree handle (`git_tree`). -/
structure git_tree where
  id : git_oid
deriving DecidableEq

/-- Time of a signature (`git_time`). -/
structure git_time where
  time : Int
  offset : Int
deriving DecidableEq, Repr

/-- An author or committer (`git_signature`); `when_` is the C field `when`. -/
structure git_signature where
  name : List Char
  email : List Char
  when_ : git_time
deriving DecidableEq, Repr

/-- A commit object as the object database holds it, before libgit2 parses
it: the fields of its header and its message.  `author` is `none` when the
object has no author line that can be read. -/
structure commit_object where
  id : git_oid
  parent_id : Option git_oid
  tree_id : git_oid
  author : Option git_signature
  committer : Option git_signature
  summary : Option (List Char)
  message : Option (List Char)
deriving DecidableEq

/-- A parsed commit (`git_commit`) with what the accessors of libgit2 return:
`git_commit_id`, `git_commit_parent_id(…, 0)`, `git_commit_tree_id`,
`git_commit_author`, `git_commit_committer`, `git_commit_summary`,
`git_commit_message`.  libgit2 parses the author line when it makes the
`git_commit` and `git_commit_author` returns the parsed signature, so a
`git_commit` always has an author. -/
structure git_commit where
  id : git_oid
  parent_id : Option git_oid
  tree_id : git_oid
  author : git_signature
  committer : Option git_signature
  summary : Option (List Char)
  message : Option (List Char)
deriving DecidableEq

/-- The type of a reference (`git_reference_type`): a direct reference to an
object id, a symbolic reference to another reference, or neither. -/
inductive git_ref_t where
  | GIT_REF_INVALID
  | GIT_REF_OID
  | GIT_REF_SYMBOLIC
deriving DecidableEq, Repr

/-- A reference (`git_reference`) with what the accessors of libgit2 return:
`git_reference_is_branch`, `git_reference_is_tag`, `git_reference_shorthand`,
`git_reference_type`, `git_reference_target` (`none`: `NULL`), and
`git_reference_peel(…, GIT_OBJ_ANY)` followed by `git_object_id` (`none`: the
peel fails; `some none`: the object has no id). -/
structure git_reference where
  is_branch : Bool
  is_tag : Bool
  shorthand : List Char
  reftype : git_ref_t
  target : Option git_oid
  peel : Option (Option git_oid)
deriving DecidableEq

/-- The repository as the program sees it through libgit2 (`static
git_repository *repo`).  Every field is one library call; `none` (or `false`
for `diff_find_init_options`) is a non-zero return code. -/
structure git_repository where
  /-- The commit object the object database holds under an id; `none` when
  the id does not resolve to a commit object. -/
  odb_commit : git_oid → Option commit_object
  /-- The call `git_tree_lookup`. -/
  tree_lookup : git_oid → Option git_tree
  /-- The call `git_commit_parent(…, commit, 0)`. -/
  commit_parent : git_commit → Option git_commit
  /-- The call `git_diff_tree_to_tree(…, old_tree, new_tree, …)`. -/
  diff_tree_to_tree : Option git_tree → Option git_tree → Option git_diff
  /-- Whether `git_diff_find_init_options` succeeds. -/
  diff_find_init_options : Bool
  /-- The call `git_diff_find_similar`, which rewrites the diff in place. -/
  diff_find_similar : git_diff → Option git_diff
  /-- The ids `git_revwalk_next` yields, in order, after `git_revwalk_push` of
  the argument; the call fails after the last one. -/
  revwalk : git_oid → List git_oid
  /-- The id of `HEAD` (`git_revparse_single`), `none` when it does not resolve. -/
  head : Option git_oid
  /-- The references `git_reference_next` yields, in order, after
  `git_reference_iterator_new`; `none` when the iterator cannot be made. -/
  references : Option (List git_reference)
  /-- The call `git_reference_resolve` on a symbolic reference. -/
  reference_resolve : git_reference → Option git_reference

/-- The call `git_commit_lookup` as libgit2 answers it: it fails when the id
does not resolve to a commit object, and when the object cannot be parsed
because its author line cannot be read; otherwise it hands out the parsed
commit. -/
def git_repository.commit_lookup (repo : git_repository) (id : git_oid) : Option git_commit :=
  match repo.odb_commit id with
  | none => none
  | some o =>
    match o.author with
    | none => none
    | some a =>
      some
        { id := o.id
          parent_id := o.parent_id
          tree_id := o.tree_id
          author := a
          committer := o.committer
          summary := o.summary
          message := o.message }

/-! ## Commit records and their statistics -/

/-- The C `struct deltainfo`. -/
structure deltainfo where
  patch : git_patch
  addcount : Nat
  delcount : Nat
deriving DecidableEq, Repr

/-- The C `struct commitinfo`.  `commit` is never `NULL` in a record that
`commitinfo_getbyoid` returns, so it is not an `Option`.  `deltas` is the
`calloc`ed array of `ndeltas` pointers: `none` is the `NULL` array, an entry
`none` a slot not filled yet. -/
structure commitinfo where
  id : git_oid
  oid : List Char
  parentoid : List Char
  author : Option git_signature
  committer : Option git_signature
  summary : Option (List Char)
  msg : Option (List Char)
  diff : Option git_diff
  commit : git_commit
  parent : Option git_commit
  commit_tree : Option git_tree
  parent_tree : Option git_tree
  addcount : Nat
  delcount : Nat
  filecount : Nat
  deltas : Option (List (Option deltainfo))
  ndeltas : Nat
deriving DecidableEq

/-- The function `commitinfo_getbyoid`: a zeroed record filled from the commit
object, or `NULL` when `git_commit_lookup` fails. -/
def commitinfo_getbyoid (repo : git_repository) (id : git_oid) : Option commitinfo :=
  match repo.commit_lookup id with
  | none => none
  | some c =>
    some
      { id := id
        oid := git_oid_tostr c.id
        parentoid := match c.parent_id with
          | some p => git_oid_tostr p
          | none => []
        author := some c.author
        committer := c.committer
        summary := c.summary
        msg := c.message
        diff := none
        commit := c
        parent := none
        commit_tree := none
        parent_tree := none
        addcount := 0
        delcount := 0
        filecount := 0
        deltas := none
        ndeltas := 0 }

/-- The body of the innermost loop of `commitinfo_getstats`: one line of a hunk
bumps the counters of the delta and of the commit together. -/
def countline (s : deltainfo × commitinfo) (line : git_diff_line) : deltainfo × commitinfo :=
  if line.old_lineno = -1 then
    ({ s.1 with addcount := s.1.addcount + 1 }, { s.2 with addcount := s.2.addcount + 1 })
  else if line.new_lineno = -1 then
    ({ s.1 with delcount := s.1.delcount + 1 }, { s.2 with delcount := s.2.delcount + 1 })
  else s

/-- The loop `for (j = 0; j < nhunks; j++)` of `commitinfo_getstats`: a hunk
that `git_patch_get_hunk` cannot return leaves the loop (`break`), the hunks
before it stay counted. -/
def counthunks (s : deltainfo × commitinfo) :
    List (Option (List git_diff_line)) → deltainfo × commitinfo
  | [] => s
  | none :: _ => s
  | some lines :: rest => counthunks (lines.foldl countline s) rest

/-- The loop `for (i = 0; i < ndeltas; i++)` of `commitinfo_getstats` from
index `i` on, over the patches not visited yet.  `none` is `goto err`
(`git_patch_from_diff` failed); otherwise the record after the loop and the
final value of `i`. -/
def getstats_deltas (ci : commitinfo) (i : Nat) :
    List (Option git_patch) → Option (commitinfo × Nat)
  | [] => some (ci, i)
  | none :: _ => none
  | some patch :: rest =>
    let di : deltainfo := { patch := patch, addcount := 0, delcount := 0 }
    let s := if patch.binary then (di, ci) else counthunks (di, ci) patch.hunks
    let ci1 := { s.2 with deltas := s.2.deltas.map (fun a => a.set i (some s.1)) }
    getstats_deltas ci1 (i + 1) rest

/-- The block after the label `err` of `commitinfo_getstats`, and its `-1`. -/
def getstats_err (ci : commitinfo) : Int × commitinfo :=
  (-1, { ci with
          diff := none, commit_tree := none, parent_tree := none, parent := none,
          deltas := none, ndeltas := 0, addcount := 0, delcount := 0, filecount := 0 })

/-- The first statements of `commitinfo_getstats`: the first parent and its
tree.  A parent whose tree cannot be looked up is dropped, which is not an
error: the commit is then diffed like a root commit. -/
def getstats_parent (repo : git_repository) (ci : commitinfo) : commitinfo :=
  match repo.commit_parent ci.commit with
  | none => ci
  | some p =>
    match repo.tree_lookup p.tree_id with
    | none => { ci with parent := none, parent_tree := none }
    | some pt => { ci with parent := some p, parent_tree := some pt }

/-- The end of `commitinfo_getstats`, from `ndeltas = git_diff_num_deltas`
on: the array is allocated when there are deltas, the loop runs, and
`ndeltas` and `filecount` are set from the final `i`. -/
def getstats_count (ci : commitinfo) (d : git_diff) : Int × commitinfo :=
  let ndeltas := d.patches.length
  let ci3 :=
    if ndeltas ≠ 0 then { ci with deltas := some (List.replicate ndeltas none) }
    else ci
  match getstats_deltas ci3 0 d.patches with
  | none => getstats_err ci3
  | some (ci4, i) => (0, { ci4 with ndeltas := i, filecount := i })

/-- The middle of `commitinfo_getstats`: the diff of the two trees and the
pass that finds renames and copies. -/
def getstats_diff (repo : git_repository) (ci : commitinfo) : Int × commitinfo :=
  match repo.diff_tree_to_tree ci.parent_tree ci.commit_tree with
  | none => getstats_err ci
  | some d0 =>
    if !repo.diff_find_init_options then getstats_err { ci with diff := some d0 }
    else
      match repo.diff_find_similar d0 with
      | none => getstats_err { ci with diff := some d0 }
      | some d => getstats_count { ci with diff := some d } d

/-- The function `commitinfo_getstats`: the return code and the record it
leaves behind. -/
def commitinfo_getstats (repo : git_repository) (ci : commitinfo) : Int × commitinfo :=
  match repo.tree_lookup ci.commit.tree_id with
  | none => getstats_err ci
  | some ct => getstats_diff repo (getstats_parent repo { ci with commit_tree := some ct })

/-- Sum of the per-delta added-line counters. -/
def sumadd (ds : List deltainfo) : Nat := (ds.map (fun di => di.addcount)).sum

/-- Sum of the per-delta deleted-line counters. -/
def sumdel (ds : List deltainfo) : Nat := (ds.map (fun di => di.delcount)).sum

/-- The fields of a record that the counting loops never touch, and the
relation between the counters of the delta and of the commit. -/
structure CountRel (s t : deltainfo × commitinfo) : Prop where
  patch : t.1.patch = s.1.patch
  deltas : t.2.deltas = s.2.deltas
  diff : t.2.diff = s.2.diff
  add : t.2.addcount + s.1.addcount = s.2.addcount + t.1.addcount
  del : t.2.delcount + s.1.delcount = s.2.delcount + t.1.delcount

/-- Whether one of the calls that make the diff between two trees fails:
`git_diff_tree_to_tree`, `git_diff_find_init_options`,
`git_diff_find_similar`, or `git_patch_from_diff` for one of the deltas. -/
def diff_failure (repo : git_repository) (old_tree new_tree : Option git_tree) : Bool :=
  match repo.diff_tree_to_tree old_tree new_tree with
  | none => true
  | some d0 =>
    !repo.diff_find_init_options ||
      (match repo.diff_find_similar d0 with
       | none => true
       | some d => d.patches.any (fun p => p.isNone))

/-- The calls whose failure sends `commitinfo_getstats` to its label `err`:
the lookup of the tree of the commit, and the calls of `diff_failure` on the
tree of the first parent (absent when it has none or when its tree cannot be
looked up) and the tree of the commit.  The lookup of the tree of the first
parent and `git_patch_get_hunk` are not among them. -/
def getstats_failure (repo : git_repository) (ci : commitinfo) : Bool :=
  match repo.tree_lookup ci.commit.tree_id with
  | none => true
  | some ct =>
    diff_failure repo (getstats_parent repo { ci with commit_tree := some ct }).parent_tree
      (some ct)

/-! ## Text output -/

/-- The NUL byte that ends a C string. -/
def NUL : Char := Char.ofNat 0

/-- The C `strlen`: the number of characters before the first NUL. -/
def strlen (s : List Char) : Nat := (s.takeWhile (fun c => c != NUL)).length

/-- The function `xmlencode`: the bytes it writes for the buffer `s` and the
length `len`.  The loop stops at the first NUL or after `len` characters. -/
def xmlencode : List Char → Nat → List Char
  | [], _ => []
  | _ :: _, 0 => []
  | c :: cs, len + 1 =>
    if c = NUL then []
    else
      (if c = '<' then "&lt;".toList
       else if c = '>' then "&gt;".toList
       else if c = '\'' then "&#39;".toList
       else if c = '&' then "&amp;".toList
       else if c = '"' then "&quot;".toList
       else [c]) ++ xmlencode cs len

/-- What the C library and the operating system answer, and the text of the
pages whose rendering is not embedded here. -/
structure Sys where
  /-- The text `printtimeshort` writes for a time (`gmtime` and `strftime`
  with `%Y-%m-%d`; nothing when `gmtime` fails). -/
  printtimeshort : git_time → List Char
  /-- The text `strftime` writes with the format `fmt` for the time `t`
  broken down by `gmtime`; `none` when `gmtime` fails. -/
  strftime : List Char → Int → Option (List Char)
  /-- The bytes `writelog` writes to a commit page between `efopen` and
  `checkfileerror`: `writeheader`, `printshowfile`, `writefooter` and the
  markup around them, with `relpath` equal to `../`. -/
  commitpage : commitinfo → List Char
  /-- The bytes `main` writes to `log.html` before the log lines
  (`writeheader` and the head of the table). -/
  logheader : List Char
  /-- The bytes `main` writes to `log.html` after the log lines (the end of
  the table and `writefooter`). -/
  logfooter : List Char
  /-- The text of `README.html`, when the repository has a README. -/
  readme : Option (List Char)
  /-- The text of `files.html`. -/
  files_html : List Char
  /-- The file pages `writefiles` writes: the path of the entry in the tree
  and the text of its page `file/<path>.html`. -/
  blobs : List (List Char × List Char)
  /-- The text of `refs.html`. -/
  refs_html : List Char
  /-- The text of `atom.xml`. -/
  atom_xml : List Char
  /-- The text of `tags.xml`. -/
  tags_xml : List Char
  /-- Whether `realpath` of the repository directory fails. -/
  realpath_fails : Bool
  /-- Whether `fopen(path, "w")` fails. -/
  fopen_w_fails : List Char → Bool
  /-- Whether `fopen(path, "r")` fails on a file that exists. -/
  fopen_r_fails : List Char → Bool
  /-- Whether reading the first line of the cache file hits a read error. -/
  fgets_error : Bool
  /-- Whether reading the rest of the cache file hits a read error. -/
  fread_error : Bool
  /-- Whether the stream written to `path` reports an error when
  `checkfileerror(fp, path, 'w')` flushes and tests it. -/
  write_error : List Char → Bool
  /-- The twelve characters `mkstemp` puts in place of `XXXXXXXXXXXX`;
  `none` when it returns `-1`. -/
  mkstemp : Option (List Char)
  /-- Whether `rename` fails. -/
  rename_fails : Bool
  /-- Whether `chmod` fails. -/
  chmod_fails : Bool

/-- The function `writelogline`: one row of the log table, for the value of
the global `relpath` at the call. -/
def writelogline (sys : Sys) (relpath : List Char) (ci : commitinfo) : List Char :=
  "<tr><td>".toList
  ++ (match ci.author with
      | some a => sys.printtimeshort a.when_
      | none => [])
  ++ "</td><td>".toList
  ++ (match ci.summary with
      | some summary =>
        "<a href=\"".toList ++ relpath ++ "commit/".toList ++ ci.oid ++ ".html\">".toList
        ++ xmlencode summary (strlen summary) ++ "</a>".toList
      | none => [])
  ++ "</td>".toList
  ++ "<td class=\"num\">".toList
  ++ (Nat.repr ci.filecount).toList
  ++ "</td><td class=\"num\">".toList
  ++ "+".toList ++ (Nat.repr ci.addcount).toList
  ++ "</td><td class=\"num\">".toList
  ++ "-".toList ++ (Nat.repr ci.delcount).toList
  ++ "</td></tr>\n".toList

/-! ## The output directory -/

/-- The files of the output directory and of the cache: the content at each
path (`none`: no such file), and the paths opened for writing so far, in the
order of the calls (`fopen` with mode `w`, `mkstemp`). -/
structure World where
  files : List Char → Option (List Char)
  wopens : List (List Char)

/-- The file at `path` now holds `text`. -/
def World.store (w : World) (path text : List Char) : World :=
  { w with files := fun p => if p = path then some text else w.files p }

/-- The C `access(path, F_OK)`: `0` when the file exists, `-1` otherwise. -/
def access (w : World) (path : List Char) : Int :=
  if (w.files path).isSome then 0 else -1

/-- The file at `path` is created or truncated by an open for writing, and
the call is recorded. -/
def World.create (w : World) (path : List Char) : World :=
  { files := fun p => if p = path then some [] else w.files p,
    wopens := w.wopens ++ [path] }

/-- The function `efopen` for mode `w`: `none` when `fopen` fails, which ends
the process with status 1; otherwise the file exists, empty, and the call is
recorded. -/
def efopen (sys : Sys) (w : World) (path : List Char) : Option World :=
  if sys.fopen_w_fails path then none else some (w.create path)

/-! ## The history walk -/

/-- The path of the page of a commit: `snprintf(path, …, "commit/%s.html",
oidstr)`.  Its 52 bytes always fit in `PATH_MAX`. -/
def commitpath (id : git_oid) : List Char :=
  "commit/".toList ++ git_oid_tostr id ++ ".html".toList

/-- The variables `writelog` reads and writes: the globals `relpath` and
`nlogcommits`, the bytes written so far to `fp` and to the global stream
`wcachefp`, the local `remcommits`, and the files. -/
structure Walk where
  relpath : List Char
  nlogcommits : Int
  fp : List Char
  wcachefp : List Char
  remcommits : Nat
  world : World

/-- How one turn of the loop of `writelog` ends: with the next commit
(`continue`, or the end of the body), by leaving the loop (`break`), or by
ending the process with status 1 (`err`, `errx`). -/
inductive Ctl where
  | next
  | stop
  | abort
deriving DecidableEq, Repr

/-- The statements `if (!nlogcommits) remcommits++` of the body of the loop:
a commit met when no log line is left to write is counted. -/
def writelog_count (s : Walk) : Walk :=
  if s.nlogcommits = 0 then { s with remcommits := s.remcommits + 1 } else s

/-- The two calls of `writelogline` in the body of the loop: to `fp` while the
budget `nlogcommits` is not 0 (a positive budget goes down by one), and to
`wcachefp` when a cache file is configured. -/
def writelog_lines (sys : Sys) (cachefile : Option (List Char)) (s : Walk) (ci : commitinfo) :
    Walk :=
  let s2 :=
    if s.nlogcommits ≠ 0 then
      { s with
          fp := s.fp ++ writelogline sys s.relpath ci,
          nlogcommits := if s.nlogcommits > 0 then s.nlogcommits - 1 else s.nlogcommits }
    else s
  if cachefile.isSome then
    { s2 with wcachefp := s2.wcachefp ++ writelogline sys s2.relpath ci }
  else s2

/-- The block of the body of the loop that writes the page of a commit:
`relpath` is `../`, the file is opened with `efopen`, written, tested with
`checkfileerror` and closed. -/
def writelog_page (sys : Sys) (s : Walk) (path : List Char) (ci : commitinfo) : Walk × Ctl :=
  let s4 := { s with relpath := "../".toList }
  match efopen sys s4.world path with
  | none => (s4, Ctl.abort)
  | some w1 =>
    let w2 := w1.store path (sys.commitpage ci)
    if sys.write_error path then ({ s4 with world := w2 }, Ctl.abort)
    else ({ s4 with world := w2 }, Ctl.next)

/-- The body of the loop of `writelog` after the test of the cursor, for the
commit `id` that `git_revwalk_next` returned.  `relpath` has been reset. -/
def writelog_body (repo : git_repository) (sys : Sys) (cachefile : Option (List Char))
    (s : Walk) (id : git_oid) : Walk × Ctl :=
  let path := commitpath id
  let r := access s.world path
  /- optimization: if there are no log lines to write and
     the commit file already exists: skip the diffstat -/
  let s1 := writelog_count s
  if s.nlogcommits = 0 ∧ r = 0 then (s1, Ctl.next)
  else
    match commitinfo_getbyoid repo id with
    | none => (s1, Ctl.stop)
    | some ci0 =>
      /- diffstat: for stagit HTML required for the log.html line -/
      let st := commitinfo_getstats repo ci0
      if st.1 = -1 then (s1, Ctl.next)
      else
        let s3 := writelog_lines sys cachefile s1 st.2
        /- check if file exists if so skip it -/
        if r ≠ 0 then writelog_page sys s3 path st.2
        else (s3, Ctl.next)

/-- One turn of the loop of `writelog`: `relpath` is reset, the walk stops at
the cursor when a cache file is configured, and the body runs otherwise. -/
def writelog_step (repo : git_repository) (sys : Sys) (cachefile : Option (List Char))
    (lastoid : git_oid) (s : Walk) (id : git_oid) : Walk × Ctl :=
  let s0 := { s with relpath := [] }
  if cachefile.isSome ∧ id = lastoid then (s0, Ctl.stop)
  else writelog_body repo sys cachefile s0 id

/-- The loop `while (!git_revwalk_next(&id, w))` of `writelog` over the ids
the walk yields.  The flag says whether the process was ended inside. -/
def writelog_loop (repo : git_repository) (sys : Sys) (cachefile : Option (List Char))
    (lastoid : git_oid) (s : Walk) : List git_oid → Walk × Bool
  | [] => (s, false)
  | id :: rest =>
    match writelog_step repo sys cachefile lastoid s id with
    | (s1, Ctl.next) => writelog_loop repo sys cachefile lastoid s1 rest
    | (s1, Ctl.stop) => (s1, false)
    | (s1, Ctl.abort) => (s1, true)

/-- The same loop without the test of the cursor: the body runs on every id. -/
def writelog_bodies (repo : git_repository) (sys : Sys) (cachefile : Option (List Char))
    (s : Walk) : List git_oid → Walk × Bool
  | [] => (s, false)
  | id :: rest =>
    match writelog_body repo sys cachefile { s with relpath := [] } id with
    | (s1, Ctl.next) => writelog_bodies repo sys cachefile s1 rest
    | (s1, Ctl.stop) => (s1, false)
    | (s1, Ctl.abort) => (s1, true)

/-- The notice `writelog` prints after the loop when the budget of log lines
is used up and commits remain. -/
def remaining_notice (remcommits : Nat) : List Char :=
  "<tr><td></td><td colspan=\"5\">".toList ++ (Nat.repr remcommits).toList
  ++ " more commits remaining, fetch the repository</td></tr>\n".toList

/-- The statements of `writelog` after the loop: the notice, and `relpath`
reset.  Nothing runs when the process was ended inside the loop. -/
def writelog_end (l : Walk × Bool) : Walk × Bool :=
  if l.2 then l
  else
    let s1 := l.1
    let s2 :=
      if s1.nlogcommits = 0 ∧ s1.remcommits ≠ 0 then
        { s1 with fp := s1.fp ++ remaining_notice s1.remcommits }
      else s1
    ({ s2 with relpath := [] }, false)

/-- The function `writelog`: `remcommits` starts at 0, the loop runs over the
walk from `oid`, then the end.  The flag says whether the process was ended
inside (the function then does not return). -/
def writelog (repo : git_repository) (sys : Sys) (cachefile : Option (List Char))
    (lastoid : git_oid) (s : Walk) (oid : git_oid) : Walk × Bool :=
  writelog_end
    (writelog_loop repo sys cachefile lastoid { s with remcommits := 0 } (repo.revwalk oid))

/-! ## The command line -/

/-- The globals the argument loop of `main` sets: `repodir`, `cachefile`,
`nlogcommits` (`-1` indicates not used) and `baseurl`. -/
structure Config where
  repodir : Option (List Char)
  cachefile : Option (List Char)
  nlogcommits : Int
  baseurl : List Char
deriving DecidableEq, Repr

/-- The initial values of the globals. -/
def Config.init : Config :=
  { repodir := none, cachefile := none, nlogcommits := -1, baseurl := [] }

/-- The C `isspace` in the C locale. -/
def isspace (c : Char) : Bool :=
  c = ' ' || (9 ≤ c.toNat && c.toNat ≤ 13)

/-- The constant `LLONG_MAX`. -/
def LLONG_MAX : Int := 2 ^ 63 - 1

/-- The C `strtoll(s, &p, 10)`: the value, the rest of the string at `p`, and
whether `errno` is set.  White space is skipped, a sign may precede the
digits, a value out of range is clamped with `ERANGE`; without any digit
nothing is converted and `p` is `s`. -/
def strtoll (s : List Char) : Int × List Char × Bool :=
  let t := s.dropWhile isspace
  let neg := t.head? = some '-'
  let u := if t.head? = some '-' ∨ t.head? = some '+' then t.tail else t
  let digits := u.takeWhile Char.isDigit
  let rest := u.dropWhile Char.isDigit
  if digits = [] then (0, s, false)
  else
    let v : Int := digits.foldl (fun acc c => acc * 10 + ((c.toNat - 48 : Nat) : Int)) 0
    if neg then
      if v > LLONG_MAX + 1 then (-(LLONG_MAX + 1), rest, true) else (-v, rest, false)
    else
      if v > LLONG_MAX then (LLONG_MAX, rest, true) else (v, rest, false)

/-- The argument loop of `main` (`for (i = 1; i < argc; i++)`) over the
arguments not read yet; `none` is a call of `usage`, which ends the process
with status 1. -/
def main_args : Config → List (List Char) → Option Config
  | cfg, [] => some cfg
  | cfg, [a] =>
    if a.head? ≠ some '-' then
      if cfg.repodir.isSome then none else some { cfg with repodir := some a }
    else if a.get? 1 = some 'c' then none
    else if a.get? 1 = some 'l' then none
    else if a.get? 1 = some 'u' then none
    else some cfg
  | cfg, a :: v :: rest =>
    if a.head? ≠ some '-' then
      if cfg.repodir.isSome then none
      else main_args { cfg with repodir := some a } (v :: rest)
    else if a.get? 1 = some 'c' then
      if cfg.nlogcommits > 0 then none
      else main_args { cfg with cachefile := some v } rest
    else if a.get? 1 = some 'l' then
      if cfg.cachefile.isSome then none
      else
        let n := strtoll v
        if v = [] ∨ n.2.1 ≠ [] ∨ n.1 ≤ 0 ∨ n.2.2 then none
        else main_args { cfg with nlogcommits := n.1 } rest
    else if a.get? 1 = some 'u' then
      main_args { cfg with baseurl := v } rest
    else main_args cfg (v :: rest)

/-- The configuration a command line gives, `argv[0]` included in `argv`;
`none` when `main` calls `usage` (also for a missing `repodir`). -/
def parse_args (argv : List (List Char)) : Option Config :=
  match main_args Config.init argv.tail with
  | none => none
  | some cfg => if cfg.repodir.isSome then some cfg else none

/-- What the argument loop maintains: a cache file excludes a log limit, and a
log limit that is set is positive. -/
def ArgsInv (cfg : Config) : Prop :=
  (cfg.cachefile.isSome = true → cfg.nlogcommits = -1) ∧
  (cfg.nlogcommits = -1 ∨ 0 < cfg.nlogcommits)

/-! ## The cache protocol of `main` -/

/-- The C `fgets` without its size test: at most `n` characters, up to and
including the first newline; what was read and what is left of the stream. -/
def fgets_line : Nat → List Char → List Char × List Char
  | 0, s => ([], s)
  | _ + 1, [] => ([], [])
  | n + 1, c :: cs =>
    if c = '\n' then ([c], cs)
    else ((fgets_line n cs).1.cons c, (fgets_line n cs).2)

/-- The C `fgets(buf, size, stream)`: `none` (a `NULL` return) at the end of
the stream, otherwise at most `size - 1` characters. -/
def fgets (size : Nat) (stream : List Char) : Option (List Char × List Char) :=
  if stream = [] then none else some (fgets_line (size - 1) stream)

/-- The path `log.html`. -/
def logpath : List Char := "log.html".toList

/-- The path of the temporary cache file: the template `cache.XXXXXXXXXXXX`
of `tmppath` with the characters `mkstemp` chose. -/
def tmppath (chosen : List Char) : List Char := "cache.".toList ++ chosen

/-- The statements of `main` that read the cursor (`rcachefp`, `lastoidstr`,
`lastoid`).  `none`: the process ends with status 1 (`no object id`,
`invalid object id`).  Otherwise the value of `lastoid`, which stays the
all-zero id when there is no cache file, and what is left to read of the
cache file (`none` when `rcachefp` is `NULL`). -/
def readcursor (sys : Sys) (w : World) (cachefile : List Char) :
    Option (git_oid × Option (List Char)) :=
  match (if sys.fopen_r_fails cachefile then none else w.files cachefile) with
  | none => some (git_oid.zero, none)
  | some content =>
    match (if sys.fgets_error then none else fgets (GIT_OID_HEXSZ + 2) content) with
    | none => none
    | some line =>
      match git_oid_fromstr line.1 with
      | none => none
      | some id => some (id, some line.2)

/-- What the part of `main` under `log for HEAD` leaves behind when the
process goes on: the files, and the path of the temporary cache file when one
was written. -/
structure LogResult where
  world : World
  tmp : Option (List Char)

/-- The part of `main` from `log for HEAD` to the `fclose` of `log.html`.
An `Except.error` carries the files at the moment the process ends with
status 1 (the open streams are flushed by `exit`). -/
def main_log (repo : git_repository) (sys : Sys) (cfg : Config) (w : World) :
    Except World LogResult :=
  match efopen sys w logpath with
  | none => Except.error w
  | some w1 =>
    let s0 : Walk :=
      { relpath := [], nlogcommits := cfg.nlogcommits, fp := sys.logheader,
        wcachefp := [], remcommits := 0, world := w1 }
    match cfg.cachefile, repo.head with
    | some cachefile, some head =>
      /- read from cache file (does not need to exist) -/
      match readcursor sys w1 cachefile with
      | none => Except.error (w1.store logpath s0.fp)
      | some (lastoid, rcachefp) =>
        /- write log to (temporary) cache -/
        match sys.mkstemp with
        | none => Except.error (w1.store logpath s0.fp)
        | some chosen =>
          /- `mkstemp` only returns a file it created: a name that exists is a failure -/
          if (w1.files (tmppath chosen)).isSome then Except.error (w1.store logpath s0.fp)
          else
            let w2 : World := w1.create (tmppath chosen)
            /- write last commit id (HEAD) -/
            let s1 := { s0 with wcachefp := git_oid_tostr head ++ ['\n'], world := w2 }
            let l := writelog repo sys (some cachefile) lastoid s1 head
            let s2 := l.1
            if l.2 then
              Except.error ((s2.world.store logpath s2.fp).store (tmppath chosen) s2.wcachefp)
            else
              /- append previous log to log.html and the new cache -/
              if rcachefp.isSome ∧ sys.fread_error then
                Except.error ((s2.world.store logpath s2.fp).store (tmppath chosen) s2.wcachefp)
              else
                let fp := s2.fp ++ rcachefp.getD []
                let wcachefp := s2.wcachefp ++ rcachefp.getD []
                let w3 := s2.world.store (tmppath chosen) wcachefp
                if sys.write_error (tmppath chosen) then Except.error (w3.store logpath fp)
                else
                  let w4 := w3.store logpath (fp ++ sys.logfooter)
                  if sys.write_error logpath then Except.error w4
                  else Except.ok { world := w4, tmp := some (tmppath chosen) }
    | _, head =>
      let l :=
        match head with
        | some head => writelog repo sys cfg.cachefile git_oid.zero s0 head
        | none => (s0, false)
      let s2 := l.1
      if l.2 then Except.error (s2.world.store logpath s2.fp)
      else
        let w4 := s2.world.store logpath (s2.fp ++ sys.logfooter)
        if sys.write_error logpath then Except.error w4
        else Except.ok { world := w4, tmp := none }

/-- One page written whole: `efopen`, the text, `checkfileerror`, `fclose`.
An `Except.error` carries the files when the process ends with status 1. -/
def writepage (sys : Sys) (w : World) (page : List Char × List Char) : Except World World :=
  match efopen sys w page.1 with
  | none => Except.error w
  | some w1 =>
    if sys.write_error page.1 then Except.error (w1.store page.1 page.2)
    else Except.ok (w1.store page.1 page.2)

/-- Pages written one after the other. -/
def writepages (sys : Sys) (w : World) : List (List Char × List Char) → Except World World
  | [] => Except.ok w
  | page :: rest =>
    match writepage sys w page with
    | Except.error w1 => Except.error w1
    | Except.ok w1 => writepages sys w1 rest

/-- The pages `main` writes between the log and the `rename` of the cache:
`files.html` with the file pages `file/<path>.html` of `writefiles`,
`refs.html`, `atom.xml` and `tags.xml`. -/
def main_pages (sys : Sys) (w : World) : Except World World :=
  match efopen sys w "files.html".toList with
  | none => Except.error w
  | some w1 =>
    match writepages sys w1
        (sys.blobs.map (fun b => ("file/".toList ++ b.1 ++ ".html".toList, b.2))) with
    | Except.error w2 => Except.error (w2.store "files.html".toList sys.files_html)
    | Except.ok w2 =>
      if sys.write_error "files.html".toList then
        Except.error (w2.store "files.html".toList sys.files_html)
      else
        writepages sys (w2.store "files.html".toList sys.files_html)
          [("refs.html".toList, sys.refs_html), ("atom.xml".toList, sys.atom_xml),
           ("tags.xml".toList, sys.tags_xml)]

/-- The C `rename(from, to)` on the files: `to` gets the content of `from`,
which is gone (nothing changes when both are the same path). -/
def World.rename (w : World) (src dst : List Char) : World :=
  if src = dst then w
  else { w with files := fun p => if p = dst then w.files src
                                  else if p = src then none else w.files p }

/-- The function `main`: the exit status of the process and the files it
leaves.  `repo` is what `git_repository_open_ext` gives (`none`: it fails).
Reading `description` and `url` only changes the text of the headers and is
not embedded. -/
def main (repo : Option git_repository) (sys : Sys) (argv : List (List Char)) (w : World) :
    Nat × World :=
  match parse_args argv with
  | none => (1, w)
  | some cfg =>
    if sys.realpath_fails then (1, w)
    else
      match repo with
      | none => (1, w)
      | some repo =>
        /- README page -/
        match (match sys.readme with
               | none => some w
               | some text => (efopen sys w "README.html".toList).map
                   (fun w1 => w1.store "README.html".toList text)) with
        | none => (1, w)
        | some w1 =>
          /- log for HEAD -/
          match main_log repo sys cfg w1 with
          | Except.error w2 => (1, w2)
          | Except.ok l =>
            match main_pages sys l.world with
            | Except.error w3 => (1, w3)
            | Except.ok w3 =>
              /- rename new cache file on success -/
              match cfg.cachefile, l.tmp with
              | some cachefile, some tmp =>
                if sys.rename_fails then (1, w3)
                else if sys.chmod_fails then (1, w3.rename tmp cachefile)
                else (0, w3.rename tmp cachefile)
              | _, _ => (0, w3)

/-! ## Runs without failure -/

/-- No call of the C library or of the operating system fails. -/
def Sys.reliable (sys : Sys) : Prop :=
  sys.realpath_fails = false ∧
  (∀ p, sys.fopen_w_fails p = false) ∧
  (∀ p, sys.fopen_r_fails p = false) ∧
  sys.fgets_error = false ∧
  sys.fread_error = false ∧
  (∀ p, sys.write_error p = false) ∧
  sys.rename_fails = false ∧
  sys.chmod_fails = false

/-- The log line of the commit `id`: what `writelogline` writes, with an empty
`relpath`, for the record that `commitinfo_getbyoid` and `commitinfo_getstats`
make (nothing when the commit cannot be looked up). -/
def logline (repo : git_repository) (sys : Sys) (id : git_oid) : List Char :=
  match commitinfo_getbyoid repo id with
  | none => []
  | some ci => writelogline sys [] (commitinfo_getstats repo ci).2

/-- The log lines of a list of commits, one after the other. -/
def loglines (repo : git_repository) (sys : Sys) : List git_oid → List Char
  | [] => []
  | id :: rest => logline repo sys id ++ loglines repo sys rest

/-- The text of the page of the commit `id` (nothing when the commit cannot be
looked up). -/
def pagetext (repo : git_repository) (sys : Sys) (id : git_oid) : List Char :=
  match commitinfo_getbyoid repo id with
  | none => []
  | some ci => sys.commitpage (commitinfo_getstats repo ci).2

/-- A file opened for writing, written whole and closed. -/
def World.write (w : World) (page : List Char × List Char) : World :=
  (w.create page.1).store page.1 page.2

/-- The paths of the file pages of `writefiles`. -/
def blobpages (sys : Sys) : List (List Char × List Char) :=
  sys.blobs.map (fun b => ("file/".toList ++ b.1 ++ ".html".toList, b.2))

/-- The files `w1` come from the files `w` by writing pages of commits of
`ids`: the paths opened since `w` are pairwise different paths of commits of
`ids` that did not exist in `w` and hold the page of their commit in `w1`, and
every other path has in `w1` what it has in `w`. -/
def Grows (repo : git_repository) (sys : Sys) (w w1 : World) (ids : List git_oid) : Prop :=
  ∃ opened : List (List Char),
    w1.wopens = w.wopens ++ opened ∧
    opened.Nodup ∧
    (∀ p ∈ opened, w.files p = none ∧
      ∃ id ∈ ids, p = commitpath id ∧ w1.files p = some (pagetext repo sys id)) ∧
    (∀ p, p ∉ opened → w1.files p = w.files p)

/-! ## Sample repositories -/

/-- The object id whose 40 hexadecimal digits are all `n`. -/
def oid_of (n : Fin 16) : git_oid := ⟨List.replicate 40 n, by simp⟩

/-- A patch of a text file with one hunk: two added lines, one deleted line
and one line of context. -/
def sample_text : git_patch :=
  { binary := false,
    hunks := [some [⟨-1, 1, "new".toList⟩, ⟨1, -1, "old".toList⟩, ⟨2, 2, "same".toList⟩,
      ⟨-1, 3, "more".toList⟩]],
    status := git_delta_t.GIT_DELTA_MODIFIED,
    old_path := "README".toList, new_path := "README".toList,
    headers := ["@@ -1,2 +1,3 @@".toList] }

/-- A patch of a binary file (the library still lists a line for it). -/
def sample_binary : git_patch :=
  { binary := true, hunks := [some [⟨-1, 1, []⟩]],
    status := git_delta_t.GIT_DELTA_ADDED,
    old_path := "logo.png".toList, new_path := "logo.png".toList, headers := [[]] }

/-- A patch whose second hunk cannot be retrieved. -/
def sample_badhunk : git_patch :=
  { binary := false,
    hunks := [some [⟨-1, 1, "a".toList⟩], none, some [⟨-1, 2, "b".toList⟩, ⟨-1, 3, "c".toList⟩]],
    status := git_delta_t.GIT_DELTA_MODIFIED,
    old_path := "main.c".toList, new_path := "main.c".toList,
    headers := ["@@ -0,0 +1 @@".toList, [], "@@ -1,0 +2,2 @@".toList] }

/-- The signature of the sample author at the time `t`. -/
def sample_author (t : Int) : git_signature :=
  { name := "ann".toList, email := "ann@example.org".toList, when_ := ⟨t, 0⟩ }

/-- The commit object stored under `id` in the sample repositories, with the
author time `t`. -/
def sample_object (id : git_oid) (t : Int) : commit_object :=
  { id := id, parent_id := none, tree_id := id, author := some (sample_author t),
    committer := none, summary := some ['m', 's', 'g'], message := none }

/-- The commit `git_commit_lookup` hands out for `id` in the sample
repositories (author time 0). -/
def sample_commit (id : git_oid) : git_commit :=
  { id := id, parent_id := none, tree_id := id, author := sample_author 0, committer := none,
    summary := some ['m', 's', 'g'], message := none }

/-- A repository in which every id is a root commit changing a text file and a
binary file; the walk from `ccc…` yields `ccc…`, `bbb…`, `aaa…`. -/
def sample_repo : git_repository :=
  { odb_commit := fun id => some (sample_object id 0),
    tree_lookup := fun id => some ⟨id⟩,
    commit_parent := fun _ => none,
    diff_tree_to_tree := fun _ _ => some ⟨[some sample_text, some sample_binary]⟩,
    diff_find_init_options := true,
    diff_find_similar := fun d => some d,
    revwalk := fun id => if id = oid_of 12 then [oid_of 12, oid_of 11, oid_of 10] else [id],
    head := some (oid_of 12),
    references := some [],
    reference_resolve := fun _ => none }

/-- The sample repository when the patch of the second delta cannot be made. -/
def sample_repo_nopatch : git_repository :=
  { sample_repo with diff_tree_to_tree := fun _ _ => some ⟨[some sample_text, none]⟩ }

/-- A repository in which every commit has the first parent `000…`, whose tree
cannot be looked up. -/
def sample_repo_noparenttree : git_repository :=
  { sample_repo with
      commit_parent := fun _ => some (sample_commit (oid_of 0)),
      tree_lookup := fun id => if id = oid_of 0 then none else some ⟨id⟩ }

/-- A repository in which the second hunk of every diff cannot be retrieved. -/
def sample_repo_badhunk : git_repository :=
  { sample_repo with diff_tree_to_tree := fun _ _ => some ⟨[some sample_badhunk]⟩ }

/-- The sample repository when the commit `ccc…` cannot be looked up. -/
def sample_repo_lost : git_repository :=
  { sample_repo with
      odb_commit := fun id => if id = oid_of 12 then none else some (sample_object id 0) }

/-- The record `commitinfo_getbyoid` makes for `id` in the sample repositories. -/
def sample_ci (id : git_oid) : commitinfo :=
  { id := id, oid := git_oid_tostr id, parentoid := [], author := some (sample_author 0),
    committer := none,
    summary := some ['m', 's', 'g'], msg := none, diff := none, commit := sample_commit id,
    parent := none, commit_tree := none, parent_tree := none, addcount := 0, delcount := 0,
    filecount := 0, deltas := none, ndeltas := 0 }

/-- A system without any failure, with short texts in place of the pages. -/
def sample_sys : Sys :=
  { printtimeshort := fun _ => "2024-01-01".toList,
    strftime := fun _ _ => some "2024-01-01".toList,
    commitpage := fun ci => "page of ".toList ++ ci.oid,
    logheader := "<log>".toList,
    logfooter := "</log>".toList,
    readme := none,
    files_html := "files".toList,
    blobs := [("Makefile".toList, "all:".toList)],
    refs_html := "refs".toList,
    atom_xml := "atom".toList,
    tags_xml := "tags".toList,
    realpath_fails := false,
    fopen_w_fails := fun _ => false,
    fopen_r_fails := fun _ => false,
    fgets_error := false,
    fread_error := false,
    write_error := fun _ => false,
    mkstemp := some "abcdefghijkl".toList,
    rename_fails := false,
    chmod_fails := false }

/-- An output directory that holds nothing but the page of the commit `bbb…`. -/
def sample_world : World :=
  { files := fun p => if p = commitpath (oid_of 11) then some "old page".toList else none,
    wopens := [] }

/-- The variables of `writelog` at its call in `main`, without a log limit,
over the sample output directory. -/
def sample_walk : Walk :=
  { relpath := [], nlogcommits := -1, fp := [], wcachefp := [], remcommits := 0,
    world := sample_world }

/-- The command line `stagit -c cache repo`. -/
def sample_argv : List (List Char) :=
  ["stagit".toList, "-c".toList, "cache".toList, "repo".toList]

/-- An output directory after a run that ended at the commit `bbb…`: the
cache file `cache` holds this id and the log lines of `bbb…` and `aaa…`. -/
def sample_world_cached : World :=
  { files := fun p =>
      if p = "cache".toList then
        some (git_oid_tostr (oid_of 11) ++ '\n' ::
          loglines sample_repo sample_sys [oid_of 11, oid_of 10])
      else none,
    wopens := [] }

/-- An output directory whose cache file `cache` holds a line that is not a
commit hash. -/
def sample_world_malformed : World :=
  { files := fun p => if p = "cache".toList then some "not a hash\n".toList else none,
    wopens := [] }

/-- An output directory without any file. -/
def sample_world_new : World :=
  { files := fun _ => none, wopens := [] }

/-- The command line `stagit -l 1 repo`. -/
def sample_argv_limit : List (List Char) :=
  ["stagit".toList, "-l".toList, "1".toList, "repo".toList]

/-! ## References -/

/-- The C string held in a buffer: the characters before the first NUL. -/
def cstr (s : List Char) : List Char := s.takeWhile (fun c => c != NUL)

/-- The C `strcmp`: the difference of the first two bytes that differ, the end
of a list counting as the terminating NUL; `0` when none differs before a NUL.
Only the sign is fixed by the C standard. -/
def strcmp : List Char → List Char → Int
  | [], [] => 0
  | [], b :: _ => -(b.toNat : Int)
  | a :: _, [] => (a.toNat : Int)
  | a :: as, b :: bs =>
    if a = b then (if a = NUL then 0 else strcmp as bs)
    else (a.toNat : Int) - (b.toNat : Int)

/-- Lexicographic order of two texts, byte by byte: a text is smaller than
another when it is a proper front part of it or has the smaller byte at the
first place where they differ. -/
def lexlt : List Char → List Char → Prop
  | _, [] => False
  | [], _ :: _ => True
  | a :: as, b :: bs => a.toNat < b.toNat ∨ (a = b ∧ lexlt as bs)

/-- The C `struct referenceinfo`: a reference and the record of the commit it
points to. -/
structure referenceinfo where
  ref : git_reference
  ci : commitinfo
deriving DecidableEq

/-- The author time `refs_cmp` reads from a record: `ci->author ?
ci->author->when.time : 0`. -/
def authortime (ci : commitinfo) : Int :=
  match ci.author with
  | some a => a.when_.time
  | none => 0

/-- The value of `git_reference_is_tag` as the C `int` it is. -/
def is_tag_int (r : git_reference) : Int := if r.is_tag then 1 else 0

/-- The function `refs_cmp`, the comparator given to `qsort`. -/
def refs_cmp (r1 r2 : referenceinfo) : Int :=
  let r : Int := is_tag_int r1.ref - is_tag_int r2.ref
  if r ≠ 0 then r
  else
    let t1 := authortime r1.ci
    let t2 := authortime r2.ci
    let r : Int := if t1 > t2 then -1 else (if t1 = t2 then 0 else 1)
    if r ≠ 0 then r
    else strcmp r1.ref.shorthand r2.ref.shorthand

/-- The order `qsort` establishes with `refs_cmp`: `r1` may stand before `r2`. -/
def refs_le (r1 r2 : referenceinfo) : Prop := refs_cmp r1 r2 ≤ 0

instance refs_le_decidable : DecidableRel refs_le :=
  fun r1 r2 => inferInstanceAs (Decidable (refs_cmp r1 r2 ≤ 0))

/-- The C `qsort` with the comparator `refs_cmp`.  The C library does not fix
the algorithm; an insertion sort stands for it, and what is proved about the
result is proved for every sorted arrangement of the same entries. -/
def qsort_refs (ris : List referenceinfo) : List referenceinfo :=
  ris.insertionSort refs_le

/-- How one turn of the loop of `getrefs` ends: with the next reference
(`continue`, or the end of the body), by leaving the loop (`break`), or at the
label `err` (`goto err`). -/
inductive Jump where
  | next
  | stop
  | err
deriving DecidableEq, Repr

/-- The `switch (git_reference_type(ref))` of `getrefs`: the direct reference
`r` to go on with; a symbolic reference that cannot be resolved goes to `err`,
a reference of another type is skipped. -/
def getrefs_direct (repo : git_repository) (ref : git_reference) : Except Jump git_reference :=
  match ref.reftype with
  | git_ref_t.GIT_REF_SYMBOLIC =>
    match repo.reference_resolve ref with
    | none => Except.error Jump.err
    | some dref => Except.ok dref
  | git_ref_t.GIT_REF_OID => Except.ok ref
  | git_ref_t.GIT_REF_INVALID => Except.error Jump.next

/-- How a function that works on heap memory ends: it returns with a result,
it returns the error code `-1`, or it runs into undefined behaviour by reading
or freeing memory that was freed before. -/
inductive Outcome (α : Type) where
  | ok (a : α)
  | fail
  | fault
deriving DecidableEq

/-- The array `ris` of `getrefs` with its `refcount` entries, and whether one
of the pointers `ris[i].ref` points to memory that was freed: the entry of a
symbolic reference holds `r = dref`, and the loop frees `dref` at the end of
the same turn (`git_reference_free(dref)`). -/
structure Refs where
  ris : List referenceinfo
  freed : Bool
deriving DecidableEq

/-- The body of the loop of `getrefs` for the reference `ref`, `st` being the
array filled so far (`reallocarray` is assumed to succeed).  A new entry holds
`r`; when `ref` is symbolic `r` is `dref`, which is freed before the turn
ends. -/
def getrefs_step (repo : git_repository) (st : Refs) (ref : git_reference) : Refs × Jump :=
  if !ref.is_branch && !ref.is_tag then (st, Jump.next)
  else
    match getrefs_direct repo ref with
    | Except.error j => (st, j)
    | Except.ok r =>
      match r.target, r.peel with
      | some _, some (some id) =>
        match commitinfo_getbyoid repo id with
        | none => (st, Jump.stop)
        | some ci =>
          ({ ris := st.ris ++ [{ ref := r, ci := ci }],
             freed := st.freed || decide (ref.reftype = git_ref_t.GIT_REF_SYMBOLIC) },
            Jump.next)
      | _, _ => (st, Jump.err)

/-- The block at the label `err` of `getrefs`.  The variable `ci` still points
to the record of the last entry stored, so `commitinfo_free(ci)` followed by
`commitinfo_free(ris[i].ci)` for every entry frees that record twice: with an
entry in the array the block is undefined behaviour, with an empty array it
returns `-1`. -/
def getrefs_err (st : Refs) : Outcome Refs :=
  if st.ris.isEmpty then Outcome.fail else Outcome.fault

/-- The loop `for (refcount = 0; !git_reference_next(&ref, it); )` of
`getrefs` over the references not visited yet: the array when the loop is
left at its end or by `break`, or the outcome of the block at `err`. -/
def getrefs_loop (repo : git_repository) : Refs → List git_reference → Outcome Refs
  | st, [] => Outcome.ok st
  | st, ref :: rest =>
    match getrefs_step repo st ref with
    | (st1, Jump.next) => getrefs_loop repo st1 rest
    | (st1, Jump.stop) => Outcome.ok st1
    | (st1, Jump.err) => getrefs_err st1

/-- The call of `qsort` in `getrefs`.  With two entries or more `refs_cmp` is
called and reads `ris[i].ref` of the entries it compares, which is undefined
behaviour when one of these references was freed; with fewer entries there is
nothing to compare. -/
def getrefs_sort (st : Refs) : Outcome Refs :=
  if st.freed && decide (2 ≤ st.ris.length) then Outcome.fault
  else Outcome.ok { st with ris := qsort_refs st.ris }

/-- The function `getrefs`: `Outcome.fail` is the return value `-1`,
`Outcome.ok` the sorted array it hands out with the return value `0`. -/
def getrefs (repo : git_repository) : Outcome Refs :=
  match repo.references with
  | none => Outcome.fail
  | some refs =>
    match getrefs_loop repo { ris := [], freed := false } refs with
    | Outcome.ok st => getrefs_sort st
    | Outcome.fail => Outcome.fail
    | Outcome.fault => Outcome.fault

/-- The entries the body of the loop of `getrefs` makes for the references
`refs`, each taken on its own, in the order of `refs`. -/
def getrefs_entries (repo : git_repository) (refs : List git_reference) : List referenceinfo :=
  refs.flatMap (fun ref => (getrefs_step repo { ris := [], freed := false } ref).1.ris)

/-- The reference `ref` goes through the body of the loop of `getrefs` to its
end, and no entry made for it holds a freed reference: it is skipped, or it is
a direct reference whose commit is looked up. -/
def getrefs_passes (repo : git_repository) (ref : git_reference) : Prop :=
  (getrefs_step repo { ris := [], freed := false } ref).2 = Jump.next ∧
  (getrefs_step repo { ris := [], freed := false } ref).1.freed = false

instance getrefs_passes_decidable (repo : git_repository) (ref : git_reference) :
    Decidable (getrefs_passes repo ref) :=
  inferInstanceAs (Decidable (_ ∧ _))

/-- A direct reference to the commit whose id has the 40 digits `n`: a tag
when `tag` is set, a branch otherwise. -/
def sample_ref (tag : Bool) (name : List Char) (n : Fin 16) : git_reference :=
  { is_branch := !tag, is_tag := tag, shorthand := name,
    reftype := git_ref_t.GIT_REF_OID, target := some (oid_of n),
    peel := some (some (oid_of n)) }

/-- The sample repository with the references `refs`, in this order, and with
dated commits: `111…` has the author time 100, `222…` the time 200, `333…` the
time 50, and `000…` cannot be looked up.  The symbolic reference `s` resolves
to the branch `c`, no other symbolic reference resolves. -/
def sample_repo_refs (refs : List git_reference) : git_repository :=
  { sample_repo with
      references := some refs,
      reference_resolve := fun ref =>
        if ref.shorthand = "s".toList then some (sample_ref false "c".toList 2) else none,
      odb_commit := fun id =>
        if id = oid_of 0 then none
        else if id = oid_of 1 then some (sample_object id 100)
        else if id = oid_of 2 then some (sample_object id 200)
        else if id = oid_of 3 then some (sample_object id 50)
        else some (sample_object id 0) }

/-- The branch `b`, at the commit `111…` (time 100). -/
def ref_b : git_reference := sample_ref false "b".toList 1

/-- The branch `c`, at the commit `222…` (time 200). -/
def ref_c : git_reference := sample_ref false "c".toList 2

/-- The tag `v1`, at the commit `333…` (time 50). -/
def ref_v1 : git_reference := sample_ref true "v1".toList 3

/-- The tag `bad`, at the id `000…`, which is not a commit that can be looked up. -/
def ref_bad : git_reference := sample_ref true "bad".toList 0

/-- The symbolic branch `s`, which resolves to the branch `c`. -/
def ref_s : git_reference :=
  { is_branch := true, is_tag := false, shorthand := "s".toList,
    reftype := git_ref_t.GIT_REF_SYMBOLIC, target := none, peel := none }

/-- The entry `getrefs` makes for a sample reference at the commit `n` with
the author time `t`. -/
def sample_ri (ref : git_reference) (n : Fin 16) (t : Int) : referenceinfo :=
  { ref := ref,
    ci := { sample_ci (oid_of n) with
              author := some (sample_author t),
              commit := { sample_commit (oid_of n) with author := sample_author t } } }

/-! ## The paths a run writes -/

/-- The paths `main` opens for writing besides the pages of the commits:
`README.html`, `log.html`, `files.html`, `refs.html`, `atom.xml`, `tags.xml`,
the file pages of `writefiles`, and the temporary cache file. -/
def sidepath (sys : Sys) (p : List Char) : Prop :=
  p ∈ ["README.html".toList, logpath, "files.html".toList, "refs.html".toList,
        "atom.xml".toList, "tags.xml".toList] ∨
  p ∈ (blobpages sys).map Prod.fst ∨
  sys.mkstemp.map tmppath = some p

instance sidepath_decidable (sys : Sys) (p : List Char) : Decidable (sidepath sys p) :=
  inferInstanceAs (Decidable (_ ∨ _ ∨ _))

/-- The files the log part of `main` leaves, whether the process goes on or
ends there. -/
def log_final : Except World LogResult → World
  | Except.error w => w
  | Except.ok l => l.world

/-- The files a sequence of pages leaves, whether the process goes on or ends
there. -/
def pages_final : Except World World → World
  | Except.error w => w
  | Except.ok w => w

/-! ## The references page -/

/-- The array `titles` of `writerefs`, indexed by `j`. -/
def refs_titles (j : Nat) : List Char :=
  if j = 0 then "Branches".toList else "Tags".toList

/-- The array `ids` of `writerefs`, indexed by `j`. -/
def refs_ids (j : Nat) : List Char :=
  if j = 0 then "branches".toList else "tags".toList

/-- The header of a section of `refs.html`: the `fprintf` under `print header
if it has an entry (first)`. -/
def refs_header (j : Nat) : List Char :=
  "<h2>".toList ++ refs_titles j ++ "</h2><table id=\"".toList ++ refs_ids j
  ++ "\"><thead>\n<tr><td><b>Name</b></td><td><b>Last commit date</b></td><td><b>Author</b></td>\n</tr>\n</thead><tbody>\n".toList

/-- The footer of a section of `refs.html`. -/
def refs_footer : List Char := "</tbody></table><br/>\n".toList

/-- The row `writerefs` writes for one entry. -/
def writerefs_row (sys : Sys) (ri : referenceinfo) : List Char :=
  "<tr><td>".toList ++ xmlencode ri.ref.shorthand (strlen ri.ref.shorthand)
  ++ "</td><td>".toList
  ++ (match ri.ci.author with
      | some a => sys.printtimeshort a.when_
      | none => [])
  ++ "</td><td>".toList
  ++ (match ri.ci.author with
      | some a => xmlencode a.name (strlen a.name)
      | none => [])
  ++ "</td></tr>\n".toList

/-- The variables of the loop of `writerefs`: the section `j`, the number
`count` of rows of the section so far, and the bytes written to `fp`. -/
structure RefsOut where
  j : Nat
  count : Nat
  fp : List Char
deriving DecidableEq, Repr

/-- The body of the loop of `writerefs` for one entry. -/
def writerefs_step (sys : Sys) (s : RefsOut) (ri : referenceinfo) : RefsOut :=
  let s1 : RefsOut :=
    if s.j = 0 ∧ ri.ref.is_tag = true then
      { j := 1, count := 0, fp := s.fp ++ (if s.count ≠ 0 then refs_footer else []) }
    else s
  /- print header if it has an entry (first). -/
  let s2 : RefsOut :=
    { s1 with count := s1.count + 1,
              fp := s1.fp ++ (if s1.count + 1 = 1 then refs_header s1.j else []) }
  { s2 with fp := s2.fp ++ writerefs_row sys ri }

/-- The loop `for (i = 0, j = 0, count = 0; i < refcount; i++)` of `writerefs`
over the entries not visited yet. -/
def writerefs_loop (sys : Sys) : RefsOut → List referenceinfo → RefsOut
  | s, [] => s
  | s, ri :: rest => writerefs_loop sys (writerefs_step sys s ri) rest

/-- What `writerefs` writes for the array `ris`: the loop and the table
footer. -/
def writerefs_text (sys : Sys) (ris : List referenceinfo) : List Char :=
  let s := writerefs_loop sys { j := 0, count := 0, fp := [] } ris
  s.fp ++ (if s.count ≠ 0 then refs_footer else [])

/-- The function `writerefs`: `Outcome.fail` is the return value `-1` (nothing
is written), `Outcome.ok` the bytes written to `fp`.  The loop reads
`ris[i].ref` of every entry and the function frees it afterwards, which is
undefined behaviour when `getrefs` handed out a reference it had freed. -/
def writerefs (repo : git_repository) (sys : Sys) : Outcome (List Char) :=
  match getrefs repo with
  | Outcome.fail => Outcome.fail
  | Outcome.fault => Outcome.fault
  | Outcome.ok st =>
    if st.freed then Outcome.fault else Outcome.ok (writerefs_text sys st.ris)

/-- The rows of the entries `ris`, one after the other. -/
def refs_rows (sys : Sys) : List referenceinfo → List Char
  | [] => []
  | ri :: rest => writerefs_row sys ri ++ refs_rows sys rest

/-- A section of `refs.html` as it should be: nothing without entries,
otherwise the header of the section, the rows and the footer. -/
def refs_section (sys : Sys) (j : Nat) (ris : List referenceinfo) : List Char :=
  if ris = [] then [] else refs_header j ++ refs_rows sys ris ++ refs_footer

/-! ## The Atom feed -/

/-- Whether the first byte of a C string is not its end (`s[0]` in a
condition). -/
def nonempty (s : List Char) : Prop := s.head?.isSome ∧ s.head? ≠ some NUL

instance nonempty_decidable (s : List Char) : Decidable (nonempty s) :=
  inferInstanceAs (Decidable (_ ∧ _))

/-- The texts of a list, one after the other. -/
def cat : List (List Char) → List Char
  | [] => []
  | t :: rest => t ++ cat rest

/-- The upper-case hexadecimal digit of a half-byte: the table `tab` of
`percentencode`. -/
def hexupper (n : Nat) : Char :=
  if n < 10 then Char.ofNat (48 + n) else Char.ofNat (55 + n)

/-- The function `percentencode`: the bytes it writes for the buffer `s` and
the length `len`.  `uc` is the byte as an `unsigned char`. -/
def percentencode : List Char → Nat → List Char
  | [], _ => []
  | _ :: _, 0 => []
  | c :: cs, len + 1 =>
    if c = NUL then []
    else
      let uc := c.toNat % 256
      /- NOTE: do not encode '/' for paths or ",-." -/
      (if uc < 44 ∨ uc ≥ 127 ∨ (uc ≥ 58 ∧ uc ≤ 64) ∨ uc = 91 ∨ uc = 93 then
         ['%', hexupper ((uc / 16) % 16), hexupper (uc % 16)]
       else [Char.ofNat uc]) ++ percentencode cs len

/-- Rounding of a rational to the nearest integer, a tie going to the even
one: the rounding of IEEE 754 arithmetic. -/
def rne (x : ℚ) : ℤ :=
  let f := ⌊x⌋
  let r := x - f
  if r < 1 / 2 then f
  else if 1 / 2 < r then f + 1
  else if f % 2 = 0 then f else f + 1

/-- The value of type `float` nearest to `x`, for `x ≥ 0`: the C type `float`
is taken to be IEEE 754 binary32, with 24 bits of significand, so `x` between
`2^e` and `2^(e+1)` is rounded to a multiple of `2^(e-23)`.  The exponent is
not bounded here; binary32 agrees for magnitudes from `2^-126` up to `2^128`,
which holds of every value the bar computation forms from counters of type
`size_t`. -/
def f32 (x : ℚ) : ℚ :=
  if x ≤ 0 then 0
  else
    let p : ℚ := 2 ^ Int.log 2 x
    (rne (x * 8388608 / p) : ℚ) * p / 8388608

/-- The value of the C expression `((float)total / changed * x) + 1` before it
is assigned to a `size_t`, for `total = 78`: `changed`, `x` and `1` are
converted to `float`, and the division, the product and the sum are each
rounded to `float` (`FLT_EVAL_METHOD` 0). -/
def scaleval (changed x : Nat) : ℚ :=
  f32 (f32 (f32 (f32 78 / f32 changed) * f32 x) + f32 1)

/-- The assignment `x = ((float)total / changed * x) + 1;` of `printshowfile`:
the conversion of the `float` to `size_t` drops the fraction. -/
def scalebar (changed x : Nat) : Nat := ⌊scaleval changed x⌋₊

/-- The lengths of the two parts of the bar of a row of the diffstat: the
counters themselves, or their scaled values when their sum is more than
`total = sizeof(linestr) - 2 = 78`. -/
def barlengths (add del : Nat) : Nat × Nat :=
  let changed := add + del
  let total := 78
  if changed > total then
    (if add ≠ 0 then scalebar changed add else add,
     if del ≠ 0 then scalebar changed del else del)
  else (add, del)

/-- The test of `printshowfile` on the size of the diff. -/
def toolarge (ci : commitinfo) : Prop :=
  ci.filecount > 1000 ∨ ci.ndeltas > 1000 ∨ ci.addcount > 100000 ∨ ci.delcount > 100000

instance toolarge_decidable (ci : commitinfo) : Decidable (toolarge ci) :=
  inferInstanceAs (Decidable (_ ∨ _ ∨ _ ∨ _))

/-- The five entities `xmlencode` writes. -/
def xmlentities : List (List Char) :=
  ["&lt;".toList, "&gt;".toList, "&#39;".toList, "&amp;".toList, "&quot;".toList]

/-- The replacement of the five entities by their characters, from left to
right; `k` is the number of characters of the entity just replaced that are
still to be passed over. -/
def xmlskip : Nat → List Char → List Char
  | _, [] => []
  | k + 1, _ :: rest => xmlskip k rest
  | 0, c :: rest =>
    if c = '&' then
      if "lt;".toList.isPrefixOf rest then '<' :: xmlskip 3 rest
      else if "gt;".toList.isPrefixOf rest then '>' :: xmlskip 3 rest
      else if "#39;".toList.isPrefixOf rest then '\'' :: xmlskip 4 rest
      else if "amp;".toList.isPrefixOf rest then '&' :: xmlskip 4 rest
      else if "quot;".toList.isPrefixOf rest then '"' :: xmlskip 5 rest
      else c :: xmlskip 0 rest
    else c :: xmlskip 0 rest

/-- The text in which each of the five entities is replaced by its
character. -/
def xmldecode (s : List Char) : List Char := xmlskip 0 s

/-- The value of a hexadecimal digit, upper or lower case; `none` for any
other character. -/
def hexval (c : Char) : Option Nat :=
  if 48 ≤ c.toNat ∧ c.toNat ≤ 57 then some (c.toNat - 48)
  else if 65 ≤ c.toNat ∧ c.toNat ≤ 70 then some (c.toNat - 55)
  else if 97 ≤ c.toNat ∧ c.toNat ≤ 102 then some (c.toNat - 87)
  else none

/-- Percent-decoding (RFC 3986, section 2.1): `%` followed by two hexadecimal
digits is the byte with this value, every other character is itself. -/
def pctdecode : List Char → List Char
  | [] => []
  | [c] => [c]
  | [c, d] => c :: pctdecode [d]
  | c :: h :: l :: rest =>
    if c = '%' then
      match hexval h, hexval l with
      | some a, some b => Char.ofNat (16 * a + b) :: pctdecode rest
      | _, _ => c :: pctdecode (h :: l :: rest)
    else c :: pctdecode (h :: l :: rest)

/-- The byte a character is as an `unsigned char`. -/
def tobyte (c : Char) : Char := Char.ofNat (c.toNat % 256)

/-! ## The buffer of the diffstat bar -/

/-- The scaled length of a part of the bar as the specification computes it,
in exact arithmetic: `floor(78 * x / changed) + 1`. -/
def scale_exact (changed x : Nat) : Nat := 78 * x / changed + 1

/-- The C `memset(&buf[off], c, n)`: `none` when it would write outside the
buffer. -/
def memset (buf : List Char) (off : Nat) (c : Char) (n : Nat) : Option (List Char) :=
  if off + n ≤ buf.length then
    some (buf.take off ++ List.replicate n c ++ buf.drop (off + n))
  else none

/-- The C `fwrite(&buf[off], 1, n, fp)`: the bytes written, `none` when it
would read outside the buffer. -/
def fwrite (buf : List Char) (off n : Nat) : Option (List Char) :=
  if off + n ≤ buf.length then some ((buf.drop off).take n) else none

/-- The statements of `printshowfile` on the buffer `char linestr[80]` for one
row of the diffstat: the two calls of `memset` and the two calls of `fwrite`,
for the content `linestr` the buffer has before them.  `none` when a call
leaves the buffer; otherwise the two runs of bytes written to the page. -/
def diffstat_bar (linestr : List Char) (add del : Nat) :
    Option (List Char × List Char) :=
  let bar := barlengths add del
  match memset linestr 0 '+' bar.1 with
  | none => none
  | some l1 =>
    match memset l1 bar.1 '-' bar.2 with
    | none => none
    | some l2 =>
      match fwrite l2 0 bar.1, fwrite l2 bar.1 bar.2 with
      | some w1, some w2 => some (w1, w2)
      | _, _ => none

/-! ## Lemmas on the counting loops -/

theorem countrel_refl (s : deltainfo × commitinfo) : CountRel s s :=
  ⟨rfl, rfl, rfl, rfl, rfl⟩

theorem countrel_trans {s t u : deltainfo × commitinfo} (h1 : CountRel s t)
    (h2 : CountRel t u) : CountRel s u :=
  ⟨h2.patch.trans h1.patch, h2.deltas.trans h1.deltas, h2.diff.trans h1.diff,
    by have := h1.add; have := h2.add; omega, by have := h1.del; have := h2.del; omega⟩

theorem countline_rel (s : deltainfo × commitinfo) (line : git_diff_line) :
    CountRel s (countline s line) := by
  unfold countline
  split_ifs
  · exact ⟨rfl, rfl, rfl, by simp only; omega, rfl⟩
  · exact ⟨rfl, rfl, rfl, rfl, by simp only; omega⟩
  · exact countrel_refl s

theorem countlines_rel (lines : List git_diff_line) (s : deltainfo × commitinfo) :
    CountRel s (lines.foldl countline s) := by
  induction lines generalizing s with
  | nil => exact countrel_refl s
  | cons l ls ih => exact countrel_trans (countline_rel s l) (ih (countline s l))

theorem counthunks_rel (hunks : List (Option (List git_diff_line)))
    (s : deltainfo × commitinfo) : CountRel s (counthunks s hunks) := by
  induction hunks generalizing s with
  | nil => exact countrel_refl s
  | cons h hs ih =>
    cases h with
    | none => exact countrel_refl s
    | some lines => exact countrel_trans (countlines_rel lines s) (ih _)

theorem set_filled (front : List deltainfo) (x : deltainfo) (m : Nat) :
    (front.map some ++ List.replicate (m + 1) none).set front.length (some x)
      = (front ++ [x]).map some ++ List.replicate m none := by
  induction front with
  | nil => simp [List.replicate_succ]
  | cons a as ih => simpa using ih

/-- What the loop over the deltas computes when it runs to its end: every slot
of the array is filled, slot by slot in the order of the diff, and the
counters of the commit grow by the sums of the counters of the deltas. -/
theorem getstats_deltas_spec (patches : List (Option git_patch)) :
    ∀ (ci : commitinfo) (front : List deltainfo) (ci1 : commitinfo) (k : Nat),
      ci.deltas = some (front.map some ++ List.replicate patches.length none) →
      getstats_deltas ci front.length patches = some (ci1, k) →
      ∃ ds : List deltainfo,
        ci1.deltas = some ((front ++ ds).map some) ∧
        k = front.length + patches.length ∧
        patches = ds.map (fun di => some di.patch) ∧
        ci1.diff = ci.diff ∧
        ci1.addcount = ci.addcount + sumadd ds ∧
        ci1.delcount = ci.delcount + sumdel ds ∧
        ∀ di ∈ ds, di.patch.binary = true → di.addcount = 0 ∧ di.delcount = 0 := by
  induction patches with
  | nil =>
    intro ci front ci1 k hd h
    simp only [getstats_deltas, Option.some.injEq, Prod.mk.injEq] at h
    obtain ⟨rfl, rfl⟩ := h
    exact ⟨[], by simpa using hd, by simp, by simp, rfl, by simp [sumadd], by simp [sumdel],
      by simp⟩
  | cons p ps ih =>
    intro ci front ci1 k hd h
    cases p with
    | none => simp [getstats_deltas] at h
    | some patch =>
      simp only [getstats_deltas] at h
      generalize hs : (if patch.binary = true
          then (({ patch := patch, addcount := 0, delcount := 0 } : deltainfo), ci)
          else counthunks ({ patch := patch, addcount := 0, delcount := 0 }, ci) patch.hunks)
        = s at h
      have hrel : CountRel (({ patch := patch, addcount := 0, delcount := 0 } : deltainfo), ci) s := by
        rw [← hs]; split_ifs
        · exact countrel_refl _
        · exact counthunks_rel _ _
      have hbin : patch.binary = true → s.1.addcount = 0 ∧ s.1.delcount = 0 := by
        intro hb; rw [← hs, if_pos hb]; exact ⟨rfl, rfl⟩
      have hdel := hrel.deltas
      simp only at hdel
      have hlen : (front ++ [s.1]).length = front.length + 1 := by simp
      rw [← hlen] at h
      have hd1 : ({ s.2 with deltas := s.2.deltas.map (fun a => a.set front.length (some s.1)) } :
          commitinfo).deltas = some ((front ++ [s.1]).map some ++ List.replicate ps.length none) := by
        simp only [hdel, hd, Option.map_some', List.length_cons]
        rw [set_filled]
      obtain ⟨ds, h1, h2, h3, h4, h5, h6, h7⟩ := ih _ (front ++ [s.1]) ci1 k hd1 h
      have hp := hrel.patch
      have ha := hrel.add
      have hdl := hrel.del
      simp only at hp ha hdl
      refine ⟨s.1 :: ds, by simpa using h1, by simp [h2]; omega, by simp [h3, hp], ?_, ?_, ?_, ?_⟩
      · rw [h4]; exact hrel.diff
      · simp only [h5, sumadd, List.map_cons, List.sum_cons] at *; omega
      · simp only [h6, sumdel, List.map_cons, List.sum_cons] at *; omega
      · intro di hdi hb
        rcases List.mem_cons.mp hdi with rfl | hmem
        · exact hbin (by rw [← hp]; exact hb)
        · exact h7 di hmem hb

/-! ## Statistics of a commit -/

theorem getstats_parent_counts (repo : git_repository) (ci : commitinfo) :
    (getstats_parent repo ci).addcount = ci.addcount ∧
    (getstats_parent repo ci).delcount = ci.delcount ∧
    (getstats_parent repo ci).deltas = ci.deltas ∧
    (getstats_parent repo ci).commit_tree = ci.commit_tree := by
  unfold getstats_parent
  split
  · exact ⟨rfl, rfl, rfl, rfl⟩
  · split <;> exact ⟨rfl, rfl, rfl, rfl⟩

theorem getbyoid_zeroed (repo : git_repository) (id : git_oid) (ci : commitinfo)
    (h : commitinfo_getbyoid repo id = some ci) :
    ci.addcount = 0 ∧ ci.delcount = 0 ∧ ci.deltas = none := by
  unfold commitinfo_getbyoid at h
  split at h
  · exact absurd h (by simp)
  · simp only [Option.some.injEq] at h
    subst h
    exact ⟨rfl, rfl, rfl⟩

theorem getstats_err_ne (c ci1 : commitinfo) : getstats_err c ≠ (0, ci1) := by
  intro hc
  have := congrArg Prod.fst hc
  simp [getstats_err] at this

/-- What a successful count leaves in the record. -/
theorem getstats_count_spec (ci ci1 : commitinfo) (d : git_diff)
    (hn : ci.deltas = none) (hret : getstats_count ci d = (0, ci1)) :
    ∃ ds : List deltainfo,
      ci1.diff = ci.diff ∧
      ci1.deltas.getD [] = ds.map some ∧
      d.patches = ds.map (fun di => some di.patch) ∧
      ci1.ndeltas = d.patches.length ∧
      ci1.filecount = d.patches.length ∧
      ci1.addcount = ci.addcount + sumadd ds ∧
      ci1.delcount = ci.delcount + sumdel ds ∧
      ∀ di ∈ ds, di.patch.binary = true → di.addcount = 0 ∧ di.delcount = 0 := by
  unfold getstats_count at hret
  simp only at hret
  split at hret
  · exact absurd hret (getstats_err_ne _ _)
  · rename_i ci4 i hloop
    simp only [Prod.mk.injEq, true_and] at hret
    subst hret
    by_cases hz : d.patches.length = 0
    · have hnil : d.patches = [] := List.length_eq_zero.mp hz
      simp only [hz, ne_eq, not_true_eq_false, if_false, hnil, getstats_deltas,
        Option.some.injEq, Prod.mk.injEq] at hloop
      obtain ⟨rfl, rfl⟩ := hloop
      exact ⟨[], rfl, by simp [hn], by simp [hnil], by simp [hz], by simp [hz],
        by simp [sumadd], by simp [sumdel], by simp⟩
    · simp only [ne_eq, hz, not_false_eq_true, if_true] at hloop
      obtain ⟨ds, h1, h2, h3, h4, h5, h6, h7⟩ :=
        getstats_deltas_spec d.patches _ [] ci4 i (by simp) hloop
      simp only [List.nil_append, List.length_nil, Nat.zero_add] at h1 h2
      simp only at h4 h5 h6
      exact ⟨ds, h4, by simp [h1], h3, h2, h2, h5, h6, h7⟩

/-- C1. When `commitinfo_getstats` returns 0 for the record of a commit, the
array `deltas` holds one filled entry per delta of the diff, in the order of
the diff and binary deltas included, `ndeltas` and `filecount` are the number
of deltas of the diff, `addcount` and `delcount` of the commit are the sums of
the counters of the entries, and an entry of a binary delta has both counters
at 0. -/
theorem commitinfo_getstats_totals (repo : git_repository) (id : git_oid)
    (ci ci1 : commitinfo) (hget : commitinfo_getbyoid repo id = some ci)
    (hret : commitinfo_getstats repo ci = (0, ci1)) :
    ∃ (d : git_diff) (ds : List deltainfo),
      ci1.diff = some d ∧
      ci1.deltas.getD [] = ds.map some ∧
      d.patches = ds.map (fun di => some di.patch) ∧
      ci1.ndeltas = d.patches.length ∧
      ci1.filecount = d.patches.length ∧
      ci1.addcount = sumadd ds ∧
      ci1.delcount = sumdel ds ∧
      ∀ di ∈ ds, di.patch.binary = true → di.addcount = 0 ∧ di.delcount = 0 := by
  obtain ⟨ha0, hd0, hn0⟩ := getbyoid_zeroed repo id ci hget
  unfold commitinfo_getstats at hret
  split at hret
  · exact absurd hret (getstats_err_ne _ _)
  · rename_i ct hct
    obtain ⟨hpa, hpd, hpn, -⟩ := getstats_parent_counts repo { ci with commit_tree := some ct }
    generalize getstats_parent repo { ci with commit_tree := some ct } = cp at hret hpa hpd hpn
    simp only at hpa hpd hpn
    unfold getstats_diff at hret
    split at hret
    · exact absurd hret (getstats_err_ne _ _)
    · split at hret
      · exact absurd hret (getstats_err_ne _ _)
      · split at hret
        · exact absurd hret (getstats_err_ne _ _)
        · rename_i d hd
          obtain ⟨ds, h1, h2, h3, h4, h5, h6, h7, h8⟩ :=
            getstats_count_spec { cp with diff := some d } ci1 d (by simp [hpn, hn0]) hret
          simp only at h1 h6 h7
          exact ⟨d, ds, h1, h2, h3, h4, h5, by simp [h6, hpa, ha0], by simp [h7, hpd, hd0], h8⟩

theorem commitinfo_getstats_totals_witness :
    ∃ (d : git_diff) (ds : List deltainfo),
      (commitinfo_getstats sample_repo (sample_ci (oid_of 12))).2.diff = some d ∧
      (commitinfo_getstats sample_repo (sample_ci (oid_of 12))).2.deltas.getD [] = ds.map some ∧
      d.patches = ds.map (fun di => some di.patch) ∧
      (commitinfo_getstats sample_repo (sample_ci (oid_of 12))).2.ndeltas = d.patches.length ∧
      (commitinfo_getstats sample_repo (sample_ci (oid_of 12))).2.filecount = d.patches.length ∧
      (commitinfo_getstats sample_repo (sample_ci (oid_of 12))).2.addcount = sumadd ds ∧
      (commitinfo_getstats sample_repo (sample_ci (oid_of 12))).2.delcount = sumdel ds ∧
      ∀ di ∈ ds, di.patch.binary = true → di.addcount = 0 ∧ di.delcount = 0 :=
  commitinfo_getstats_totals sample_repo (oid_of 12) (sample_ci (oid_of 12))
    (commitinfo_getstats sample_repo (sample_ci (oid_of 12))).2 rfl rfl

theorem getstats_deltas_none (patches : List (Option git_patch)) :
    ∀ (ci : commitinfo) (i : Nat),
      (getstats_deltas ci i patches).isNone = patches.any (fun p => p.isNone) := by
  induction patches with
  | nil => intro ci i; rfl
  | cons p ps ih =>
    intro ci i
    cases p with
    | none => rfl
    | some patch => simp only [getstats_deltas, List.any_cons, Option.isNone_some, Bool.false_or, ih]

/-- The return code of `commitinfo_getstats` is `0` or `-1`, and `-1` exactly
when the control reaches the label `err`. -/
theorem getstats_count_code (ci : commitinfo) (d : git_diff) :
    (getstats_count ci d).1 = if d.patches.any (fun p => p.isNone) then -1 else 0 := by
  unfold getstats_count
  simp only
  rw [← getstats_deltas_none d.patches
    (if d.patches.length ≠ 0 then
      { ci with deltas := some (List.replicate d.patches.length none) } else ci) 0]
  split
  · rename_i h; rw [h]; rfl
  · rename_i h; rw [h]; rfl

theorem getstats_diff_code (repo : git_repository) (ci : commitinfo) :
    (getstats_diff repo ci).1
      = if diff_failure repo ci.parent_tree ci.commit_tree then -1 else 0 := by
  unfold getstats_diff diff_failure
  cases repo.diff_tree_to_tree ci.parent_tree ci.commit_tree with
  | none => rfl
  | some d0 =>
    cases repo.diff_find_init_options with
    | false => rfl
    | true =>
      simp only [Bool.not_true, Bool.false_eq_true, if_false, Bool.false_or]
      cases repo.diff_find_similar d0 with
      | none => rfl
      | some d => exact getstats_count_code _ d

theorem getstats_code (repo : git_repository) (ci : commitinfo) :
    (commitinfo_getstats repo ci).1 = if getstats_failure repo ci then -1 else 0 := by
  unfold commitinfo_getstats getstats_failure
  cases repo.tree_lookup ci.commit.tree_id with
  | none => rfl
  | some ct =>
    have hct := (getstats_parent_counts repo { ci with commit_tree := some ct }).2.2.2
    simp only at hct ⊢
    rw [getstats_diff_code, hct]

/-- C8 (amended). The function `commitinfo_getstats` returns `-1` exactly when
the lookup of the tree of the commit, the diff of the two trees, the
initialisation of the find options, the similarity pass, or the creation of
the patch of some delta fails, and `0` in every other case: a first parent
whose tree cannot be looked up and a hunk that cannot be retrieved do not
make it fail. -/
theorem commitinfo_getstats_fails_iff (repo : git_repository) (ci : commitinfo) :
    ((commitinfo_getstats repo ci).1 = -1 ↔ getstats_failure repo ci = true) ∧
    ((commitinfo_getstats repo ci).1 = 0 ↔ getstats_failure repo ci = false) := by
  rw [getstats_code]
  cases getstats_failure repo ci <;> simp

/-- C8 (counterexample). A commit whose first parent has a tree that cannot be
looked up, and a commit with a hunk that cannot be retrieved: in both cases
`commitinfo_getstats` returns `0`, in the second with the one added line of
the hunk before the failing one out of three. -/
theorem commitinfo_getstats_zero_despite_failures :
    (sample_repo_noparenttree.commit_parent (sample_commit (oid_of 12))
        = some (sample_commit (oid_of 0)) ∧
      sample_repo_noparenttree.tree_lookup (sample_commit (oid_of 0)).tree_id = none ∧
      (commitinfo_getstats sample_repo_noparenttree (sample_ci (oid_of 12))).1 = 0) ∧
    (sample_badhunk.hunks.get? 1 = some none ∧
      (commitinfo_getstats sample_repo_badhunk (sample_ci (oid_of 12))).1 = 0 ∧
      (commitinfo_getstats sample_repo_badhunk (sample_ci (oid_of 12))).2.addcount = 1) := by
  decide

theorem getstats_count_cases (ci : commitinfo) (d : git_diff) :
    (∃ c, getstats_count ci d = getstats_err c) ∨ (getstats_count ci d).1 = 0 := by
  unfold getstats_count
  simp only
  split
  · exact Or.inl ⟨_, rfl⟩
  · exact Or.inr rfl

theorem getstats_diff_cases (repo : git_repository) (ci : commitinfo) :
    (∃ c, getstats_diff repo ci = getstats_err c) ∨ (getstats_diff repo ci).1 = 0 := by
  unfold getstats_diff
  split
  · exact Or.inl ⟨_, rfl⟩
  · split
    · exact Or.inl ⟨_, rfl⟩
    · split
      · exact Or.inl ⟨_, rfl⟩
      · exact getstats_count_cases _ _

theorem getstats_cases (repo : git_repository) (ci : commitinfo) :
    (∃ c, commitinfo_getstats repo ci = getstats_err c) ∨ (commitinfo_getstats repo ci).1 = 0 := by
  unfold commitinfo_getstats
  split
  · exact Or.inl ⟨_, rfl⟩
  · exact getstats_diff_cases _ _

/-- C9. Whenever `commitinfo_getstats` returns `-1`, the record it leaves has
`addcount`, `delcount`, `filecount` and `ndeltas` at 0 and `deltas`, `diff`,
`commit_tree`, `parent_tree` and `parent` at `NULL`. -/
theorem commitinfo_getstats_error_record (repo : git_repository) (ci : commitinfo)
    (h : (commitinfo_getstats repo ci).1 = -1) :
    (commitinfo_getstats repo ci).2.addcount = 0 ∧
    (commitinfo_getstats repo ci).2.delcount = 0 ∧
    (commitinfo_getstats repo ci).2.filecount = 0 ∧
    (commitinfo_getstats repo ci).2.ndeltas = 0 ∧
    (commitinfo_getstats repo ci).2.deltas = none ∧
    (commitinfo_getstats repo ci).2.diff = none ∧
    (commitinfo_getstats repo ci).2.commit_tree = none ∧
    (commitinfo_getstats repo ci).2.parent_tree = none ∧
    (commitinfo_getstats repo ci).2.parent = none := by
  rcases getstats_cases repo ci with ⟨c, hc⟩ | h0
  · rw [hc]
    exact ⟨rfl, rfl, rfl, rfl, rfl, rfl, rfl, rfl, rfl⟩
  · rw [h0] at h
    exact absurd h (by decide)

theorem commitinfo_getstats_error_record_witness :
    (commitinfo_getstats sample_repo_nopatch (sample_ci (oid_of 12))).1 = -1 ∧
    (commitinfo_getstats sample_repo_nopatch (sample_ci (oid_of 12))).2.addcount = 0 ∧
    (commitinfo_getstats sample_repo_nopatch (sample_ci (oid_of 12))).2.delcount = 0 ∧
    (commitinfo_getstats sample_repo_nopatch (sample_ci (oid_of 12))).2.filecount = 0 ∧
    (commitinfo_getstats sample_repo_nopatch (sample_ci (oid_of 12))).2.ndeltas = 0 ∧
    (commitinfo_getstats sample_repo_nopatch (sample_ci (oid_of 12))).2.deltas = none ∧
    (commitinfo_getstats sample_repo_nopatch (sample_ci (oid_of 12))).2.diff = none ∧
    (commitinfo_getstats sample_repo_nopatch (sample_ci (oid_of 12))).2.commit_tree = none ∧
    (commitinfo_getstats sample_repo_nopatch (sample_ci (oid_of 12))).2.parent_tree = none ∧
    (commitinfo_getstats sample_repo_nopatch (sample_ci (oid_of 12))).2.parent = none :=
  ⟨by decide, commitinfo_getstats_error_record sample_repo_nopatch (sample_ci (oid_of 12))
    (by decide)⟩

/-! ## The history walk -/

theorem writelog_end_relpath (s : Walk) (rp : List Char) :
    writelog_end ({ s with relpath := rp }, false) = writelog_end (s, false) := by
  unfold writelog_end
  simp only [Bool.false_eq_true, if_false]
  split_ifs <;> rfl

theorem loop_eq_bodies (repo : git_repository) (sys : Sys) (cachefile : List Char)
    (lastoid : git_oid) (walk : List git_oid) :
    ∀ s : Walk,
      writelog_end (writelog_loop repo sys (some cachefile) lastoid s walk)
        = writelog_end (writelog_bodies repo sys (some cachefile) s
            (walk.takeWhile (fun id => decide (id ≠ lastoid)))) := by
  induction walk with
  | nil => intro s; rfl
  | cons id rest ih =>
    intro s
    by_cases h : id = lastoid
    · subst h
      simp only [writelog_loop, writelog_step, Option.isSome_some, and_self, if_true, ne_eq,
        not_true_eq_false, decide_False, List.takeWhile_cons, Bool.false_eq_true, if_false,
        writelog_bodies]
      exact writelog_end_relpath s []
    · simp only [writelog_loop, writelog_step, Option.isSome_some, true_and, h, if_false, ne_eq,
        not_false_eq_true, decide_True, List.takeWhile_cons, if_true, writelog_bodies]
      rcases hb : writelog_body repo sys (some cachefile) { s with relpath := [] } id with ⟨s1, c⟩
      cases c with
      | next => exact ih s1
      | stop => rfl
      | abort => rfl

theorem grows_refl (repo : git_repository) (sys : Sys) (w : World) (ids : List git_oid) :
    Grows repo sys w w ids :=
  ⟨[], by simp, List.nodup_nil, by simp, fun _ _ => rfl⟩

theorem grows_mono {repo : git_repository} {sys : Sys} {w w1 : World} {ids ids1 : List git_oid}
    (h : Grows repo sys w w1 ids) (hsub : ∀ id ∈ ids, id ∈ ids1) : Grows repo sys w w1 ids1 := by
  obtain ⟨opened, h1, h2, h3, h4⟩ := h
  refine ⟨opened, h1, h2, ?_, h4⟩
  intro p hp
  obtain ⟨a, id, hid, hpid⟩ := h3 p hp
  exact ⟨a, id, hsub id hid, hpid⟩

theorem grows_trans {repo : git_repository} {sys : Sys} {w w1 w2 : World} {ids : List git_oid}
    (h : Grows repo sys w w1 ids) (h' : Grows repo sys w1 w2 ids) : Grows repo sys w w2 ids := by
  obtain ⟨o1, a1, a2, a3, a4⟩ := h
  obtain ⟨o2, b1, b2, b3, b4⟩ := h'
  have disj : ∀ p, p ∈ o1 → p ∈ o2 → False := by
    intro p hp1 hp2
    obtain ⟨-, id, -, -, hsome⟩ := a3 p hp1
    rw [(b3 p hp2).1] at hsome
    exact absurd hsome (by simp)
  refine ⟨o1 ++ o2, by rw [b1, a1, List.append_assoc], ?_, ?_, ?_⟩
  · exact List.nodup_append.mpr ⟨a2, b2, fun p hp1 hp2 => disj p hp1 hp2⟩
  · intro p hp
    rcases List.mem_append.mp hp with hp1 | hp2
    · obtain ⟨x, id, hid, hpid, hsome⟩ := a3 p hp1
      refine ⟨x, id, hid, hpid, ?_⟩
      rw [b4 p (fun hp2 => disj p hp1 hp2)]
      exact hsome
    · obtain ⟨x, id, hid, hpid, hsome⟩ := b3 p hp2
      refine ⟨?_, id, hid, hpid, hsome⟩
      rw [← a4 p (fun hp1 => disj p hp1 hp2)]
      exact x
  · intro p hp
    rw [List.mem_append, not_or] at hp
    rw [b4 p hp.2, a4 p hp.1]

/-- A path that exists keeps its content. -/
theorem grows_keeps {repo : git_repository} {sys : Sys} {w w1 : World} {ids : List git_oid}
    (h : Grows repo sys w w1 ids) (p : List Char) :
    w1.files p = w.files p ∨ w.files p = none := by
  obtain ⟨opened, -, -, h3, h4⟩ := h
  by_cases hp : p ∈ opened
  · exact Or.inr (h3 p hp).1
  · exact Or.inl (h4 p hp)

theorem access_ne_zero {w : World} {path : List Char} (h : access w path ≠ 0) :
    w.files path = none := by
  unfold access at h
  cases hf : w.files path with
  | none => rfl
  | some t => simp [hf] at h

theorem writelog_count_world (s : Walk) : (writelog_count s).world = s.world := by
  unfold writelog_count; split_ifs <;> rfl

theorem writelog_lines_world (sys : Sys) (cachefile : Option (List Char)) (s : Walk)
    (ci : commitinfo) : (writelog_lines sys cachefile s ci).world = s.world := by
  unfold writelog_lines; simp only; split_ifs <;> rfl

/-- The files after the page of a commit that had none was written. -/
theorem write_grows (repo : git_repository) (sys : Sys) (w : World) (id : git_oid)
    (hnone : w.files (commitpath id) = none) :
    Grows repo sys w (w.write (commitpath id, pagetext repo sys id)) [id] := by
  refine ⟨[commitpath id], rfl, List.nodup_singleton _, ?_, ?_⟩
  · intro p hp
    rw [List.mem_singleton] at hp
    subst hp
    exact ⟨hnone, id, List.mem_singleton.mpr rfl, rfl, by simp [World.write, World.store]⟩
  · intro p hp
    rw [List.mem_singleton] at hp
    simp [World.write, World.store, World.create, hp]

/-- What the block that writes a page does to the files: nothing when the
file cannot be opened, and otherwise the page is written. -/
theorem writelog_page_world (sys : Sys) (s : Walk) (path : List Char) (ci : commitinfo) :
    (writelog_page sys s path ci).1.world = s.world ∨
    (writelog_page sys s path ci).1.world = s.world.write (path, sys.commitpage ci) := by
  unfold writelog_page efopen
  cases sys.fopen_w_fails path with
  | true => exact Or.inl rfl
  | false =>
    cases sys.write_error path with
    | true => exact Or.inr rfl
    | false => exact Or.inr rfl

/-- What one turn of the body does to the files: nothing, or the page of its
commit, which did not exist, is written. -/
theorem writelog_body_world (repo : git_repository) (sys : Sys) (cachefile : Option (List Char))
    (s : Walk) (id : git_oid) :
    (writelog_body repo sys cachefile s id).1.world = s.world ∨
    (s.world.files (commitpath id) = none ∧
      (writelog_body repo sys cachefile s id).1.world
        = s.world.write (commitpath id, pagetext repo sys id)) := by
  unfold writelog_body
  simp only
  by_cases h1 : s.nlogcommits = 0 ∧ access s.world (commitpath id) = 0
  · rw [if_pos h1, writelog_count_world]; exact Or.inl rfl
  · rw [if_neg h1]
    cases hget : commitinfo_getbyoid repo id with
    | none => exact Or.inl (writelog_count_world s)
    | some ci0 =>
      simp only
      by_cases h2 : (commitinfo_getstats repo ci0).1 = -1
      · rw [if_pos h2, writelog_count_world]; exact Or.inl rfl
      · rw [if_neg h2]
        by_cases h3 : access s.world (commitpath id) ≠ 0
        · rw [if_pos h3]
          have hnone : s.world.files (commitpath id) = none := access_ne_zero h3
          have htext : pagetext repo sys id = sys.commitpage (commitinfo_getstats repo ci0).2 := by
            unfold pagetext; rw [hget]
          rcases writelog_page_world sys
            (writelog_lines sys cachefile (writelog_count s) (commitinfo_getstats repo ci0).2)
            (commitpath id) (commitinfo_getstats repo ci0).2 with hw | hw
          · rw [hw, writelog_lines_world, writelog_count_world]; exact Or.inl rfl
          · rw [hw, writelog_lines_world, writelog_count_world, htext]; exact Or.inr ⟨hnone, rfl⟩
        · rw [if_neg h3, writelog_lines_world, writelog_count_world]; exact Or.inl rfl

/-- One turn of the body changes the files only by writing the page of its
commit, and only when that page did not exist. -/
theorem writelog_body_grows (repo : git_repository) (sys : Sys) (cachefile : Option (List Char))
    (s : Walk) (id : git_oid) :
    Grows repo sys s.world (writelog_body repo sys cachefile s id).1.world [id] := by
  rcases writelog_body_world repo sys cachefile s id with h | ⟨hnone, h⟩
  · rw [h]; exact grows_refl _ _ _ _
  · rw [h]; exact write_grows repo sys s.world id hnone

theorem writelog_step_grows (repo : git_repository) (sys : Sys) (cachefile : Option (List Char))
    (lastoid : git_oid) (s : Walk) (id : git_oid) :
    Grows repo sys s.world (writelog_step repo sys cachefile lastoid s id).1.world [id] := by
  unfold writelog_step
  simp only
  split_ifs
  · exact grows_refl _ _ _ _
  · exact writelog_body_grows repo sys cachefile { s with relpath := [] } id

theorem writelog_loop_grows (repo : git_repository) (sys : Sys) (cachefile : Option (List Char))
    (lastoid : git_oid) (walk : List git_oid) :
    ∀ s : Walk,
      Grows repo sys s.world (writelog_loop repo sys cachefile lastoid s walk).1.world walk := by
  induction walk with
  | nil => intro s; exact grows_refl _ _ _ _
  | cons id rest ih =>
    intro s
    have hstep := writelog_step_grows repo sys cachefile lastoid s id
    unfold writelog_loop
    rcases hs : writelog_step repo sys cachefile lastoid s id with ⟨s1, c⟩
    rw [hs] at hstep
    have hstep1 : Grows repo sys s.world s1.world (id :: rest) :=
      grows_mono hstep
        (fun x hx => by rw [List.mem_singleton] at hx; subst hx; exact List.mem_cons_self _ _)
    cases c with
    | next =>
      exact grows_trans hstep1 (grows_mono (ih s1) (fun x hx => List.mem_cons_of_mem _ hx))
    | stop => exact hstep1
    | abort => exact hstep1

theorem writelog_end_world (l : Walk × Bool) : (writelog_end l).1.world = l.1.world := by
  unfold writelog_end
  by_cases h : l.2 = true
  · rw [if_pos h]
  · rw [if_neg h]
    simp only
    split_ifs <;> rfl

theorem writelog_grows (repo : git_repository) (sys : Sys) (cachefile : Option (List Char))
    (lastoid : git_oid) (s : Walk) (oid : git_oid) :
    Grows repo sys s.world (writelog repo sys cachefile lastoid s oid).1.world
      (repo.revwalk oid) := by
  unfold writelog
  rw [writelog_end_world]
  exact writelog_loop_grows repo sys cachefile lastoid (repo.revwalk oid) { s with remcommits := 0 }

/-- C7. With or without a cache file and whatever the log limit, the paths
`writelog` opens for writing are pairwise different paths `commit/<hash>.html`
of commits of the walk that did not exist when `writelog` was called, and
every other path, hence every page that existed then, has the same content
afterwards as before. -/
theorem writelog_writes_missing_pages_only (repo : git_repository) (sys : Sys)
    (cachefile : Option (List Char)) (lastoid : git_oid) (s : Walk) (oid : git_oid) :
    ∃ opened : List (List Char),
      (writelog repo sys cachefile lastoid s oid).1.world.wopens = s.world.wopens ++ opened ∧
      opened.Nodup ∧
      (∀ p ∈ opened, s.world.files p = none ∧
        ∃ id ∈ repo.revwalk oid, p = commitpath id ∧
          (writelog repo sys cachefile lastoid s oid).1.world.files p
            = some (pagetext repo sys id)) ∧
      (∀ p, p ∉ opened →
        (writelog repo sys cachefile lastoid s oid).1.world.files p = s.world.files p) :=
  writelog_grows repo sys cachefile lastoid s oid

theorem writelog_count_fields (s : Walk) :
    (writelog_count s).fp = s.fp ∧ (writelog_count s).wcachefp = s.wcachefp ∧
    (writelog_count s).nlogcommits = s.nlogcommits ∧ (writelog_count s).relpath = s.relpath := by
  unfold writelog_count; split_ifs <;> exact ⟨rfl, rfl, rfl, rfl⟩

/-- The turn of the loop for a commit whose statistics cannot be extracted. -/
theorem writelog_step_failed_stats (repo : git_repository) (sys : Sys)
    (cachefile : Option (List Char)) (lastoid : git_oid) (s : Walk) (id : git_oid)
    (ci : commitinfo) (hcur : ¬ (cachefile.isSome = true ∧ id = lastoid))
    (hget : commitinfo_getbyoid repo id = some ci)
    (hfail : (commitinfo_getstats repo ci).1 = -1) :
    writelog_step repo sys cachefile lastoid s id
      = (writelog_count { s with relpath := [] }, Ctl.next) := by
  unfold writelog_step
  simp only
  rw [if_neg hcur]
  unfold writelog_body
  simp only [hget, hfail, if_true]
  split_ifs <;> rfl

/-- C10. For a commit of the walk that is not the cursor and whose statistics
cannot be extracted, the turn of the loop of `writelog` ends with the next
commit (neither `break` nor the end of the process): it writes no page, opens
no file and writes no log line, and the loop goes on with the commits that
follow in the walk. -/
theorem writelog_continues_after_failed_stats (repo : git_repository) (sys : Sys)
    (cachefile : Option (List Char)) (lastoid : git_oid) (s : Walk) (id : git_oid)
    (rest : List git_oid) (ci : commitinfo)
    (hcur : ¬ (cachefile.isSome = true ∧ id = lastoid))
    (hget : commitinfo_getbyoid repo id = some ci)
    (hfail : (commitinfo_getstats repo ci).1 = -1) :
    (writelog_step repo sys cachefile lastoid s id).2 = Ctl.next ∧
    (writelog_step repo sys cachefile lastoid s id).1.world = s.world ∧
    (writelog_step repo sys cachefile lastoid s id).1.fp = s.fp ∧
    (writelog_step repo sys cachefile lastoid s id).1.wcachefp = s.wcachefp ∧
    (writelog_step repo sys cachefile lastoid s id).1.nlogcommits = s.nlogcommits ∧
    writelog_loop repo sys cachefile lastoid s (id :: rest)
      = writelog_loop repo sys cachefile lastoid
          (writelog_step repo sys cachefile lastoid s id).1 rest := by
  have hstep := writelog_step_failed_stats repo sys cachefile lastoid s id ci hcur hget hfail
  obtain ⟨h1, h2, h3, -⟩ := writelog_count_fields { s with relpath := [] }
  refine ⟨by rw [hstep], by rw [hstep]; exact writelog_count_world _, by rw [hstep]; exact h1,
    by rw [hstep]; exact h2, by rw [hstep]; exact h3, ?_⟩
  conv_lhs => unfold writelog_loop
  rw [hstep]

theorem writelog_continues_after_failed_stats_witness :
    ¬ ((none : Option (List Char)).isSome = true ∧ oid_of 12 = oid_of 0) ∧
    commitinfo_getbyoid sample_repo_nopatch (oid_of 12) = some (sample_ci (oid_of 12)) ∧
    (commitinfo_getstats sample_repo_nopatch (sample_ci (oid_of 12))).1 = -1 ∧
    (writelog_step sample_repo_nopatch sample_sys none (oid_of 0) sample_walk (oid_of 12)).2
      = Ctl.next ∧
    (writelog_step sample_repo_nopatch sample_sys none (oid_of 0) sample_walk (oid_of 12)).1.world
      = sample_walk.world ∧
    (writelog_step sample_repo_nopatch sample_sys none (oid_of 0) sample_walk (oid_of 12)).1.fp
      = sample_walk.fp ∧
    (writelog_step sample_repo_nopatch sample_sys none (oid_of 0) sample_walk (oid_of 12)).1.wcachefp
      = sample_walk.wcachefp ∧
    (writelog_step sample_repo_nopatch sample_sys none (oid_of 0) sample_walk
      (oid_of 12)).1.nlogcommits = sample_walk.nlogcommits ∧
    writelog_loop sample_repo_nopatch sample_sys none (oid_of 0) sample_walk
        [oid_of 12, oid_of 11]
      = writelog_loop sample_repo_nopatch sample_sys none (oid_of 0)
          (writelog_step sample_repo_nopatch sample_sys none (oid_of 0) sample_walk (oid_of 12)).1
          [oid_of 11] :=
  ⟨by decide, by decide, by decide,
    writelog_continues_after_failed_stats sample_repo_nopatch sample_sys none (oid_of 0)
      sample_walk (oid_of 12) [oid_of 11] (sample_ci (oid_of 12)) (by decide) (by decide)
      (by decide)⟩

/-! ## The command line -/

/-- The argument loop keeps apart the cache and the log limit: a cache file
is only accepted while no limit is set and a limit only while no cache file
is set, and a limit that is set is positive. -/
theorem main_args_exclusive (n : Nat) :
    ∀ (args : List (List Char)) (cfg cfg1 : Config), args.length ≤ n →
      ArgsInv cfg → main_args cfg args = some cfg1 → ArgsInv cfg1 := by
  induction n with
  | zero =>
    intro args cfg cfg1 hlen hinv h
    have : args = [] := List.length_eq_zero.mp (Nat.le_zero.mp hlen)
    subst this
    simp only [main_args, Option.some.injEq] at h
    subst h
    exact hinv
  | succ n ih =>
    intro args cfg cfg1 hlen hinv h
    match args, hlen, h with
    | [], _, h =>
      simp only [main_args, Option.some.injEq] at h
      subst h
      exact hinv
    | [a], _, h =>
      simp only [main_args] at h
      split_ifs at h <;> cases h <;> exact hinv
    | a :: v :: rest, hlen, h =>
      have hl1 : (v :: rest).length ≤ n := by simp at hlen ⊢; omega
      have hl2 : rest.length ≤ n := by simp at hlen ⊢; omega
      simp only [main_args] at h
      by_cases c1 : a.head? ≠ some '-'
      · rw [if_pos c1] at h
        by_cases c2 : cfg.repodir.isSome = true
        · rw [if_pos c2] at h; cases h
        · rw [if_neg c2] at h; refine ih _ _ _ hl1 ?_ h; exact hinv
      · rw [if_neg c1] at h
        by_cases c3 : a.get? 1 = some 'c'
        · rw [if_pos c3] at h
          by_cases c4 : cfg.nlogcommits > 0
          · rw [if_pos c4] at h; cases h
          · rw [if_neg c4] at h
            refine ih _ _ _ hl2 ?_ h
            refine ⟨fun _ => ?_, hinv.2⟩
            rcases hinv.2 with h0 | h0
            · exact h0
            · exact absurd h0 c4
        · rw [if_neg c3] at h
          by_cases c5 : a.get? 1 = some 'l'
          · rw [if_pos c5] at h
            by_cases c6 : cfg.cachefile.isSome = true
            · rw [if_pos c6] at h; cases h
            · rw [if_neg c6] at h
              by_cases c7 : v = [] ∨ (strtoll v).2.1 ≠ [] ∨ (strtoll v).1 ≤ 0
                  ∨ (strtoll v).2.2 = true
              · rw [if_pos c7] at h; cases h
              · rw [if_neg c7] at h
                refine ih _ _ _ hl2 ?_ h
                refine ⟨fun hc => absurd hc c6, Or.inr ?_⟩
                simp only [not_or, not_le] at c7
                exact c7.2.2.1
          · rw [if_neg c5] at h
            by_cases c8 : a.get? 1 = some 'u'
            · rw [if_pos c8] at h; refine ih _ _ _ hl2 ?_ h; exact hinv
            · rw [if_neg c8] at h; refine ih _ _ _ hl1 ?_ h; exact hinv

theorem parse_args_exclusive (argv : List (List Char)) (cfg : Config)
    (h : parse_args argv = some cfg) : ArgsInv cfg := by
  unfold parse_args at h
  split at h
  · exact absurd h (by simp)
  · rename_i cfg0 h0
    split_ifs at h
    simp only [Option.some.injEq] at h
    subst h
    exact main_args_exclusive _ _ _ _ (Nat.le_refl _) ⟨fun hc => rfl, Or.inl rfl⟩ h0

/-! ## Object ids and paths as text -/

theorem fromhex_hexdigit : ∀ n : Fin 16, fromhex (hexdigit n) = some n := by decide

theorem parsehex_hexdigits (l : List (Fin 16)) : parsehex (l.map hexdigit) = some l := by
  induction l with
  | nil => rfl
  | cons n ns ih => simp only [List.map_cons, parsehex, fromhex_hexdigit, ih]

theorem tostr_length (id : git_oid) : (git_oid_tostr id).length = 40 := by
  unfold git_oid_tostr
  rw [List.length_map]
  exact id.property

/-- Reading back what `git_oid_tostr` printed gives the id, whatever follows
the 40 digits. -/
theorem fromstr_tostr (id : git_oid) (rest : List Char) :
    git_oid_fromstr (git_oid_tostr id ++ rest) = some id := by
  unfold git_oid_fromstr
  have htake : (git_oid_tostr id ++ rest).take 40 = git_oid_tostr id := by
    rw [List.take_append_of_le_length (by rw [tostr_length])]
    exact List.take_of_length_le (by rw [tostr_length])
  rw [htake]
  unfold git_oid_tostr
  rw [parsehex_hexdigits]
  simp only [id.property, dite_true]

theorem tostr_injective : Function.Injective git_oid_tostr := by
  intro a b h
  have ha := fromstr_tostr a []
  rw [h, fromstr_tostr b []] at ha
  exact (Option.some.inj ha).symm

theorem commitpath_injective : Function.Injective commitpath := by
  intro a b h
  unfold commitpath at h
  rw [List.append_assoc, List.append_assoc] at h
  have h1 := List.append_cancel_left h
  have h2 := List.append_cancel_right h1
  exact tostr_injective h2

theorem access_iff (w : World) (path : List Char) :
    access w path ≠ 0 ↔ w.files path = none := by
  unfold access
  cases w.files path <;> simp

theorem writelog_count_nolimit (s : Walk) (hn : s.nlogcommits = -1) : writelog_count s = s := by
  unfold writelog_count
  rw [if_neg (by rw [hn]; decide)]

theorem writelog_lines_cache (sys : Sys) (cachefile : List Char) (s : Walk) (ci : commitinfo)
    (hn : s.nlogcommits = -1) :
    writelog_lines sys (some cachefile) s ci
      = { s with fp := s.fp ++ writelogline sys s.relpath ci,
                 wcachefp := s.wcachefp ++ writelogline sys s.relpath ci } := by
  unfold writelog_lines
  have h1 : s.nlogcommits ≠ 0 := by rw [hn]; decide
  have h2 : ¬ s.nlogcommits > 0 := by rw [hn]; decide
  simp only [h1, ne_eq, not_false_eq_true, if_true, h2, if_false, Option.isSome_some]

theorem writelog_page_reliable (sys : Sys) (s : Walk) (path : List Char) (ci : commitinfo)
    (hrel : sys.reliable) :
    writelog_page sys s path ci
      = ({ s with relpath := "../".toList, world := s.world.write (path, sys.commitpage ci) },
          Ctl.next) := by
  obtain ⟨-, hfo, -, -, -, hwe, -, -⟩ := hrel
  unfold writelog_page efopen
  simp only [hfo, hwe, Bool.false_eq_true, if_false, World.write]

/-- The body of the loop for a commit whose record and statistics are
extracted, when a cache file is configured, no log limit is set and no file
operation fails. -/
theorem writelog_body_extracted (repo : git_repository) (sys : Sys) (cachefile : List Char)
    (s : Walk) (id : git_oid) (ci : commitinfo)
    (hrel : sys.reliable) (hn : s.nlogcommits = -1) (hr : s.relpath = [])
    (hget : commitinfo_getbyoid repo id = some ci)
    (hstat : (commitinfo_getstats repo ci).1 = 0) :
    writelog_body repo sys (some cachefile) s id
      = if s.world.files (commitpath id) = none then
          ({ s with relpath := "../".toList,
                    fp := s.fp ++ logline repo sys id,
                    wcachefp := s.wcachefp ++ logline repo sys id,
                    world := s.world.write (commitpath id, pagetext repo sys id) }, Ctl.next)
        else
          ({ s with fp := s.fp ++ logline repo sys id,
                    wcachefp := s.wcachefp ++ logline repo sys id }, Ctl.next) := by
  have hne : ¬ ((commitinfo_getstats repo ci).1 = -1) := by rw [hstat]; decide
  have hline : logline repo sys id = writelogline sys [] (commitinfo_getstats repo ci).2 := by
    unfold logline; rw [hget]
  have htext : pagetext repo sys id = sys.commitpage (commitinfo_getstats repo ci).2 := by
    unfold pagetext; rw [hget]
  have h0 : ¬ (s.nlogcommits = 0 ∧ access s.world (commitpath id) = 0) := by
    rw [hn]; intro h; exact absurd h.1 (by decide)
  unfold writelog_body
  simp only
  rw [if_neg h0, hget]
  simp only
  rw [if_neg hne, writelog_count_nolimit s hn, writelog_lines_cache sys cachefile s _ hn, hr,
    ← hline]
  by_cases hnone : s.world.files (commitpath id) = none
  · rw [if_pos ((access_iff _ _).mpr hnone), if_pos hnone, writelog_page_reliable _ _ _ _ hrel,
      ← htext]
  · rw [if_neg (fun h => hnone ((access_iff _ _).mp h)), if_neg hnone]

theorem write_files_self (w : World) (page : List Char × List Char) :
    (w.write page).files page.1 = some page.2 := by
  simp [World.write, World.store]

/-- The four ways a turn of the body can go. -/
theorem writelog_body_cases (repo : git_repository) (sys : Sys) (cachefile : Option (List Char))
    (s : Walk) (id : git_oid) :
    writelog_body repo sys cachefile s id = (writelog_count s, Ctl.next) ∨
    writelog_body repo sys cachefile s id = (writelog_count s, Ctl.stop) ∨
    (∃ ci, writelog_body repo sys cachefile s id
      = (writelog_lines sys cachefile (writelog_count s) ci, Ctl.next)) ∨
    (∃ ci, writelog_body repo sys cachefile s id
      = writelog_page sys (writelog_lines sys cachefile (writelog_count s) ci)
          (commitpath id) ci) := by
  unfold writelog_body
  simp only
  by_cases h1 : s.nlogcommits = 0 ∧ access s.world (commitpath id) = 0
  · rw [if_pos h1]; exact Or.inl rfl
  · rw [if_neg h1]
    cases commitinfo_getbyoid repo id with
    | none => exact Or.inr (Or.inl rfl)
    | some ci0 =>
      simp only
      by_cases h2 : (commitinfo_getstats repo ci0).1 = -1
      · rw [if_pos h2]; exact Or.inl rfl
      · rw [if_neg h2]
        by_cases h3 : access s.world (commitpath id) ≠ 0
        · rw [if_pos h3]; exact Or.inr (Or.inr (Or.inr ⟨_, rfl⟩))
        · rw [if_neg h3]; exact Or.inr (Or.inr (Or.inl ⟨_, rfl⟩))

theorem writelog_body_noabort (repo : git_repository) (sys : Sys) (cachefile : Option (List Char))
    (s : Walk) (id : git_oid) (hrel : sys.reliable) :
    (writelog_body repo sys cachefile s id).2 ≠ Ctl.abort := by
  rcases writelog_body_cases repo sys cachefile s id with h | h | ⟨ci, h⟩ | ⟨ci, h⟩
  · rw [h]; intro hc; cases hc
  · rw [h]; intro hc; cases hc
  · rw [h]; intro hc; cases hc
  · rw [h, writelog_page_reliable _ _ _ _ hrel]; intro hc; cases hc

theorem writelog_loop_noabort (repo : git_repository) (sys : Sys) (cachefile : Option (List Char))
    (lastoid : git_oid) (hrel : sys.reliable) (walk : List git_oid) :
    ∀ s : Walk, (writelog_loop repo sys cachefile lastoid s walk).2 = false := by
  induction walk with
  | nil => intro s; rfl
  | cons id rest ih =>
    intro s
    unfold writelog_loop
    have hb := writelog_body_noabort repo sys cachefile { s with relpath := [] } id hrel
    rcases hs : writelog_step repo sys cachefile lastoid s id with ⟨s1, c⟩
    cases c with
    | next => exact ih s1
    | stop => rfl
    | abort =>
      exfalso
      unfold writelog_step at hs
      simp only at hs
      by_cases hc : cachefile.isSome = true ∧ id = lastoid
      · rw [if_pos hc] at hs
        have := congrArg Prod.snd hs
        cases this
      · rw [if_neg hc] at hs
        exact hb (congrArg Prod.snd hs)

theorem writelog_noabort (repo : git_repository) (sys : Sys) (cachefile : Option (List Char))
    (lastoid : git_oid) (hrel : sys.reliable) (s : Walk) (oid : git_oid) :
    (writelog repo sys cachefile lastoid s oid).2 = false := by
  unfold writelog writelog_end
  rw [writelog_loop_noabort repo sys cachefile lastoid hrel]
  rfl

theorem writelog_count_wcachefp (s : Walk) : (writelog_count s).wcachefp = s.wcachefp :=
  (writelog_count_fields s).2.1

theorem writelog_lines_wcachefp (sys : Sys) (cachefile : Option (List Char)) (s : Walk)
    (ci : commitinfo) : ∃ a, (writelog_lines sys cachefile s ci).wcachefp = s.wcachefp ++ a := by
  unfold writelog_lines
  simp only
  by_cases hc : cachefile.isSome = true
  · rw [if_pos hc]
    by_cases hn : s.nlogcommits ≠ 0
    · rw [if_pos hn]; exact ⟨_, rfl⟩
    · rw [if_neg hn]; exact ⟨_, rfl⟩
  · rw [if_neg hc]
    by_cases hn : s.nlogcommits ≠ 0
    · rw [if_pos hn]; exact ⟨[], (List.append_nil _).symm⟩
    · rw [if_neg hn]; exact ⟨[], (List.append_nil _).symm⟩

theorem writelog_page_wcachefp (sys : Sys) (s : Walk) (path : List Char) (ci : commitinfo) :
    (writelog_page sys s path ci).1.wcachefp = s.wcachefp := by
  unfold writelog_page
  simp only
  cases efopen sys s.world path with
  | none => rfl
  | some w1 =>
    simp only
    cases sys.write_error path <;> rfl

/-- The body only appends to the cache stream. -/
theorem writelog_body_appends (repo : git_repository) (sys : Sys) (cachefile : Option (List Char))
    (s : Walk) (id : git_oid) :
    ∃ a, (writelog_body repo sys cachefile s id).1.wcachefp = s.wcachefp ++ a := by
  rcases writelog_body_cases repo sys cachefile s id with h | h | ⟨ci, h⟩ | ⟨ci, h⟩
  · exact ⟨[], by rw [h, List.append_nil]; exact writelog_count_wcachefp s⟩
  · exact ⟨[], by rw [h, List.append_nil]; exact writelog_count_wcachefp s⟩
  · obtain ⟨a, ha⟩ := writelog_lines_wcachefp sys cachefile (writelog_count s) ci
    exact ⟨a, by rw [h]; simp only; rw [ha, writelog_count_wcachefp]⟩
  · obtain ⟨a, ha⟩ := writelog_lines_wcachefp sys cachefile (writelog_count s) ci
    exact ⟨a, by rw [h, writelog_page_wcachefp, ha, writelog_count_wcachefp]⟩

theorem writelog_loop_appends (repo : git_repository) (sys : Sys) (cachefile : Option (List Char))
    (lastoid : git_oid) (walk : List git_oid) :
    ∀ s : Walk, ∃ a,
      (writelog_loop repo sys cachefile lastoid s walk).1.wcachefp = s.wcachefp ++ a := by
  induction walk with
  | nil => intro s; exact ⟨[], (List.append_nil _).symm⟩
  | cons id rest ih =>
    intro s
    have hstep : ∃ a, (writelog_step repo sys cachefile lastoid s id).1.wcachefp
        = s.wcachefp ++ a := by
      unfold writelog_step
      simp only
      split_ifs
      · exact ⟨[], (List.append_nil _).symm⟩
      · exact writelog_body_appends repo sys cachefile { s with relpath := [] } id
    unfold writelog_loop
    rcases hs : writelog_step repo sys cachefile lastoid s id with ⟨s1, c⟩
    rw [hs] at hstep
    obtain ⟨a, ha⟩ := hstep
    cases c with
    | next =>
      obtain ⟨b, hb⟩ := ih s1
      exact ⟨a ++ b, by rw [hb, ha, List.append_assoc]⟩
    | stop => exact ⟨a, ha⟩
    | abort => exact ⟨a, ha⟩

theorem writelog_end_wcachefp (l : Walk × Bool) : (writelog_end l).1.wcachefp = l.1.wcachefp := by
  unfold writelog_end
  by_cases h : l.2 = true
  · rw [if_pos h]
  · rw [if_neg h]
    simp only
    split_ifs <;> rfl

/-- The pages written after the log leave alone every path that starts with
the letter `c`: the temporary cache file and the pages of the commits. -/
theorem store_files_ne (w : World) (path text p : List Char) (hp : p ≠ path) :
    (w.store path text).files p = w.files p := by
  simp [World.store, hp]

theorem create_files_ne (w : World) (path p : List Char) (hp : p ≠ path) :
    (w.create path).files p = w.files p := by
  simp [World.create, hp]

theorem commitpath_head (id : git_oid) : (commitpath id).head? = some 'c' := rfl

theorem tmppath_ne_commitpath (chosen : List Char) (id : git_oid) :
    commitpath id ≠ tmppath chosen := by
  intro h
  have := congrArg (fun l => l.get? 1) h
  simp [commitpath, tmppath] at this

theorem getbyoid_author (repo : git_repository) (id : git_oid) (ci : commitinfo)
    (h : commitinfo_getbyoid repo id = some ci) : ci.author = some ci.commit.author := by
  unfold commitinfo_getbyoid at h
  cases hc : repo.commit_lookup id with
  | none =>
    rw [hc] at h
    cases h
  | some c =>
    rw [hc] at h
    cases h
    rfl

theorem countline_heading (s : deltainfo × commitinfo) (line : git_diff_line) :
    (countline s line).2.author = s.2.author ∧ (countline s line).2.summary = s.2.summary ∧
    (countline s line).2.oid = s.2.oid := by
  unfold countline
  split_ifs <;> exact ⟨rfl, rfl, rfl⟩

theorem countlines_heading (lines : List git_diff_line) (s : deltainfo × commitinfo) :
    (lines.foldl countline s).2.author = s.2.author ∧
    (lines.foldl countline s).2.summary = s.2.summary ∧
    (lines.foldl countline s).2.oid = s.2.oid := by
  induction lines generalizing s with
  | nil => exact ⟨rfl, rfl, rfl⟩
  | cons l ls ih =>
    obtain ⟨h1, h2, h3⟩ := ih (countline s l)
    obtain ⟨g1, g2, g3⟩ := countline_heading s l
    exact ⟨h1.trans g1, h2.trans g2, h3.trans g3⟩

theorem counthunks_heading (hunks : List (Option (List git_diff_line)))
    (s : deltainfo × commitinfo) :
    (counthunks s hunks).2.author = s.2.author ∧ (counthunks s hunks).2.summary = s.2.summary ∧
    (counthunks s hunks).2.oid = s.2.oid := by
  induction hunks generalizing s with
  | nil => exact ⟨rfl, rfl, rfl⟩
  | cons h hs ih =>
    cases h with
    | none => exact ⟨rfl, rfl, rfl⟩
    | some lines =>
      obtain ⟨h1, h2, h3⟩ := ih (lines.foldl countline s)
      obtain ⟨g1, g2, g3⟩ := countlines_heading lines s
      exact ⟨h1.trans g1, h2.trans g2, h3.trans g3⟩

theorem getstats_deltas_heading (patches : List (Option git_patch)) :
    ∀ (ci : commitinfo) (i : Nat) (ci1 : commitinfo) (k : Nat),
      getstats_deltas ci i patches = some (ci1, k) →
      ci1.author = ci.author ∧ ci1.summary = ci.summary ∧ ci1.oid = ci.oid := by
  induction patches with
  | nil =>
    intro ci i ci1 k h
    simp only [getstats_deltas, Option.some.injEq, Prod.mk.injEq] at h
    obtain ⟨rfl, -⟩ := h
    exact ⟨rfl, rfl, rfl⟩
  | cons p ps ih =>
    intro ci i ci1 k h
    cases p with
    | none => simp [getstats_deltas] at h
    | some patch =>
      simp only [getstats_deltas] at h
      obtain ⟨h1, h2, h3⟩ := ih _ _ _ _ h
      simp only at h1 h2 h3
      by_cases hb : patch.binary = true
      · rw [if_pos hb] at h1 h2 h3
        exact ⟨h1, h2, h3⟩
      · rw [if_neg hb] at h1 h2 h3
        obtain ⟨g1, g2, g3⟩ := counthunks_heading patch.hunks
          (({ patch := patch, addcount := 0, delcount := 0 } : deltainfo), ci)
        exact ⟨h1.trans g1, h2.trans g2, h3.trans g3⟩

theorem getstats_count_heading (ci : commitinfo) (d : git_diff) :
    (getstats_count ci d).2.author = ci.author ∧ (getstats_count ci d).2.summary = ci.summary ∧
    (getstats_count ci d).2.oid = ci.oid := by
  unfold getstats_count
  simp only
  cases h : getstats_deltas
      (if d.patches.length ≠ 0
        then { ci with deltas := some (List.replicate d.patches.length none) } else ci)
      0 d.patches with
  | none =>
    simp only [getstats_err]
    split_ifs <;> exact ⟨rfl, rfl, rfl⟩
  | some r =>
    obtain ⟨ci4, i⟩ := r
    obtain ⟨h1, h2, h3⟩ := getstats_deltas_heading _ _ _ _ _ h
    simp only
    refine ⟨h1.trans ?_, h2.trans ?_, h3.trans ?_⟩ <;> split_ifs <;> rfl

theorem getstats_diff_heading (repo : git_repository) (ci : commitinfo) :
    (getstats_diff repo ci).2.author = ci.author ∧
    (getstats_diff repo ci).2.summary = ci.summary ∧
    (getstats_diff repo ci).2.oid = ci.oid := by
  unfold getstats_diff
  split
  · exact ⟨rfl, rfl, rfl⟩
  · split
    · exact ⟨rfl, rfl, rfl⟩
    · split
      · exact ⟨rfl, rfl, rfl⟩
      · exact getstats_count_heading _ _

theorem getstats_parent_heading (repo : git_repository) (ci : commitinfo) :
    (getstats_parent repo ci).author = ci.author ∧
    (getstats_parent repo ci).summary = ci.summary ∧
    (getstats_parent repo ci).oid = ci.oid := by
  unfold getstats_parent
  split
  · exact ⟨rfl, rfl, rfl⟩
  · split <;> exact ⟨rfl, rfl, rfl⟩

/-- The function `commitinfo_getstats` leaves the author, the summary and the
id text of the record as they are. -/
theorem getstats_heading (repo : git_repository) (ci : commitinfo) :
    (commitinfo_getstats repo ci).2.author = ci.author ∧
    (commitinfo_getstats repo ci).2.summary = ci.summary ∧
    (commitinfo_getstats repo ci).2.oid = ci.oid := by
  unfold commitinfo_getstats
  split
  · exact ⟨rfl, rfl, rfl⟩
  · rename_i ct hct
    obtain ⟨h1, h2, h3⟩ := getstats_diff_heading repo
      (getstats_parent repo { ci with commit_tree := some ct })
    obtain ⟨g1, g2, g3⟩ := getstats_parent_heading repo { ci with commit_tree := some ct }
    exact ⟨h1.trans g1, h2.trans g2, h3.trans g3⟩

theorem loglines_cat (repo : git_repository) (sys : Sys) (ids : List git_oid) :
    loglines repo sys ids = cat (ids.map (logline repo sys)) := by
  induction ids with
  | nil => rfl
  | cons x xs ih =>
    show logline repo sys x ++ loglines repo sys xs = logline repo sys x ++ cat _
    rw [ih]

/-! ## Resumption -/

theorem sample_sys_reliable : sample_sys.reliable :=
  ⟨rfl, fun _ => rfl, fun _ => rfl, rfl, rfl, fun _ => rfl, rfl, rfl⟩

/-- When `HEAD` does not resolve, the cache file is not read: the run with a
cache file that holds no commit hash ends with exit status 0 and leaves the
cache file as it was. -/
theorem main_unread_cache_without_head :
    (main (some { sample_repo with head := none }) sample_sys sample_argv
      sample_world_malformed).1 = 0 ∧
    (main (some { sample_repo with head := none }) sample_sys sample_argv
      sample_world_malformed).2.files "cache".toList = some "not a hash\n".toList := by
  decide

/-! ## Idempotence -/

theorem getstats_zero_or_error (repo : git_repository) (ci : commitinfo)
    (h : ¬ (commitinfo_getstats repo ci).1 = -1) : (commitinfo_getstats repo ci).1 = 0 := by
  rw [getstats_code] at h ⊢
  split_ifs at h ⊢
  · exact absurd rfl h
  · rfl

/-- The turn of the loop for an extracted commit before the cursor. -/
theorem writelog_step_extracted (repo : git_repository) (sys : Sys) (cachefile : List Char)
    (lastoid : git_oid) (s : Walk) (id : git_oid) (ci : commitinfo)
    (hrel : sys.reliable) (hn : s.nlogcommits = -1) (hcur : id ≠ lastoid)
    (hget : commitinfo_getbyoid repo id = some ci)
    (hstat : (commitinfo_getstats repo ci).1 = 0) :
    ∃ s1, writelog_step repo sys (some cachefile) lastoid s id = (s1, Ctl.next) ∧
      s1.nlogcommits = -1 ∧
      s1.wcachefp = s.wcachefp ++ logline repo sys id ∧
      s1.world.files (commitpath id) ≠ none := by
  have hbody := writelog_body_extracted repo sys cachefile { s with relpath := [] } id ci hrel
    hn rfl hget hstat
  unfold writelog_step
  simp only [Option.isSome_some, true_and, hcur, if_false]
  rw [hbody]
  by_cases hnone : s.world.files (commitpath id) = none
  · rw [if_pos hnone]
    refine ⟨_, rfl, hn, rfl, ?_⟩
    show (s.world.write (commitpath id, pagetext repo sys id)).files (commitpath id) ≠ none
    rw [write_files_self]
    simp
  · rw [if_neg hnone]
    exact ⟨_, rfl, hn, rfl, hnone⟩

/-- The turn of the loop for a commit before the cursor that can be looked
up: the loop goes on, and the cache stream is only appended to. -/
theorem writelog_step_resolved (repo : git_repository) (sys : Sys) (cachefile : List Char)
    (lastoid : git_oid) (s : Walk) (id : git_oid)
    (hrel : sys.reliable) (hn : s.nlogcommits = -1) (hcur : id ≠ lastoid)
    (hget : commitinfo_getbyoid repo id ≠ none) :
    ∃ s1 a, writelog_step repo sys (some cachefile) lastoid s id = (s1, Ctl.next) ∧
      s1.nlogcommits = -1 ∧ s1.wcachefp = s.wcachefp ++ a := by
  cases hg : commitinfo_getbyoid repo id with
  | none => exact absurd hg hget
  | some ci =>
    by_cases hfail : (commitinfo_getstats repo ci).1 = -1
    · have hstep := writelog_step_failed_stats repo sys (some cachefile) lastoid s id ci
        (fun h => hcur h.2) hg hfail
      obtain ⟨-, h2, h3, -⟩ := writelog_count_fields { s with relpath := [] }
      exact ⟨_, [], hstep, h3.trans hn, by rw [h2, List.append_nil]⟩
    · obtain ⟨s1, h1, h2, h3, -⟩ := writelog_step_extracted repo sys cachefile lastoid s id ci
        hrel hn hcur hg (getstats_zero_or_error repo ci hfail)
      exact ⟨s1, _, h1, h2, h3⟩

theorem writelog_loop_caches (repo : git_repository) (sys : Sys) (cachefile : List Char)
    (lastoid id : git_oid) (rest : List git_oid) (ci : commitinfo)
    (hrel : sys.reliable) (hid : id ≠ lastoid)
    (hget : commitinfo_getbyoid repo id = some ci)
    (hstat : (commitinfo_getstats repo ci).1 = 0) (front : List git_oid) :
    ∀ s : Walk, s.nlogcommits = -1 → lastoid ∉ front →
      (∀ x ∈ front, commitinfo_getbyoid repo x ≠ none) →
      (∃ a b, (writelog_loop repo sys (some cachefile) lastoid s
          (front ++ id :: rest)).1.wcachefp = s.wcachefp ++ a ++ logline repo sys id ++ b) ∧
      (writelog_loop repo sys (some cachefile) lastoid s
          (front ++ id :: rest)).1.world.files (commitpath id) ≠ none := by
  induction front with
  | nil =>
    intro s hn _ _
    obtain ⟨s1, h1, -, h3, h4⟩ := writelog_step_extracted repo sys cachefile lastoid s id ci
      hrel hn hid hget hstat
    have hloop : writelog_loop repo sys (some cachefile) lastoid s ([] ++ id :: rest)
        = writelog_loop repo sys (some cachefile) lastoid s1 rest := by
      show writelog_loop repo sys (some cachefile) lastoid s (id :: rest) = _
      conv_lhs => unfold writelog_loop
      rw [h1]
    rw [hloop]
    constructor
    · obtain ⟨b, hb⟩ := writelog_loop_appends repo sys (some cachefile) lastoid rest s1
      exact ⟨[], b, by rw [hb, h3, List.append_nil]⟩
    · rcases grows_keeps (writelog_loop_grows repo sys (some cachefile) lastoid rest s1)
        (commitpath id) with h | h
      · rw [h]; exact h4
      · exact absurd h h4
  | cons x xs ih =>
    intro s hn hcur hfront
    obtain ⟨s1, a1, h1, h2, h3⟩ := writelog_step_resolved repo sys cachefile lastoid s x hrel hn
      (fun h => hcur (h ▸ List.mem_cons_self _ _)) (hfront x (List.mem_cons_self _ _))
    have hloop : writelog_loop repo sys (some cachefile) lastoid s (x :: xs ++ id :: rest)
        = writelog_loop repo sys (some cachefile) lastoid s1 (xs ++ id :: rest) := by
      show writelog_loop repo sys (some cachefile) lastoid s (x :: (xs ++ id :: rest)) = _
      conv_lhs => unfold writelog_loop
      rw [h1]
    rw [hloop]
    obtain ⟨⟨a, b, hab⟩, hfile⟩ := ih s1 h2 (fun h => hcur (List.mem_cons_of_mem _ h))
      (fun y hy => hfront y (List.mem_cons_of_mem _ hy))
    exact ⟨⟨a1 ++ a, b, by rw [hab, h3]; simp only [List.append_assoc]⟩, hfile⟩

/-- C6 (amended). With a cache file configured (the command line then accepts
no log limit) and no failing file operation, every commit that the walk
reaches before the cursor, after commits that can all be looked up, and whose
record and statistics are extracted, has its log line in the new cache stream
and a page at its path after `writelog`; when it had no page before, the page
was opened by this call and holds the page of this commit.  The log line is
the row of the table of this commit: the date of the author, the summary as a
link to the page of the commit, and the numbers of files, of added and of
deleted lines. -/
theorem writelog_caches_extracted_commits (repo : git_repository) (sys : Sys)
    (argv : List (List Char)) (cfg : Config) (cachefile : List Char) (lastoid oid id : git_oid)
    (front rest : List git_oid) (ci : commitinfo) (s : Walk)
    (hrel : sys.reliable)
    (hargs : parse_args argv = some cfg) (hcf : cfg.cachefile = some cachefile)
    (hn : s.nlogcommits = cfg.nlogcommits)
    (hwalk : repo.revwalk oid = front ++ id :: rest)
    (hcur : lastoid ∉ front ∧ id ≠ lastoid)
    (hfront : ∀ x ∈ front, commitinfo_getbyoid repo x ≠ none)
    (hget : commitinfo_getbyoid repo id = some ci)
    (hstat : (commitinfo_getstats repo ci).1 = 0) :
    (∃ a b, (writelog repo sys cfg.cachefile lastoid s oid).1.wcachefp
      = s.wcachefp ++ a ++ logline repo sys id ++ b) ∧
    (writelog repo sys cfg.cachefile lastoid s oid).1.world.files (commitpath id) ≠ none ∧
    (s.world.files (commitpath id) = none →
      (writelog repo sys cfg.cachefile lastoid s oid).1.world.files (commitpath id)
        = some (pagetext repo sys id) ∧
      commitpath id ∈ (writelog repo sys cfg.cachefile lastoid s oid).1.world.wopens) ∧
    (∃ a, ci.author = some a ∧
      logline repo sys id
        = "<tr><td>".toList ++ sys.printtimeshort a.when_ ++ "</td><td>".toList
          ++ (match ci.summary with
              | some summary =>
                "<a href=\"".toList ++ "commit/".toList ++ ci.oid ++ ".html\">".toList
                ++ xmlencode summary (strlen summary) ++ "</a>".toList
              | none => [])
          ++ "</td>".toList ++ "<td class=\"num\">".toList
          ++ (Nat.repr (commitinfo_getstats repo ci).2.filecount).toList
          ++ "</td><td class=\"num\">".toList
          ++ "+".toList ++ (Nat.repr (commitinfo_getstats repo ci).2.addcount).toList
          ++ "</td><td class=\"num\">".toList
          ++ "-".toList ++ (Nat.repr (commitinfo_getstats repo ci).2.delcount).toList
          ++ "</td></tr>\n".toList) := by
  have hn1 : s.nlogcommits = -1 := by
    rw [hn]; exact (parse_args_exclusive argv cfg hargs).1 (by rw [hcf]; rfl)
  rw [hcf]
  have hg := writelog_grows repo sys (some cachefile) lastoid s oid
  obtain ⟨hstream, hfile⟩ := writelog_loop_caches repo sys cachefile lastoid id rest ci hrel
    hcur.2 hget hstat front { s with remcommits := 0 } hn1 hcur.1 hfront
  have hfile1 : (writelog repo sys (some cachefile) lastoid s oid).1.world.files (commitpath id)
      ≠ none := by
    unfold writelog
    rw [writelog_end_world, hwalk]
    exact hfile
  refine ⟨?_, hfile1, ?_, ci.commit.author, getbyoid_author repo id ci hget, ?_⟩
  · unfold writelog
    rw [writelog_end_wcachefp, hwalk]
    exact hstream
  · intro hnone
    obtain ⟨opened, h1, -, h3, h4⟩ := hg
    have hmem : commitpath id ∈ opened := by
      by_contra hnot
      exact hfile1 ((h4 _ hnot).trans hnone)
    obtain ⟨-, id1, -, hp, hsome⟩ := h3 _ hmem
    refine ⟨?_, by rw [h1]; exact List.mem_append_right _ hmem⟩
    rw [hsome, ← commitpath_injective hp]
  · obtain ⟨h1, h2, h3⟩ := getstats_heading repo ci
    unfold logline
    rw [hget]
    simp only
    unfold writelogline
    rw [h1, h2, h3, getbyoid_author repo id ci hget]
    rfl

theorem writelog_caches_extracted_commits_witness :
    (∃ a b, (writelog sample_repo sample_sys (some "cache".toList) (oid_of 10) sample_walk
        (oid_of 12)).1.wcachefp
      = sample_walk.wcachefp ++ a ++ logline sample_repo sample_sys (oid_of 11) ++ b) ∧
    (writelog sample_repo sample_sys (some "cache".toList) (oid_of 10) sample_walk
        (oid_of 12)).1.world.files (commitpath (oid_of 11)) ≠ none :=
  have h := writelog_caches_extracted_commits sample_repo sample_sys sample_argv
    { repodir := some "repo".toList, cachefile := some "cache".toList, nlogcommits := -1,
      baseurl := [] }
    "cache".toList (oid_of 10) (oid_of 12) (oid_of 11) [oid_of 12] [oid_of 10]
    (sample_ci (oid_of 11)) sample_walk sample_sys_reliable rfl rfl rfl (by decide)
    (by decide)
    (fun x hx => by rw [List.mem_singleton] at hx; subst hx; decide)
    (by decide) (by decide)
  ⟨h.1, h.2.1⟩

/-- C6 (counterexample). With the accepted command line `stagit -c cache
repo`, on a repository in which the walk reaches three commits whose
statistics cannot be extracted, the run ends with exit status 0, the new
cache holds the id of `HEAD` and no log line, and the commit `ccc…` has no
page.  With the accepted command line `stagit -l 1 repo` no cache stream
exists: the files opened for writing are `log.html`, the pages of the three
commits and the pages that follow the log, and no cache file is written. -/
theorem main_commit_without_cache_entry :
    (parse_args sample_argv ≠ none ∧
      (main (some sample_repo_nopatch) sample_sys sample_argv sample_world_new).1 = 0 ∧
      (main (some sample_repo_nopatch) sample_sys sample_argv sample_world_new).2.files
        "cache".toList = some (git_oid_tostr (oid_of 12) ++ ['\n']) ∧
      (main (some sample_repo_nopatch) sample_sys sample_argv sample_world_new).2.files
        (commitpath (oid_of 12)) = none) ∧
    (parse_args sample_argv_limit ≠ none ∧
      (main (some sample_repo) sample_sys sample_argv_limit sample_world_new).1 = 0 ∧
      (main (some sample_repo) sample_sys sample_argv_limit sample_world_new).2.wopens
        = [logpath, commitpath (oid_of 12), commitpath (oid_of 11), commitpath (oid_of 10),
            "files.html".toList, "file/Makefile.html".toList, "refs.html".toList,
            "atom.xml".toList, "tags.xml".toList] ∧
      (main (some sample_repo) sample_sys sample_argv_limit sample_world_new).2.files
        "cache".toList = none) := by
  decide

/-! ## The commits before the cursor -/

theorem sample_repo_extracted (id : git_oid) :
    ∃ ci, commitinfo_getbyoid sample_repo id = some ci ∧
      (commitinfo_getstats sample_repo ci).1 = 0 :=
  ⟨_, rfl, rfl⟩

theorem writelog_step_line (repo : git_repository) (sys : Sys) (cachefile : List Char)
    (lastoid : git_oid) (s : Walk) (id : git_oid) (ci : commitinfo)
    (hrel : sys.reliable) (hn : s.nlogcommits = -1) (hcur : id ≠ lastoid)
    (hget : commitinfo_getbyoid repo id = some ci)
    (hstat : (commitinfo_getstats repo ci).1 = 0) :
    ∃ s1, writelog_step repo sys (some cachefile) lastoid s id = (s1, Ctl.next) ∧
      s1.nlogcommits = -1 ∧
      s1.fp = s.fp ++ logline repo sys id ∧
      s1.wcachefp = s.wcachefp ++ logline repo sys id ∧
      s1.world.files (commitpath id) ≠ none := by
  have hbody := writelog_body_extracted repo sys cachefile { s with relpath := [] } id ci hrel
    hn rfl hget hstat
  unfold writelog_step
  simp only [Option.isSome_some, true_and, hcur, if_false]
  rw [hbody]
  by_cases hnone : s.world.files (commitpath id) = none
  · rw [if_pos hnone]
    refine ⟨_, rfl, hn, rfl, rfl, ?_⟩
    show (s.world.write (commitpath id, pagetext repo sys id)).files (commitpath id) ≠ none
    rw [write_files_self]
    simp
  · rw [if_neg hnone]
    exact ⟨_, rfl, hn, rfl, rfl, hnone⟩

theorem writelog_loop_extracted (repo : git_repository) (sys : Sys) (cachefile : List Char)
    (lastoid : git_oid) (hrel : sys.reliable) (ids : List git_oid) :
    ∀ s : Walk, s.nlogcommits = -1 → lastoid ∉ ids →
      (∀ id ∈ ids, ∃ ci, commitinfo_getbyoid repo id = some ci ∧
        (commitinfo_getstats repo ci).1 = 0) →
      (writelog_loop repo sys (some cachefile) lastoid s ids).2 = false ∧
      (writelog_loop repo sys (some cachefile) lastoid s ids).1.nlogcommits = -1 ∧
      (writelog_loop repo sys (some cachefile) lastoid s ids).1.fp
        = s.fp ++ loglines repo sys ids ∧
      (writelog_loop repo sys (some cachefile) lastoid s ids).1.wcachefp
        = s.wcachefp ++ loglines repo sys ids ∧
      (∀ id ∈ ids,
        (writelog_loop repo sys (some cachefile) lastoid s ids).1.world.files (commitpath id)
          ≠ none) := by
  induction ids with
  | nil =>
    intro s hn _ _
    refine ⟨rfl, hn, ?_, ?_, ?_⟩
    · simp [writelog_loop, loglines]
    · simp [writelog_loop, loglines]
    · intro id hid
      cases hid
  | cons x xs ih =>
    intro s hn hcur hgood
    obtain ⟨ci, hget, hstat⟩ := hgood x (List.mem_cons_self _ _)
    obtain ⟨s1, h1, h2, h3, h4, h5⟩ := writelog_step_line repo sys cachefile lastoid s x ci hrel
      hn (fun h => hcur (h ▸ List.mem_cons_self _ _)) hget hstat
    have hloop : writelog_loop repo sys (some cachefile) lastoid s (x :: xs)
        = writelog_loop repo sys (some cachefile) lastoid s1 xs := by
      conv_lhs => unfold writelog_loop
      rw [h1]
    rw [hloop]
    obtain ⟨r1, r2, r3, r4, r5⟩ := ih s1 h2 (fun h => hcur (List.mem_cons_of_mem _ h))
      (fun y hy => hgood y (List.mem_cons_of_mem _ hy))
    refine ⟨r1, r2, ?_, ?_, ?_⟩
    · rw [r3, h3]
      simp only [loglines, List.append_assoc]
    · rw [r4, h4]
      simp only [loglines, List.append_assoc]
    · intro id hid
      rcases List.mem_cons.mp hid with rfl | hmem
      · rcases grows_keeps (writelog_loop_grows repo sys (some cachefile) lastoid xs s1)
          (commitpath id) with h | h
        · rw [h]
          exact h5
        · exact absurd h h5
      · exact r5 id hmem

theorem writelog_end_nolimit (l : Walk × Bool) (hn : l.1.nlogcommits = -1) :
    (writelog_end l).1.fp = l.1.fp ∧ (writelog_end l).2 = l.2 := by
  unfold writelog_end
  by_cases h : l.2 = true
  · rw [if_pos h]
    exact ⟨rfl, rfl⟩
  · rw [if_neg h]
    simp only
    rw [if_neg (by rw [hn]; intro hc; exact absurd hc.1 (by decide))]
    exact ⟨rfl, by simpa using h⟩

theorem takeWhile_before (lastoid : git_oid) (walk : List git_oid) :
    lastoid ∉ walk.takeWhile (fun id => decide (id ≠ lastoid)) ∧
    (walk.takeWhile (fun id => decide (id ≠ lastoid))).takeWhile
        (fun id => decide (id ≠ lastoid))
      = walk.takeWhile (fun id => decide (id ≠ lastoid)) := by
  have h1 : lastoid ∉ walk.takeWhile (fun id => decide (id ≠ lastoid)) := by
    intro hm
    have := List.mem_takeWhile_imp hm
    simp at this
  refine ⟨h1, ?_⟩
  apply List.takeWhile_eq_self_iff.mpr
  intro id hid
  simp only [ne_eq, decide_eq_true_eq]
  rintro rfl
  exact h1 hid

theorem takeWhile_front (lastoid : git_oid) (front rest : List git_oid)
    (h : lastoid ∉ front) :
    (front ++ lastoid :: rest).takeWhile (fun id => decide (id ≠ lastoid)) = front := by
  induction front with
  | nil => simp
  | cons x xs ih =>
    have hx : x ≠ lastoid := fun hc => h (hc ▸ List.mem_cons_self _ _)
    simp only [List.cons_append, List.takeWhile_cons, ne_eq, hx, not_false_eq_true,
      decide_True, if_true]
    rw [ih (fun hm => h (List.mem_cons_of_mem _ hm))]

/-- With a cache file, the loop over the walk and the loop over the commits
before the cursor leave the same behind. -/
theorem writelog_loop_before (repo : git_repository) (sys : Sys) (cachefile : List Char)
    (lastoid : git_oid) (walk : List git_oid) (s : Walk) :
    writelog_end (writelog_loop repo sys (some cachefile) lastoid s walk)
      = writelog_end (writelog_loop repo sys (some cachefile) lastoid s
          (walk.takeWhile (fun id => decide (id ≠ lastoid)))) := by
  rw [loop_eq_bodies repo sys cachefile lastoid walk s,
    loop_eq_bodies repo sys cachefile lastoid _ s, (takeWhile_before lastoid walk).2]

/-- C5, counterexample.  The walk yields `ccc…`, `bbb…` and the cursor `aaa…`;
`ccc…` cannot be looked up, which ends the loop.  The commit `bbb…` precedes
the cursor and could be extracted, and yet nothing is written for it: no log
line in `log.html` or in the cache stream, and no page. -/
theorem writelog_stops_before_cursor :
    oid_of 11 ∈ (sample_repo_lost.revwalk (oid_of 12)).takeWhile
      (fun id => decide (id ≠ oid_of 10)) ∧
    (∃ ci, commitinfo_getbyoid sample_repo_lost (oid_of 11) = some ci ∧
      (commitinfo_getstats sample_repo_lost ci).1 = 0) ∧
    (writelog sample_repo_lost sample_sys (some "cache".toList) (oid_of 10)
      { sample_walk with world := sample_world_new } (oid_of 12)).2 = false ∧
    (writelog sample_repo_lost sample_sys (some "cache".toList) (oid_of 10)
      { sample_walk with world := sample_world_new } (oid_of 12)).1.fp = [] ∧
    (writelog sample_repo_lost sample_sys (some "cache".toList) (oid_of 10)
      { sample_walk with world := sample_world_new } (oid_of 12)).1.wcachefp = [] ∧
    (writelog sample_repo_lost sample_sys (some "cache".toList) (oid_of 10)
      { sample_walk with world := sample_world_new } (oid_of 12)).1.world.files
        (commitpath (oid_of 11)) = none := by
  refine ⟨by decide, ⟨sample_ci (oid_of 11), by decide, by decide⟩, ?_, ?_, ?_, ?_⟩ <;> decide

/-- C5 (as the code has it).  With a cache file configured, for every
repository (hence every walk) and every cursor, `writelog` is the body of its
loop run on the commits of the walk that precede the first occurrence of the
cursor, followed by the statements after the loop; these commits are the whole
walk when the cursor does not occur in it.  Nothing is done for the cursor
commit or for a commit after it: every file opened is the page of a commit
before the cursor that had no page, and every other file is left as it was.
When no file operation fails, no log limit is set (none can be, with a cache
file) and every commit before the cursor is extracted, the call returns, the
log lines written to `log.html` and to the cache stream are exactly those of
the commits before the cursor, one row each in the order of the walk, and each
of these commits has a page afterwards: the one written by this call when it
had none, its previous page otherwise. -/
theorem writelog_processes_up_to_cursor (repo : git_repository) (sys : Sys)
    (cachefile : List Char) (lastoid : git_oid) (s : Walk) (oid : git_oid) :
    writelog repo sys (some cachefile) lastoid s oid
      = writelog_end (writelog_bodies repo sys (some cachefile) { s with remcommits := 0 }
          ((repo.revwalk oid).takeWhile (fun id => decide (id ≠ lastoid)))) ∧
    (lastoid ∉ repo.revwalk oid →
      (repo.revwalk oid).takeWhile (fun id => decide (id ≠ lastoid)) = repo.revwalk oid) ∧
    (∀ front rest, repo.revwalk oid = front ++ lastoid :: rest → lastoid ∉ front →
      (repo.revwalk oid).takeWhile (fun id => decide (id ≠ lastoid)) = front) ∧
    Grows repo sys s.world (writelog repo sys (some cachefile) lastoid s oid).1.world
      ((repo.revwalk oid).takeWhile (fun id => decide (id ≠ lastoid))) ∧
    (sys.reliable → s.nlogcommits = -1 →
      (∀ id ∈ (repo.revwalk oid).takeWhile (fun id => decide (id ≠ lastoid)),
        ∃ ci, commitinfo_getbyoid repo id = some ci ∧ (commitinfo_getstats repo ci).1 = 0) →
      (writelog repo sys (some cachefile) lastoid s oid).2 = false ∧
      (writelog repo sys (some cachefile) lastoid s oid).1.fp
        = s.fp ++ loglines repo sys
            ((repo.revwalk oid).takeWhile (fun id => decide (id ≠ lastoid))) ∧
      (writelog repo sys (some cachefile) lastoid s oid).1.wcachefp
        = s.wcachefp ++ loglines repo sys
            ((repo.revwalk oid).takeWhile (fun id => decide (id ≠ lastoid))) ∧
      loglines repo sys ((repo.revwalk oid).takeWhile (fun id => decide (id ≠ lastoid)))
        = cat (((repo.revwalk oid).takeWhile (fun id => decide (id ≠ lastoid))).map
            (logline repo sys)) ∧
      (∀ (l : List (List Char)) (t : List Char), cat (t :: l) = t ++ cat l) ∧
    (∀ id ∈ (repo.revwalk oid).takeWhile (fun id => decide (id ≠ lastoid)), ∃ ci a, commitinfo_getbyoid repo id = some ci ∧ ci.author = some a ∧
        logline repo sys id
          = "<tr><td>".toList ++ sys.printtimeshort a.when_ ++ "</td><td>".toList
            ++ (match ci.summary with
                | some summary =>
                  "<a href=\"".toList ++ "commit/".toList ++ ci.oid ++ ".html\">".toList
                  ++ xmlencode summary (strlen summary) ++ "</a>".toList
                | none => [])
            ++ "</td>".toList ++ "<td class=\"num\">".toList
            ++ (Nat.repr (commitinfo_getstats repo ci).2.filecount).toList
            ++ "</td><td class=\"num\">".toList
            ++ "+".toList ++ (Nat.repr (commitinfo_getstats repo ci).2.addcount).toList
            ++ "</td><td class=\"num\">".toList
            ++ "-".toList ++ (Nat.repr (commitinfo_getstats repo ci).2.delcount).toList
            ++ "</td></tr>\n".toList) ∧
      (∀ id ∈ (repo.revwalk oid).takeWhile (fun id => decide (id ≠ lastoid)),
        (s.world.files (commitpath id) = none →
          (writelog repo sys (some cachefile) lastoid s oid).1.world.files (commitpath id)
            = some (pagetext repo sys id) ∧
          commitpath id ∈ (writelog repo sys (some cachefile) lastoid s oid).1.world.wopens) ∧
        (∀ t, s.world.files (commitpath id) = some t →
          (writelog repo sys (some cachefile) lastoid s oid).1.world.files (commitpath id)
            = some t))) := by
  have hw : writelog repo sys (some cachefile) lastoid s oid
      = writelog_end (writelog_loop repo sys (some cachefile) lastoid { s with remcommits := 0 }
          ((repo.revwalk oid).takeWhile (fun id => decide (id ≠ lastoid)))) := by
    unfold writelog
    exact writelog_loop_before repo sys cachefile lastoid (repo.revwalk oid) _
  have hg : Grows repo sys s.world (writelog repo sys (some cachefile) lastoid s oid).1.world
      ((repo.revwalk oid).takeWhile (fun id => decide (id ≠ lastoid))) := by
    rw [hw, writelog_end_world]
    exact writelog_loop_grows repo sys (some cachefile) lastoid _ { s with remcommits := 0 }
  refine ⟨loop_eq_bodies repo sys cachefile lastoid (repo.revwalk oid) _, ?_, ?_, hg, ?_⟩
  · intro hnot
    apply List.takeWhile_eq_self_iff.mpr
    intro id hid
    simp only [ne_eq, decide_eq_true_eq]
    rintro rfl
    exact hnot hid
  · intro front rest hwalk hfront
    rw [hwalk]
    exact takeWhile_front lastoid front rest hfront
  · intro hrel hn hgood
    obtain ⟨r1, r2, r3, r4, r5⟩ := writelog_loop_extracted repo sys cachefile lastoid hrel
      ((repo.revwalk oid).takeWhile (fun id => decide (id ≠ lastoid)))
      { s with remcommits := 0 } hn (takeWhile_before lastoid (repo.revwalk oid)).1 hgood
    obtain ⟨e1, e2⟩ := writelog_end_nolimit
      (writelog_loop repo sys (some cachefile) lastoid { s with remcommits := 0 }
        ((repo.revwalk oid).takeWhile (fun id => decide (id ≠ lastoid)))) r2
    refine ⟨?_, ?_, ?_, loglines_cat repo sys _, fun _ _ => rfl,
      (fun id hid => by
        obtain ⟨ci, hci, -⟩ := hgood id hid
        have ha := getbyoid_author repo id ci hci
        obtain ⟨h1, h2, h3⟩ := getstats_heading repo ci
        refine ⟨ci, ci.commit.author, hci, ha, ?_⟩
        unfold logline
        rw [hci]
        simp only
        unfold writelogline
        rw [h1, h2, h3, ha]
        rfl), ?_⟩
    · rw [hw, e2]
      exact r1
    · rw [hw, e1]
      exact r3
    · rw [hw, writelog_end_wcachefp]
      exact r4
    · intro id hid
      have hne : (writelog repo sys (some cachefile) lastoid s oid).1.world.files (commitpath id)
          ≠ none := by
        rw [hw, writelog_end_world]
        exact r5 id hid
      constructor
      · intro hnone
        obtain ⟨opened, h1, -, h3, h4⟩ := hg
        have hmem : commitpath id ∈ opened := by
          by_contra hnot
          exact hne ((h4 _ hnot).trans hnone)
        obtain ⟨-, id1, -, hp, hsome⟩ := h3 _ hmem
        refine ⟨?_, by rw [h1]; exact List.mem_append_right _ hmem⟩
        rw [hsome, ← commitpath_injective hp]
      · intro t ht
        rcases grows_keeps hg (commitpath id) with h | h
        · rw [h, ht]
        · rw [ht] at h
          cases h

/-- C5, instance: the walk yields `ccc…`, `bbb…` and the cursor `aaa…`; the
log lines of `ccc…` and `bbb…` are written, the page of `ccc…` is written and
the page `bbb…` had is kept; `aaa…` gets no page. -/
theorem writelog_processes_up_to_cursor_witness :
    (sample_repo.revwalk (oid_of 12)).takeWhile (fun id => decide (id ≠ oid_of 10))
      = [oid_of 12, oid_of 11] ∧
    (writelog sample_repo sample_sys (some "cache".toList) (oid_of 10) sample_walk
        (oid_of 12)).1.wcachefp
      = sample_walk.wcachefp ++ loglines sample_repo sample_sys
          ((sample_repo.revwalk (oid_of 12)).takeWhile (fun id => decide (id ≠ oid_of 10))) ∧
    (writelog sample_repo sample_sys (some "cache".toList) (oid_of 10) sample_walk
        (oid_of 12)).1.world.files (commitpath (oid_of 10)) = none :=
  have h := writelog_processes_up_to_cursor sample_repo sample_sys "cache".toList (oid_of 10)
    sample_walk (oid_of 12)
  ⟨h.2.2.1 [oid_of 12, oid_of 11] [] (by decide) (by decide),
    (h.2.2.2.2 sample_sys_reliable rfl (fun id _ => sample_repo_extracted id)).2.2.1,
    by
      obtain ⟨opened, -, -, h3, h4⟩ := h.2.2.2.1
      by_cases hm : commitpath (oid_of 10) ∈ opened
      · obtain ⟨-, id, hid, hp, -⟩ := h3 _ hm
        have hid2 : id ∈ [oid_of 12, oid_of 11] := by
          have := h.2.2.1 [oid_of 12, oid_of 11] [] (by decide) (by decide)
          rw [this] at hid
          exact hid
        have := commitpath_injective hp
        subst this
        revert hid2
        decide
      · rw [h4 _ hm]
        decide⟩

/-! ## The record of a commit and its author -/

/-- The lookup of a commit fails exactly when the id names no commit object or
the author of the object cannot be read. -/
theorem commit_lookup_eq_none (repo : git_repository) (id : git_oid) :
    repo.commit_lookup id = none
      ↔ repo.odb_commit id = none ∨ ∃ o, repo.odb_commit id = some o ∧ o.author = none := by
  unfold git_repository.commit_lookup
  cases ho : repo.odb_commit id with
  | none => simp
  | some o =>
    cases ha : o.author with
    | none => simp [ha]
    | some a => simp [ha]

/-- An object without author in the sample repository: no record is made of it. -/
theorem commitinfo_getbyoid_sample_noauthor :
    commitinfo_getbyoid
      { sample_repo with
        odb_commit := fun id => some { sample_object id 0 with author := none } }
      (oid_of 12) = none := rfl

/-- C15.  `commitinfo_getbyoid` returns no record when the id does not resolve
to a commit object, and when the author of the object cannot be read; these
are the two cases in which `git_commit_lookup` fails, and the function fails
in no other case.  A record it returns has an author: the one read from the
object, which is also the author of the commit the record holds. -/
theorem commitinfo_getbyoid_author (repo : git_repository) (id : git_oid) :
    (repo.odb_commit id = none → commitinfo_getbyoid repo id = none) ∧
    (∀ o, repo.odb_commit id = some o → o.author = none →
      commitinfo_getbyoid repo id = none) ∧
    (commitinfo_getbyoid repo id = none ↔ repo.commit_lookup id = none) ∧
    (commitinfo_getbyoid repo id = none
      ↔ repo.odb_commit id = none ∨ ∃ o, repo.odb_commit id = some o ∧ o.author = none) ∧
    (∀ ci, commitinfo_getbyoid repo id = some ci →
      ∃ o a, repo.odb_commit id = some o ∧ o.author = some a ∧
        ci.author = some a ∧ ci.commit.author = a ∧
        repo.commit_lookup id = some ci.commit) := by
  have hiff : commitinfo_getbyoid repo id = none ↔ repo.commit_lookup id = none := by
    unfold commitinfo_getbyoid
    cases h : repo.commit_lookup id with
    | none => exact ⟨fun _ => rfl, fun _ => rfl⟩
    | some c0 =>
      refine ⟨fun hn => ?_, fun hn => ?_⟩
      · cases hn
      · cases hn
  refine ⟨fun h => ?_, fun o ho ha => ?_, hiff, ?_, ?_⟩
  · exact hiff.mpr ((commit_lookup_eq_none repo id).mpr (Or.inl h))
  · exact hiff.mpr ((commit_lookup_eq_none repo id).mpr (Or.inr ⟨o, ho, ha⟩))
  · exact hiff.trans (commit_lookup_eq_none repo id)
  · intro ci hci
    unfold commitinfo_getbyoid git_repository.commit_lookup at hci
    unfold git_repository.commit_lookup
    cases ho : repo.odb_commit id with
    | none => rw [ho] at hci; cases hci
    | some o =>
      cases ha : o.author with
      | none => rw [ho] at hci; simp only [ha] at hci; cases hci
      | some a =>
        rw [ho] at hci
        simp only [ha] at hci
        cases hci
        exact ⟨o, a, rfl, ha, rfl, rfl, by simp only [ha]⟩

/-! ## The comparator of references -/

theorem char_toNat_zero (a : Char) : a.toNat = 0 ↔ a = NUL := by
  constructor
  · intro h
    apply Char.ext
    apply UInt32.ext
    exact h
  · intro h
    rw [h]
    rfl

theorem char_toNat_eq (a b : Char) (h : a.toNat = b.toNat) : a = b := by
  apply Char.ext
  apply UInt32.ext
  exact h

theorem cstr_nil : cstr [] = [] := rfl

theorem nul_toNat : NUL.toNat = 0 := rfl

theorem cstr_cons_nul (cs : List Char) : cstr (NUL :: cs) = [] := rfl

theorem cstr_cons (c : Char) (cs : List Char) (h : c ≠ NUL) : cstr (c :: cs) = c :: cstr cs := by
  unfold cstr
  rw [List.takeWhile_cons]
  simp [h]

theorem strcmp_swap (a : List Char) : ∀ b, strcmp b a = -strcmp a b := by
  induction a with
  | nil =>
    intro b
    cases b with
    | nil => simp [strcmp]
    | cons c cs => simp [strcmp]
  | cons x xs ih =>
    intro b
    cases b with
    | nil => simp [strcmp]
    | cons c cs =>
      by_cases hxc : x = c
      · subst hxc
        by_cases hn : x = NUL
        · simp [strcmp, hn]
        · simp only [strcmp, if_true, if_neg hn]
          exact ih cs
      · have hcx : ¬ c = x := fun h => hxc h.symm
        simp only [strcmp, if_neg hxc, if_neg hcx]
        omega

theorem strcmp_neg_iff (a : List Char) : ∀ b, strcmp a b < 0 ↔ lexlt (cstr a) (cstr b) := by
  induction a with
  | nil =>
    intro b
    cases b with
    | nil => simp [strcmp, cstr_nil, lexlt]
    | cons c cs =>
      by_cases hc : c = NUL
      · subst hc
        simp [strcmp, cstr_nil, cstr_cons_nul, lexlt, nul_toNat]
      · have h0 : c.toNat ≠ 0 := fun h => hc ((char_toNat_zero c).1 h)
        rw [cstr_cons c cs hc]
        simp only [strcmp, cstr_nil, lexlt, iff_true]
        omega
  | cons x xs ih =>
    intro b
    cases b with
    | nil =>
      by_cases hx : x = NUL
      · subst hx
        simp [strcmp, cstr_nil, cstr_cons_nul, lexlt, nul_toNat]
      · rw [cstr_cons x xs hx]
        simp only [strcmp, cstr_nil, lexlt, iff_false]
        omega
    | cons c cs =>
      by_cases hxc : x = c
      · subst hxc
        by_cases hn : x = NUL
        · subst hn
          simp [strcmp, cstr_cons_nul, lexlt]
        · rw [cstr_cons x xs hn, cstr_cons x cs hn]
          simp only [strcmp, if_true, if_neg hn, lexlt, lt_self_iff_false, true_and, false_or]
          exact ih cs
      · have hne : x.toNat ≠ c.toNat := fun h => hxc (char_toNat_eq x c h)
        simp only [strcmp, if_neg hxc]
        by_cases hx : x = NUL
        · have hc : c ≠ NUL := fun h => hxc (hx.trans h.symm)
          have hx0 : x.toNat = 0 := (char_toNat_zero x).2 hx
          subst hx
          rw [cstr_cons_nul, cstr_cons c cs hc]
          simp only [lexlt, iff_true]
          omega
        · by_cases hc : c = NUL
          · have hc0 : c.toNat = 0 := (char_toNat_zero c).2 hc
            subst hc
            rw [cstr_cons_nul, cstr_cons x xs hx]
            simp only [lexlt, iff_false]
            omega
          · rw [cstr_cons x xs hx, cstr_cons c cs hc]
            simp only [lexlt, hxc, false_and, or_false]
            omega

theorem strcmp_zero_iff (a : List Char) : ∀ b, strcmp a b = 0 ↔ cstr a = cstr b := by
  induction a with
  | nil =>
    intro b
    cases b with
    | nil => simp [strcmp]
    | cons c cs =>
      by_cases hc : c = NUL
      · subst hc
        simp [strcmp, cstr_nil, cstr_cons_nul, nul_toNat]
      · have h0 : c.toNat ≠ 0 := fun h => hc ((char_toNat_zero c).1 h)
        rw [cstr_cons c cs hc]
        simp only [strcmp, cstr_nil]
        constructor
        · intro h
          omega
        · intro h
          cases h
  | cons x xs ih =>
    intro b
    cases b with
    | nil =>
      by_cases hx : x = NUL
      · subst hx
        simp [strcmp, cstr_nil, cstr_cons_nul, nul_toNat]
      · have h0 : x.toNat ≠ 0 := fun h => hx ((char_toNat_zero x).1 h)
        rw [cstr_cons x xs hx]
        simp only [strcmp, cstr_nil]
        constructor
        · intro h
          omega
        · intro h
          cases h
    | cons c cs =>
      by_cases hxc : x = c
      · subst hxc
        by_cases hn : x = NUL
        · subst hn
          simp [strcmp, cstr_cons_nul]
        · rw [cstr_cons x xs hn, cstr_cons x cs hn]
          simp only [strcmp, if_true, if_neg hn, List.cons.injEq, true_and]
          exact ih cs
      · have hne : x.toNat ≠ c.toNat := fun h => hxc (char_toNat_eq x c h)
        simp only [strcmp, if_neg hxc]
        constructor
        · intro h
          omega
        · intro h
          exfalso
          by_cases hx : x = NUL
          · have hc : c ≠ NUL := fun h => hxc (hx.trans h.symm)
            subst hx
            rw [cstr_cons_nul, cstr_cons c cs hc] at h
            cases h
          · by_cases hc : c = NUL
            · subst hc
              rw [cstr_cons_nul, cstr_cons x xs hx] at h
              cases h
            · rw [cstr_cons x xs hx, cstr_cons c cs hc] at h
              exact hxc (List.cons.inj h).1

theorem is_tag_int_cases (r : git_reference) :
    (r.is_tag = false ∧ is_tag_int r = 0) ∨ (r.is_tag = true ∧ is_tag_int r = 1) := by
  unfold is_tag_int
  cases r.is_tag with
  | false => exact Or.inl ⟨rfl, rfl⟩
  | true => exact Or.inr ⟨rfl, rfl⟩

theorem refs_cmp_kind_ne (a b : referenceinfo) (h : is_tag_int a.ref ≠ is_tag_int b.ref) :
    refs_cmp a b = is_tag_int a.ref - is_tag_int b.ref := by
  have h0 : is_tag_int a.ref - is_tag_int b.ref ≠ 0 := fun hc => h (by omega)
  unfold refs_cmp
  simp only
  rw [if_pos h0]

theorem refs_cmp_time_gt (a b : referenceinfo) (hk : is_tag_int a.ref = is_tag_int b.ref)
    (ht : authortime a.ci > authortime b.ci) : refs_cmp a b = -1 := by
  have h0 : ¬ is_tag_int a.ref - is_tag_int b.ref ≠ 0 := fun hc => hc (by omega)
  unfold refs_cmp
  simp only
  rw [if_neg h0, if_pos ht]
  rfl

theorem refs_cmp_time_lt (a b : referenceinfo) (hk : is_tag_int a.ref = is_tag_int b.ref)
    (ht : authortime a.ci < authortime b.ci) : refs_cmp a b = 1 := by
  have h0 : ¬ is_tag_int a.ref - is_tag_int b.ref ≠ 0 := fun hc => hc (by omega)
  have h1 : ¬ authortime a.ci > authortime b.ci := by omega
  have h2 : ¬ authortime a.ci = authortime b.ci := by omega
  unfold refs_cmp
  simp only
  rw [if_neg h0, if_neg h1, if_neg h2]
  rfl

theorem refs_cmp_time_eq (a b : referenceinfo) (hk : is_tag_int a.ref = is_tag_int b.ref)
    (ht : authortime a.ci = authortime b.ci) :
    refs_cmp a b = strcmp a.ref.shorthand b.ref.shorthand := by
  have h0 : ¬ is_tag_int a.ref - is_tag_int b.ref ≠ 0 := fun hc => hc (by omega)
  have h1 : ¬ authortime a.ci > authortime b.ci := by omega
  unfold refs_cmp
  simp only
  rw [if_neg h0, if_neg h1, if_pos ht]
  rfl

theorem is_tag_int_eq (a b : git_reference) (h : a.is_tag = b.is_tag) :
    is_tag_int a = is_tag_int b := by
  unfold is_tag_int
  rw [h]

theorem refs_cmp_branch_tag (a b : referenceinfo) (ha : a.ref.is_tag = false)
    (hb : b.ref.is_tag = true) : refs_cmp a b = -1 := by
  have ha1 : is_tag_int a.ref = 0 := by unfold is_tag_int; rw [ha]; rfl
  have hb1 : is_tag_int b.ref = 1 := by unfold is_tag_int; rw [hb]; rfl
  rw [refs_cmp_kind_ne a b (by rw [ha1, hb1]; decide), ha1, hb1]
  rfl

theorem refs_cmp_tag_branch (a b : referenceinfo) (ha : a.ref.is_tag = true)
    (hb : b.ref.is_tag = false) : refs_cmp a b = 1 := by
  have ha1 : is_tag_int a.ref = 1 := by unfold is_tag_int; rw [ha]; rfl
  have hb1 : is_tag_int b.ref = 0 := by unfold is_tag_int; rw [hb]; rfl
  rw [refs_cmp_kind_ne a b (by rw [ha1, hb1]; decide), ha1, hb1]
  rfl

theorem bool_ne_cases (x y : Bool) (h : x ≠ y) :
    (x = false ∧ y = true) ∨ (x = true ∧ y = false) := by
  cases x <;> cases y
  · exact absurd rfl h
  · exact Or.inl ⟨rfl, rfl⟩
  · exact Or.inr ⟨rfl, rfl⟩
  · exact absurd rfl h

theorem refs_cmp_neg_iff (a b : referenceinfo) :
    refs_cmp a b < 0 ↔
      (a.ref.is_tag = false ∧ b.ref.is_tag = true) ∨
      (a.ref.is_tag = b.ref.is_tag ∧ authortime a.ci > authortime b.ci) ∨
      (a.ref.is_tag = b.ref.is_tag ∧ authortime a.ci = authortime b.ci ∧
        lexlt (cstr a.ref.shorthand) (cstr b.ref.shorthand)) := by
  by_cases hkb : a.ref.is_tag = b.ref.is_tag
  · have hk := is_tag_int_eq a.ref b.ref hkb
    have hnot : ¬ (a.ref.is_tag = false ∧ b.ref.is_tag = true) := by
      intro h
      rw [h.1, h.2] at hkb
      cases hkb
    rcases lt_trichotomy (authortime a.ci) (authortime b.ci) with ht | ht | ht
    · rw [refs_cmp_time_lt a b hk ht]
      constructor
      · intro h
        exact absurd h (by decide)
      · intro h
        rcases h with h | h | h
        · exact absurd h hnot
        · have h2 := h.2
          omega
        · have h2 := h.2.1
          omega
    · rw [refs_cmp_time_eq a b hk ht, strcmp_neg_iff]
      constructor
      · intro h
        exact Or.inr (Or.inr ⟨hkb, ht, h⟩)
      · intro h
        rcases h with h | h | h
        · exact absurd h hnot
        · have h2 := h.2
          omega
        · exact h.2.2
    · rw [refs_cmp_time_gt a b hk ht]
      constructor
      · intro _
        exact Or.inr (Or.inl ⟨hkb, ht⟩)
      · intro _
        decide
  · rcases bool_ne_cases _ _ hkb with ⟨ha, hb⟩ | ⟨ha, hb⟩
    · rw [refs_cmp_branch_tag a b ha hb]
      constructor
      · intro _
        exact Or.inl ⟨ha, hb⟩
      · intro _
        decide
    · rw [refs_cmp_tag_branch a b ha hb]
      constructor
      · intro h
        exact absurd h (by decide)
      · intro h
        rcases h with h | h | h
        · rw [ha] at h
          cases h.1
        · exact absurd h.1 hkb
        · exact absurd h.1 hkb

theorem refs_cmp_zero_iff (a b : referenceinfo) :
    refs_cmp a b = 0 ↔
      a.ref.is_tag = b.ref.is_tag ∧ authortime a.ci = authortime b.ci ∧
        cstr a.ref.shorthand = cstr b.ref.shorthand := by
  by_cases hkb : a.ref.is_tag = b.ref.is_tag
  · have hk := is_tag_int_eq a.ref b.ref hkb
    rcases lt_trichotomy (authortime a.ci) (authortime b.ci) with ht | ht | ht
    · rw [refs_cmp_time_lt a b hk ht]
      constructor
      · intro h
        exact absurd h (by decide)
      · intro h
        have h2 := h.2.1
        omega
    · rw [refs_cmp_time_eq a b hk ht, strcmp_zero_iff]
      constructor
      · intro h
        exact ⟨hkb, ht, h⟩
      · intro h
        exact h.2.2
    · rw [refs_cmp_time_gt a b hk ht]
      constructor
      · intro h
        exact absurd h (by decide)
      · intro h
        have h2 := h.2.1
        omega
  · rcases bool_ne_cases _ _ hkb with ⟨ha, hb⟩ | ⟨ha, hb⟩
    · rw [refs_cmp_branch_tag a b ha hb]
      constructor
      · intro h
        exact absurd h (by decide)
      · intro h
        exact absurd h.1 hkb
    · rw [refs_cmp_tag_branch a b ha hb]
      constructor
      · intro h
        exact absurd h (by decide)
      · intro h
        exact absurd h.1 hkb

theorem refs_cmp_swap (a b : referenceinfo) : refs_cmp b a = -refs_cmp a b := by
  by_cases hk : is_tag_int a.ref = is_tag_int b.ref
  · rcases lt_trichotomy (authortime a.ci) (authortime b.ci) with ht | ht | ht
    · rw [refs_cmp_time_lt a b hk ht, refs_cmp_time_gt b a hk.symm ht]
    · rw [refs_cmp_time_eq a b hk ht, refs_cmp_time_eq b a hk.symm ht.symm, strcmp_swap]
    · rw [refs_cmp_time_gt a b hk ht, refs_cmp_time_lt b a hk.symm ht]
      rfl
  · rw [refs_cmp_kind_ne a b hk, refs_cmp_kind_ne b a (fun h => hk h.symm)]
    omega

/-- C12.  `refs_cmp` is the documented comparator.  It is negative exactly
when the first entry is not a tag and the second is one, or both are of the
same kind and the first has the strictly newer author time, or kind and time
are equal and the short name of the first is lexicographically smaller; it is
`0` exactly when kind, time and short name are equal.  An entry without an
author has the time `0`. -/
theorem refs_cmp_documented (a b : referenceinfo) :
    (refs_cmp a b < 0 ↔
      (a.ref.is_tag = false ∧ b.ref.is_tag = true) ∨
      (a.ref.is_tag = b.ref.is_tag ∧ authortime a.ci > authortime b.ci) ∨
      (a.ref.is_tag = b.ref.is_tag ∧ authortime a.ci = authortime b.ci ∧
        lexlt (cstr a.ref.shorthand) (cstr b.ref.shorthand))) ∧
    (refs_cmp a b = 0 ↔
      a.ref.is_tag = b.ref.is_tag ∧ authortime a.ci = authortime b.ci ∧
        cstr a.ref.shorthand = cstr b.ref.shorthand) ∧
    (a.ci.author = none → authortime a.ci = 0) ∧
    (∀ s, a.ci.author = some s → authortime a.ci = s.when_.time) := by
  refine ⟨refs_cmp_neg_iff a b, refs_cmp_zero_iff a b, ?_, ?_⟩
  · intro h
    unfold authortime
    rw [h]
  · intro s h
    unfold authortime
    rw [h]

/-! ## The order of references -/

theorem lexlt_trans (a : List Char) : ∀ b c, lexlt a b → lexlt b c → lexlt a c := by
  induction a with
  | nil =>
    intro b c h1 h2
    cases c with
    | nil =>
      cases b with
      | nil => exact h2
      | cons y ys => simp [lexlt] at h2
    | cons z zs => simp [lexlt]
  | cons x xs ih =>
    intro b c h1 h2
    cases b with
    | nil => simp [lexlt] at h1
    | cons y ys =>
      cases c with
      | nil => simp [lexlt] at h2
      | cons z zs =>
        simp only [lexlt] at h1 h2 ⊢
        rcases h1 with h1 | ⟨h1, h1'⟩
        · rcases h2 with h2 | ⟨h2, h2'⟩
          · exact Or.inl (by omega)
          · subst h2
            exact Or.inl h1
        · subst h1
          rcases h2 with h2 | ⟨h2, h2'⟩
          · exact Or.inl h2
          · subst h2
            exact Or.inr ⟨rfl, ih ys zs h1' h2'⟩

theorem refs_cmp_trans (a b c : referenceinfo) (h1 : refs_cmp a b < 0)
    (h2 : refs_cmp b c < 0) : refs_cmp a c < 0 := by
  rw [refs_cmp_neg_iff] at h1 h2 ⊢
  rcases h1 with ⟨a1, a2⟩ | ⟨a1, a2⟩ | ⟨a1, a2, a3⟩
  · rcases h2 with ⟨b1, b2⟩ | ⟨b1, b2⟩ | ⟨b1, b2, b3⟩
    · rw [a2] at b1
      cases b1
    · exact Or.inl ⟨a1, b1 ▸ a2⟩
    · exact Or.inl ⟨a1, b1 ▸ a2⟩
  · rcases h2 with ⟨b1, b2⟩ | ⟨b1, b2⟩ | ⟨b1, b2, b3⟩
    · exact Or.inl ⟨a1.trans b1, b2⟩
    · exact Or.inr (Or.inl ⟨a1.trans b1, by omega⟩)
    · exact Or.inr (Or.inl ⟨a1.trans b1, by omega⟩)
  · rcases h2 with ⟨b1, b2⟩ | ⟨b1, b2⟩ | ⟨b1, b2, b3⟩
    · exact Or.inl ⟨a1.trans b1, b2⟩
    · exact Or.inr (Or.inl ⟨a1.trans b1, by omega⟩)
    · exact Or.inr (Or.inr ⟨a1.trans b1, a2.trans b2, lexlt_trans _ _ _ a3 b3⟩)

theorem refs_cmp_zero_right (a b c : referenceinfo) (h : refs_cmp b c = 0) :
    refs_cmp a c < 0 ↔ refs_cmp a b < 0 := by
  obtain ⟨h1, h2, h3⟩ := (refs_cmp_zero_iff b c).1 h
  rw [refs_cmp_neg_iff, refs_cmp_neg_iff, h1, h2, h3]

theorem refs_cmp_zero_left (a b c : referenceinfo) (h : refs_cmp a b = 0) :
    refs_cmp a c < 0 ↔ refs_cmp b c < 0 := by
  obtain ⟨h1, h2, h3⟩ := (refs_cmp_zero_iff a b).1 h
  rw [refs_cmp_neg_iff, refs_cmp_neg_iff, h1, h2, h3]

theorem refs_cmp_zero_trans (a b c : referenceinfo) (h1 : refs_cmp a b = 0)
    (h2 : refs_cmp b c = 0) : refs_cmp a c = 0 := by
  obtain ⟨a1, a2, a3⟩ := (refs_cmp_zero_iff a b).1 h1
  obtain ⟨b1, b2, b3⟩ := (refs_cmp_zero_iff b c).1 h2
  exact (refs_cmp_zero_iff a c).2 ⟨a1.trans b1, a2.trans b2, a3.trans b3⟩

theorem refs_le_trans (a b c : referenceinfo) (h1 : refs_le a b) (h2 : refs_le b c) :
    refs_le a c := by
  unfold refs_le at h1 h2 ⊢
  rcases lt_or_eq_of_le h1 with h1 | h1
  · rcases lt_or_eq_of_le h2 with h2 | h2
    · exact le_of_lt (refs_cmp_trans a b c h1 h2)
    · exact le_of_lt ((refs_cmp_zero_right a b c h2).2 h1)
  · rcases lt_or_eq_of_le h2 with h2 | h2
    · exact le_of_lt ((refs_cmp_zero_left a b c h1).2 h2)
    · exact le_of_eq (refs_cmp_zero_trans a b c h1 h2)

theorem refs_le_total (a b : referenceinfo) : refs_le a b ∨ refs_le b a := by
  unfold refs_le
  rw [refs_cmp_swap a b]
  omega

theorem refs_le_antisymm (a b : referenceinfo) (h1 : refs_le a b) (h2 : refs_le b a) :
    refs_cmp a b = 0 := by
  unfold refs_le at h1 h2
  rw [refs_cmp_swap a b] at h2
  omega

theorem qsort_refs_perm (ris : List referenceinfo) : (qsort_refs ris).Perm ris :=
  List.perm_insertionSort refs_le ris

theorem qsort_refs_sorted (ris : List referenceinfo) : (qsort_refs ris).Sorted refs_le := by
  haveI : IsTotal referenceinfo refs_le := ⟨refs_le_total⟩
  haveI : IsTrans referenceinfo refs_le := ⟨refs_le_trans⟩
  exact List.sorted_insertionSort refs_le ris

theorem sorted_refs_unique (l1 l2 : List referenceinfo)
    (hnames : (l1.map (fun r => cstr r.ref.shorthand)).Nodup)
    (hp : l1.Perm l2) (h1 : l1.Sorted refs_le) (h2 : l2.Sorted refs_le) : l1 = l2 := by
  refine List.Perm.eq_of_sorted ?_ h1 h2 hp
  intro a b ha hb hab hba
  have hb1 : b ∈ l1 := hp.symm.subset hb
  have h0 := refs_le_antisymm a b hab hba
  exact List.inj_on_of_nodup_map hnames ha hb1 ((refs_cmp_zero_iff a b).1 h0).2.2

/-! ## The loop of `getrefs` -/

theorem getrefs_step_append (repo : git_repository) (st : Refs) (ref : git_reference) :
    getrefs_step repo st ref =
      ({ ris := st.ris ++ (getrefs_step repo { ris := [], freed := false } ref).1.ris,
         freed := st.freed || (getrefs_step repo { ris := [], freed := false } ref).1.freed },
        (getrefs_step repo { ris := [], freed := false } ref).2) := by
  unfold getrefs_step
  by_cases h : (!ref.is_branch && !ref.is_tag) = true
  · rw [if_pos h, if_pos h]
    simp
  · rw [if_neg h, if_neg h]
    cases hd : getrefs_direct repo ref with
    | error j => simp
    | ok r =>
      simp only
      cases ht : r.target with
      | none => simp
      | some t =>
        cases hp : r.peel with
        | none => simp
        | some o =>
          cases o with
          | none => simp
          | some id =>
            simp only
            cases hc : commitinfo_getbyoid repo id with
            | none => simp
            | some ci => simp

theorem commit_lookup_congr (repo1 repo2 : git_repository)
    (h : repo2.odb_commit = repo1.odb_commit) :
    repo2.commit_lookup = repo1.commit_lookup := by
  funext id
  unfold git_repository.commit_lookup
  rw [h]

theorem getrefs_step_congr (repo1 repo2 : git_repository)
    (h1 : repo2.commit_lookup = repo1.commit_lookup)
    (h2 : repo2.reference_resolve = repo1.reference_resolve)
    (st : Refs) (ref : git_reference) :
    getrefs_step repo2 st ref = getrefs_step repo1 st ref := by
  unfold getrefs_step getrefs_direct commitinfo_getbyoid
  rw [h1, h2]

theorem getrefs_entries_congr (repo1 repo2 : git_repository)
    (h1 : repo2.commit_lookup = repo1.commit_lookup)
    (h2 : repo2.reference_resolve = repo1.reference_resolve)
    (refs : List git_reference) :
    getrefs_entries repo2 refs = getrefs_entries repo1 refs := by
  unfold getrefs_entries
  congr 1
  funext ref
  rw [getrefs_step_congr repo1 repo2 h1 h2]

theorem getrefs_step_passes (repo : git_repository) (st : Refs) (ref : git_reference)
    (h : getrefs_passes repo ref) :
    getrefs_step repo st ref =
      ({ ris := st.ris ++ (getrefs_step repo { ris := [], freed := false } ref).1.ris,
         freed := st.freed }, Jump.next) := by
  rw [getrefs_step_append repo st ref, h.1, h.2, Bool.or_false]

theorem getrefs_loop_front (repo : git_repository) (front : List git_reference) :
    ∀ (st : Refs) (rest : List git_reference), (∀ ref ∈ front, getrefs_passes repo ref) →
      getrefs_loop repo st (front ++ rest) =
        getrefs_loop repo
          { ris := st.ris ++ getrefs_entries repo front, freed := st.freed } rest := by
  induction front with
  | nil =>
    intro st rest _
    simp [getrefs_entries]
  | cons ref more ih =>
    intro st rest h
    have hstep := getrefs_step_passes repo st ref (h ref (List.mem_cons_self _ _))
    rw [List.cons_append]
    conv_lhs => unfold getrefs_loop
    rw [hstep]
    simp only
    rw [ih _ rest (fun x hx => h x (List.mem_cons_of_mem _ hx))]
    simp [getrefs_entries, List.append_assoc]

theorem getrefs_loop_next (repo : git_repository) (refs : List git_reference) (st : Refs)
    (h : ∀ ref ∈ refs, getrefs_passes repo ref) :
    getrefs_loop repo st refs =
      Outcome.ok { ris := st.ris ++ getrefs_entries repo refs, freed := st.freed } := by
  have := getrefs_loop_front repo refs st [] h
  rw [List.append_nil] at this
  rw [this]
  rfl

theorem getrefs_of_next (repo : git_repository) (refs : List git_reference)
    (hrefs : repo.references = some refs)
    (hnext : ∀ ref ∈ refs, getrefs_passes repo ref) :
    getrefs repo
      = Outcome.ok { ris := qsort_refs (getrefs_entries repo refs), freed := false } := by
  unfold getrefs
  rw [hrefs]
  simp only
  rw [getrefs_loop_next repo refs _ hnext]
  rfl

theorem getrefs_order_free (repo1 repo2 : git_repository) (refs1 refs2 : List git_reference)
    (h1 : repo1.references = some refs1) (h2 : repo2.references = some refs2)
    (hp : refs1.Perm refs2)
    (hc : repo2.commit_lookup = repo1.commit_lookup)
    (hr : repo2.reference_resolve = repo1.reference_resolve)
    (hnext : ∀ ref ∈ refs1, getrefs_passes repo1 ref)
    (hnames : ((getrefs_entries repo1 refs1).map (fun r => cstr r.ref.shorthand)).Nodup) :
    getrefs repo1 = getrefs repo2 := by
  have hnext2 : ∀ ref ∈ refs2, getrefs_passes repo2 ref := by
    intro ref hm
    unfold getrefs_passes
    rw [getrefs_step_congr repo1 repo2 hc hr]
    exact hnext ref (hp.symm.subset hm)
  rw [getrefs_of_next repo1 refs1 h1 hnext, getrefs_of_next repo2 refs2 h2 hnext2,
    getrefs_entries_congr repo1 repo2 hc hr]
  have hperm : (getrefs_entries repo1 refs1).Perm (getrefs_entries repo1 refs2) :=
    List.Perm.flatMap_right _ hp
  have hq1 := qsort_refs_perm (getrefs_entries repo1 refs1)
  have hq2 := qsort_refs_perm (getrefs_entries repo1 refs2)
  have hn : ((qsort_refs (getrefs_entries repo1 refs1)).map
      (fun r => cstr r.ref.shorthand)).Nodup :=
    ((hq1.map _).nodup_iff).2 hnames
  rw [sorted_refs_unique _ _ hn (hq1.trans (hperm.trans hq2.symm)) (qsort_refs_sorted _)
    (qsort_refs_sorted _)]

/-- C13, counterexample.  The same two references, the branch `b` and the tag
`bad` whose commit cannot be looked up, give the entry of `b` when `b` is
enumerated first and no entry at all when `bad` is enumerated first.  With
the symbolic branch `s` besides `b`, the entry of `s` holds a reference that
was freed and `qsort` reads it. -/
theorem getrefs_depends_on_order :
    getrefs (sample_repo_refs [ref_b, ref_bad])
      = Outcome.ok { ris := [sample_ri ref_b 1 100], freed := false } ∧
    getrefs (sample_repo_refs [ref_bad, ref_b]) = Outcome.ok { ris := [], freed := false } ∧
    getrefs (sample_repo_refs [ref_b, ref_s]) = Outcome.fault ∧
    getrefs (sample_repo_refs [ref_s, ref_b]) = Outcome.fault := by
  refine ⟨?_, ?_, ?_, ?_⟩ <;> decide

/-- C13 (as the code has it).  `refs_cmp` orders the entries totally: swapping
the arguments flips the sign, the strict order is transitive, and two entries
with different short names never compare equal.  So entries with pairwise
different short names have one sorted arrangement only.  When every reference
enumerated goes through the loop of `getrefs` (it is skipped, or it is a
direct reference whose commit can be looked up), `getrefs` returns the same
list for every order in which the same references are enumerated: the sorted
arrangement of their entries.  The branches `b` (time 100) and `c` (time 200)
and the tag `v1` (time 50), enumerated in any order, come out as `c`, `b`,
`v1`. -/
theorem refs_cmp_total_order :
    (∀ a b : referenceinfo, Int.sign (refs_cmp a b) = -Int.sign (refs_cmp b a)) ∧
    (∀ a b c : referenceinfo, refs_cmp a b < 0 → refs_cmp b c < 0 → refs_cmp a c < 0) ∧
    (∀ a b : referenceinfo, cstr a.ref.shorthand ≠ cstr b.ref.shorthand → refs_cmp a b ≠ 0) ∧
    (∀ l s1 s2 : List referenceinfo, (l.map (fun r => cstr r.ref.shorthand)).Nodup →
      s1.Perm l → s1.Sorted refs_le → s2.Perm l → s2.Sorted refs_le → s1 = s2) ∧
    (∀ (repo1 repo2 : git_repository) (refs1 refs2 : List git_reference),
      repo1.references = some refs1 → repo2.references = some refs2 → refs1.Perm refs2 →
      repo2.commit_lookup = repo1.commit_lookup →
      repo2.reference_resolve = repo1.reference_resolve →
      (∀ ref ∈ refs1, getrefs_passes repo1 ref) →
      ((getrefs_entries repo1 refs1).map (fun r => cstr r.ref.shorthand)).Nodup →
      getrefs repo1 = getrefs repo2 ∧
      ∃ ris, getrefs repo1 = Outcome.ok { ris := ris, freed := false } ∧
        ris.Sorted refs_le ∧ ris.Perm (getrefs_entries repo1 refs1)) ∧
    (∀ ref : git_reference, ref.reftype = git_ref_t.GIT_REF_OID →
      ∀ (repo : git_repository) (t id : git_oid), ref.target = some t →
        ref.peel = some (some id) → repo.commit_lookup id ≠ none →
        getrefs_passes repo ref) ∧
    (∀ refs : List git_reference, refs.Perm [ref_b, ref_c, ref_v1] →
      getrefs (sample_repo_refs refs) =
        Outcome.ok
          { ris := [sample_ri ref_c 2 200, sample_ri ref_b 1 100, sample_ri ref_v1 3 50],
            freed := false }) := by
  refine ⟨?_, refs_cmp_trans, ?_, ?_, ?_, ?_, ?_⟩
  · intro a b
    rw [refs_cmp_swap b a, Int.sign_neg]
  · intro a b hne h0
    exact hne ((refs_cmp_zero_iff a b).1 h0).2.2
  · intro l s1 s2 hn hp1 hs1 hp2 hs2
    exact sorted_refs_unique s1 s2 (((hp1.map _).nodup_iff).2 hn) (hp1.trans hp2.symm) hs1 hs2
  · intro repo1 repo2 refs1 refs2 h1 h2 hp hc hr hnext hnames
    refine ⟨getrefs_order_free repo1 repo2 refs1 refs2 h1 h2 hp hc hr hnext hnames,
      _, getrefs_of_next repo1 refs1 h1 hnext, qsort_refs_sorted _, qsort_refs_perm _⟩
  · intro ref hoid repo t id ht hp hc
    unfold getrefs_passes getrefs_step getrefs_direct
    rw [hoid]
    simp only
    rw [ht, hp]
    simp only
    cases hl : commitinfo_getbyoid repo id with
    | none =>
      unfold commitinfo_getbyoid at hl
      cases hq : repo.commit_lookup id with
      | none => exact absurd hq hc
      | some c =>
        rw [hq] at hl
        cases hl
    | some ci =>
      by_cases hk : (!ref.is_branch && !ref.is_tag) = true
      · rw [if_pos hk]
        exact ⟨rfl, rfl⟩
      · rw [if_neg hk]
        exact ⟨rfl, rfl⟩
  · intro refs hp
    have h := getrefs_order_free (sample_repo_refs [ref_b, ref_c, ref_v1]) (sample_repo_refs refs)
      [ref_b, ref_c, ref_v1] refs rfl rfl hp.symm rfl rfl (by decide) (by decide)
    rw [← h]
    decide

/-! ## References that cannot be resolved -/

theorem writelog_count_zero (s : Walk) (hz : s.nlogcommits = 0) :
    writelog_count s = { s with remcommits := s.remcommits + 1 } := by
  unfold writelog_count
  rw [if_pos hz]

theorem writelog_count_nonzero (s : Walk) (hz : s.nlogcommits ≠ 0) : writelog_count s = s := by
  unfold writelog_count
  rw [if_neg hz]

theorem writelog_lines_zero (sys : Sys) (s : Walk) (ci : commitinfo) (hz : s.nlogcommits = 0) :
    writelog_lines sys none s ci = s := by
  unfold writelog_lines
  have h1 : ¬ s.nlogcommits ≠ 0 := fun h => h hz
  simp only [h1, if_false, Option.isSome_none, Bool.false_eq_true]

theorem writelog_lines_positive (sys : Sys) (s : Walk) (ci : commitinfo)
    (hpos : 0 < s.nlogcommits) :
    writelog_lines sys none s ci
      = { s with fp := s.fp ++ writelogline sys s.relpath ci,
                 nlogcommits := s.nlogcommits - 1 } := by
  unfold writelog_lines
  have h1 : s.nlogcommits ≠ 0 := by omega
  have h2 : s.nlogcommits > 0 := hpos
  simp only [h1, ne_eq, not_false_eq_true, if_true, h2, Option.isSome_none, Bool.false_eq_true,
    if_false]

/-- The body of the loop for a commit that is extracted, when no cache file
is configured, the budget of log lines is not negative and no file operation
fails.  The body ends with the next commit, the commit has a page afterwards,
and a log line is written exactly when the budget is positive. -/
theorem writelog_body_budget (repo : git_repository) (sys : Sys) (s : Walk) (id : git_oid)
    (ci : commitinfo) (hrel : sys.reliable) (hk : 0 ≤ s.nlogcommits) (hr : s.relpath = [])
    (hget : commitinfo_getbyoid repo id = some ci)
    (hstat : (commitinfo_getstats repo ci).1 = 0) :
    ∃ s1, writelog_body repo sys none s id = (s1, Ctl.next) ∧
      s1.wcachefp = s.wcachefp ∧
      s1.world.files (commitpath id) ≠ none ∧
      (0 < s.nlogcommits → s1.nlogcommits = s.nlogcommits - 1 ∧
        s1.fp = s.fp ++ logline repo sys id ∧ s1.remcommits = s.remcommits) ∧
      (s.nlogcommits = 0 → s1.nlogcommits = 0 ∧ s1.fp = s.fp ∧
        s1.remcommits = s.remcommits + 1) := by
  have hne : ¬ ((commitinfo_getstats repo ci).1 = -1) := by rw [hstat]; decide
  have hline : logline repo sys id = writelogline sys [] (commitinfo_getstats repo ci).2 := by
    unfold logline; rw [hget]
  by_cases hz : s.nlogcommits = 0
  · by_cases hnone : s.world.files (commitpath id) = none
    · have h0 : ¬ (s.nlogcommits = 0 ∧ access s.world (commitpath id) = 0) :=
        fun h => (access_iff _ _).mpr hnone h.2
      have hbody : writelog_body repo sys none s id
          = ({ s with remcommits := s.remcommits + 1, relpath := "../".toList,
                      world := s.world.write
                        (commitpath id, sys.commitpage (commitinfo_getstats repo ci).2) },
              Ctl.next) := by
        unfold writelog_body
        simp only
        rw [if_neg h0, hget]
        simp only
        rw [if_neg hne, if_pos ((access_iff _ _).mpr hnone), writelog_count_zero s hz,
          writelog_lines_zero sys { s with remcommits := s.remcommits + 1 } _ hz,
          writelog_page_reliable _ _ _ _ hrel]
      refine ⟨_, hbody, rfl, ?_, ?_, ?_⟩
      · show (s.world.write _).files (commitpath id) ≠ none
        rw [write_files_self]
        exact fun h => by cases h
      · intro hpos
        omega
      · intro _
        exact ⟨hz, rfl, rfl⟩
    · have h0 : s.nlogcommits = 0 ∧ access s.world (commitpath id) = 0 := by
        refine ⟨hz, ?_⟩
        by_contra hacc
        exact hnone ((access_iff _ _).mp hacc)
      have hbody : writelog_body repo sys none s id
          = ({ s with remcommits := s.remcommits + 1 }, Ctl.next) := by
        unfold writelog_body
        simp only
        rw [if_pos h0, writelog_count_zero s hz]
      refine ⟨_, hbody, rfl, hnone, ?_, ?_⟩
      · intro hpos
        omega
      · intro _
        exact ⟨hz, rfl, rfl⟩
  · have hpos : 0 < s.nlogcommits := by omega
    have h0 : ¬ (s.nlogcommits = 0 ∧ access s.world (commitpath id) = 0) := fun h => hz h.1
    by_cases hnone : s.world.files (commitpath id) = none
    · have hbody : writelog_body repo sys none s id
          = ({ s with fp := s.fp ++ writelogline sys s.relpath (commitinfo_getstats repo ci).2,
                      nlogcommits := s.nlogcommits - 1, relpath := "../".toList,
                      world := s.world.write
                        (commitpath id, sys.commitpage (commitinfo_getstats repo ci).2) },
              Ctl.next) := by
        unfold writelog_body
        simp only
        rw [if_neg h0, hget]
        simp only
        rw [if_neg hne, if_pos ((access_iff _ _).mpr hnone), writelog_count_nonzero s hz,
          writelog_lines_positive sys _ _ hpos, writelog_page_reliable _ _ _ _ hrel]
      refine ⟨_, hbody, rfl, ?_, ?_, ?_⟩
      · show (s.world.write _).files (commitpath id) ≠ none
        rw [write_files_self]
        exact fun h => by cases h
      · intro _
        refine ⟨rfl, ?_, rfl⟩
        show s.fp ++ writelogline sys s.relpath _ = _
        rw [hr, hline]
      · intro hzz
        exact absurd hzz hz
    · have hbody : writelog_body repo sys none s id
          = ({ s with fp := s.fp ++ writelogline sys s.relpath (commitinfo_getstats repo ci).2,
                      nlogcommits := s.nlogcommits - 1 }, Ctl.next) := by
        unfold writelog_body
        simp only
        rw [if_neg h0, hget]
        simp only
        rw [if_neg hne, if_neg (fun h => hnone ((access_iff _ _).mp h)),
          writelog_count_nonzero s hz, writelog_lines_positive sys _ _ hpos]
      refine ⟨_, hbody, rfl, hnone, ?_, ?_⟩
      · intro _
        refine ⟨rfl, ?_, rfl⟩
        show s.fp ++ writelogline sys s.relpath _ = _
        rw [hr, hline]
      · intro hzz
        exact absurd hzz hz

theorem writelog_step_nocache (repo : git_repository) (sys : Sys) (lastoid : git_oid)
    (s : Walk) (id : git_oid) :
    writelog_step repo sys none lastoid s id
      = writelog_body repo sys none { s with relpath := [] } id := by
  unfold writelog_step
  simp

/-- The loop of `writelog` without a cache file, with a budget of `k` log
lines, over commits that are all extracted, when no file operation fails: the
first `k` commits of the walk get their log line, the others are counted in
`remcommits`, and every commit of the walk has a page afterwards. -/
theorem writelog_loop_budget (repo : git_repository) (sys : Sys) (lastoid : git_oid)
    (hrel : sys.reliable) (walk : List git_oid) :
    ∀ (k : Nat) (s : Walk), s.nlogcommits = (k : Int) →
      (∀ id ∈ walk, ∃ ci, commitinfo_getbyoid repo id = some ci ∧
        (commitinfo_getstats repo ci).1 = 0) →
      (writelog_loop repo sys none lastoid s walk).2 = false ∧
      (writelog_loop repo sys none lastoid s walk).1.nlogcommits
        = ((k - walk.length : Nat) : Int) ∧
      (writelog_loop repo sys none lastoid s walk).1.remcommits
        = s.remcommits + (walk.length - k) ∧
      (writelog_loop repo sys none lastoid s walk).1.fp
        = s.fp ++ loglines repo sys (walk.take k) ∧
      (writelog_loop repo sys none lastoid s walk).1.wcachefp = s.wcachefp ∧
      (∀ id ∈ walk,
        (writelog_loop repo sys none lastoid s walk).1.world.files (commitpath id) ≠ none) := by
  induction walk with
  | nil =>
    intro k s hn _
    refine ⟨rfl, ?_, ?_, ?_, rfl, ?_⟩
    · show s.nlogcommits = _
      rw [hn]
      simp
    · show s.remcommits = _
      simp
    · show s.fp = _
      simp [loglines]
    · intro id hid
      cases hid
  | cons id rest ih =>
    intro k s hn hgood
    obtain ⟨ci, hget, hstat⟩ := hgood id (List.mem_cons_self _ _)
    have hk0 : 0 ≤ ({ s with relpath := [] } : Walk).nlogcommits := by
      show 0 ≤ s.nlogcommits
      rw [hn]
      exact Int.natCast_nonneg k
    obtain ⟨s1, hbody, hwc, hpage, hpos, hzero⟩ :=
      writelog_body_budget repo sys { s with relpath := [] } id ci hrel hk0 rfl hget hstat
    have hloop : writelog_loop repo sys none lastoid s (id :: rest)
        = writelog_loop repo sys none lastoid s1 rest := by
      conv_lhs => unfold writelog_loop
      rw [writelog_step_nocache, hbody]
    have hrest : ∀ x ∈ rest, ∃ ci, commitinfo_getbyoid repo x = some ci ∧
        (commitinfo_getstats repo ci).1 = 0 :=
      fun x hx => hgood x (List.mem_cons_of_mem _ hx)
    have hkeep : (writelog_loop repo sys none lastoid s1 rest).1.world.files (commitpath id)
        ≠ none := by
      rcases grows_keeps (writelog_loop_grows repo sys none lastoid rest s1) (commitpath id)
        with h | h
      · rw [h]
        exact hpage
      · exact absurd h hpage
    rw [hloop]
    cases k with
    | zero =>
      have hz : ({ s with relpath := [] } : Walk).nlogcommits = 0 := by
        show s.nlogcommits = 0
        rw [hn]
        rfl
      obtain ⟨h1, h2, h3⟩ := hzero hz
      obtain ⟨i1, i2, i3, i4, i5, i6⟩ := ih 0 s1 (by rw [h1]; rfl) hrest
      refine ⟨i1, ?_, ?_, ?_, ?_, ?_⟩
      · rw [i2]
        simp
      · rw [i3, h3]
        show s.remcommits + 1 + (rest.length - 0) = s.remcommits + (rest.length + 1 - 0)
        omega
      · rw [i4, h2]
        simp [loglines]
      · rw [i5, hwc]
      · intro x hx
        rcases List.mem_cons.mp hx with hx | hx
        · rw [hx]
          exact hkeep
        · exact i6 x hx
    | succ j =>
      have hp : 0 < ({ s with relpath := [] } : Walk).nlogcommits := by
        show 0 < s.nlogcommits
        rw [hn]
        omega
      obtain ⟨h1, h2, h3⟩ := hpos hp
      have hj : s1.nlogcommits = (j : Int) := by
        rw [h1]
        show s.nlogcommits - 1 = _
        rw [hn]
        omega
      obtain ⟨i1, i2, i3, i4, i5, i6⟩ := ih j s1 hj hrest
      refine ⟨i1, ?_, ?_, ?_, ?_, ?_⟩
      · rw [i2, List.length_cons, Nat.succ_sub_succ]
      · rw [i3, h3, List.length_cons, Nat.succ_sub_succ]
      · rw [i4, h2, List.take_succ_cons]
        show s.fp ++ logline repo sys id ++ _ = s.fp ++ (logline repo sys id ++ _)
        rw [List.append_assoc]
      · rw [i5, hwc]
      · intro x hx
        rcases List.mem_cons.mp hx with hx | hx
        · rw [hx]
          exact hkeep
        · exact i6 x hx

/-- The function `writelog` without a cache file, with a budget of `k` log
lines, over commits that are all extracted, when no file operation fails. -/
theorem writelog_budget (repo : git_repository) (sys : Sys) (lastoid : git_oid) (s : Walk)
    (oid : git_oid) (k : Nat) (hrel : sys.reliable) (hn : s.nlogcommits = (k : Int))
    (hgood : ∀ id ∈ repo.revwalk oid, ∃ ci, commitinfo_getbyoid repo id = some ci ∧
      (commitinfo_getstats repo ci).1 = 0) :
    (writelog repo sys none lastoid s oid).1.fp
      = (writelog_loop repo sys none lastoid { s with remcommits := 0 } (repo.revwalk oid)).1.fp
        ++ (if k < (repo.revwalk oid).length
            then remaining_notice ((repo.revwalk oid).length - k) else []) := by
  obtain ⟨i1, i2, i3, -, -, -⟩ := writelog_loop_budget repo sys lastoid hrel (repo.revwalk oid) k
    { s with remcommits := 0 } hn hgood
  unfold writelog writelog_end
  rw [i1]
  simp only [Bool.false_eq_true, if_false]
  rw [i2, i3]
  by_cases hlt : k < (repo.revwalk oid).length
  · have hc : ((k - (repo.revwalk oid).length : Nat) : Int) = 0 ∧
        0 + ((repo.revwalk oid).length - k) ≠ 0 := by
      constructor
      · have : k - (repo.revwalk oid).length = 0 := by omega
        rw [this]
        rfl
      · omega
    rw [if_pos hc, if_pos hlt]
    simp
  · have hc : ¬ (((k - (repo.revwalk oid).length : Nat) : Int) = 0 ∧
        0 + ((repo.revwalk oid).length - k) ≠ 0) := by
      intro h
      have := h.2
      omega
    rw [if_neg hc, if_neg hlt]
    simp

/-- C16.  Without a cache file, with a log limit `k`, over a walk whose
commits are all extracted, and when no file operation fails: `writelog`
returns, the loop writes to `log.html` the log lines of the first `min k n`
commits of the walk, in the order of the walk, and after them `writelog` adds
at most the notice of the remaining commits.  Every commit of the walk, those
past the first `k` included, has a page afterwards: the page written for it
when it had none, its previous page otherwise.  The log line of a commit is
its row of the table: the date of the author, the summary as a link to the
page of the commit, and the numbers of files, of added and of deleted
lines. -/
theorem writelog_limit_log_lines (repo : git_repository) (sys : Sys) (lastoid : git_oid)
    (s : Walk) (oid : git_oid) (k : Nat) (hrel : sys.reliable)
    (hn : s.nlogcommits = (k : Int))
    (hgood : ∀ id ∈ repo.revwalk oid, ∃ ci, commitinfo_getbyoid repo id = some ci ∧
      (commitinfo_getstats repo ci).1 = 0) :
    (writelog repo sys none lastoid s oid).2 = false ∧
    (writelog_loop repo sys none lastoid { s with remcommits := 0 } (repo.revwalk oid)).1.fp
      = s.fp ++ loglines repo sys ((repo.revwalk oid).take k) ∧
    ((repo.revwalk oid).take k).length = min k (repo.revwalk oid).length ∧
    (∃ tail, (writelog repo sys none lastoid s oid).1.fp
        = s.fp ++ loglines repo sys ((repo.revwalk oid).take k) ++ tail ∧
      (tail = [] ∨ tail = remaining_notice ((repo.revwalk oid).length - k))) ∧
    (∀ id ∈ repo.revwalk oid,
      (s.world.files (commitpath id) = none →
        (writelog repo sys none lastoid s oid).1.world.files (commitpath id)
          = some (pagetext repo sys id)) ∧
      (∀ t, s.world.files (commitpath id) = some t →
        (writelog repo sys none lastoid s oid).1.world.files (commitpath id) = some t)) ∧
    loglines repo sys ((repo.revwalk oid).take k)
      = cat (((repo.revwalk oid).take k).map (logline repo sys)) ∧
    (∀ (l : List (List Char)) (t : List Char), cat (t :: l) = t ++ cat l) ∧
    (∀ id ∈ repo.revwalk oid, ∃ ci a, commitinfo_getbyoid repo id = some ci ∧ ci.author = some a ∧
      logline repo sys id
        = "<tr><td>".toList ++ sys.printtimeshort a.when_ ++ "</td><td>".toList
          ++ (match ci.summary with
              | some summary =>
                "<a href=\"".toList ++ "commit/".toList ++ ci.oid ++ ".html\">".toList
                ++ xmlencode summary (strlen summary) ++ "</a>".toList
              | none => [])
          ++ "</td>".toList ++ "<td class=\"num\">".toList
          ++ (Nat.repr (commitinfo_getstats repo ci).2.filecount).toList
          ++ "</td><td class=\"num\">".toList
          ++ "+".toList ++ (Nat.repr (commitinfo_getstats repo ci).2.addcount).toList
          ++ "</td><td class=\"num\">".toList
          ++ "-".toList ++ (Nat.repr (commitinfo_getstats repo ci).2.delcount).toList
          ++ "</td></tr>\n".toList) := by
  obtain ⟨-, -, -, i4, -, i6⟩ := writelog_loop_budget repo sys lastoid hrel (repo.revwalk oid) k
    { s with remcommits := 0 } hn hgood
  have hfp := writelog_budget repo sys lastoid s oid k hrel hn hgood
  have hworld : (writelog repo sys none lastoid s oid).1.world
      = (writelog_loop repo sys none lastoid { s with remcommits := 0 }
          (repo.revwalk oid)).1.world := by
    unfold writelog
    rw [writelog_end_world]
  refine ⟨writelog_noabort repo sys none lastoid hrel s oid, i4, List.length_take _ _, ?_, ?_,
    loglines_cat repo sys _, fun _ _ => rfl,
    (fun id hid => by
      obtain ⟨ci, hci, -⟩ := hgood id hid
      have ha := getbyoid_author repo id ci hci
      obtain ⟨h1, h2, h3⟩ := getstats_heading repo ci
      refine ⟨ci, ci.commit.author, hci, ha, ?_⟩
      unfold logline
      rw [hci]
      simp only
      unfold writelogline
      rw [h1, h2, h3, ha]
      rfl)⟩
  · refine ⟨if k < (repo.revwalk oid).length
        then remaining_notice ((repo.revwalk oid).length - k) else [], ?_, ?_⟩
    · rw [hfp, i4]
    · by_cases hlt : k < (repo.revwalk oid).length
      · rw [if_pos hlt]
        exact Or.inr rfl
      · rw [if_neg hlt]
        exact Or.inl rfl
  · intro id hid
    have hg := writelog_grows repo sys none lastoid s oid
    constructor
    · intro hnone
      obtain ⟨opened, -, -, h3, h4⟩ := hg
      have hne : (writelog repo sys none lastoid s oid).1.world.files (commitpath id) ≠ none := by
        rw [hworld]
        exact i6 id hid
      by_cases hmem : commitpath id ∈ opened
      · obtain ⟨-, id1, -, hp, hsome⟩ := h3 _ hmem
        rw [hsome, ← commitpath_injective hp]
      · exact absurd ((h4 _ hmem).trans hnone) hne
    · intro t ht
      rcases grows_keeps hg (commitpath id) with h | h
      · rw [h, ht]
      · rw [ht] at h
        cases h

theorem writelog_limit_log_lines_witness :
    (writelog_loop sample_repo sample_sys none git_oid.zero
        { { sample_walk with nlogcommits := 2 } with remcommits := 0 }
        (sample_repo.revwalk (oid_of 12))).1.fp
      = ({ sample_walk with nlogcommits := 2 } : Walk).fp
        ++ loglines sample_repo sample_sys ((sample_repo.revwalk (oid_of 12)).take 2) :=
  (writelog_limit_log_lines sample_repo sample_sys git_oid.zero
    { sample_walk with nlogcommits := 2 } (oid_of 12) 2 sample_sys_reliable rfl
    (fun id _ => sample_repo_extracted id)).2.1

theorem writelog_frame (repo : git_repository) (sys : Sys) (cachefile : Option (List Char))
    (lastoid : git_oid) (s : Walk) (oid : git_oid) (p : List Char)
    (hc : s.world.files p ≠ none ∨ ∀ id, p ≠ commitpath id) :
    (writelog repo sys cachefile lastoid s oid).1.world.files p = s.world.files p := by
  obtain ⟨opened, -, -, h3, h4⟩ := writelog_grows repo sys cachefile lastoid s oid
  by_cases hmem : p ∈ opened
  · obtain ⟨hnone, id, -, hp, -⟩ := h3 p hmem
    rcases hc with hc | hc
    · exact absurd hnone hc
    · exact absurd hp (hc id)
  · exact h4 p hmem

theorem efopen_files (sys : Sys) (w w1 : World) (path p : List Char)
    (h : efopen sys w path = some w1) (hp : p ≠ path) : w1.files p = w.files p := by
  unfold efopen at h
  by_cases hf : sys.fopen_w_fails path = true
  · rw [if_pos hf] at h
    cases h
  · rw [if_neg hf] at h
    cases h
    exact create_files_ne _ _ _ hp

theorem log_tail_frame (sys : Sys) (l : Walk × Bool) (p : List Char) (x : Option (List Char))
    (hlog : p ≠ logpath) (h : l.1.world.files p = x) :
    (log_final
      (if l.2 then Except.error (l.1.world.store logpath l.1.fp)
       else if sys.write_error logpath then
         Except.error (l.1.world.store logpath (l.1.fp ++ sys.logfooter))
       else Except.ok { world := l.1.world.store logpath (l.1.fp ++ sys.logfooter),
                        tmp := none })).files p = x := by
  by_cases h1 : l.2 = true
  · rw [if_pos h1]
    exact (store_files_ne _ _ _ _ hlog).trans h
  · rw [if_neg h1]
    by_cases h2 : sys.write_error logpath = true
    · rw [if_pos h2]
      exact (store_files_ne _ _ _ _ hlog).trans h
    · rw [if_neg h2]
      exact (store_files_ne _ _ _ _ hlog).trans h

theorem main_log_frame (repo : git_repository) (sys : Sys) (cfg : Config) (w : World)
    (p : List Char) (hside : ¬ sidepath sys p)
    (hc : w.files p ≠ none ∨ ∀ id, p ≠ commitpath id) :
    (log_final (main_log repo sys cfg w)).files p = w.files p := by
  have hlog : p ≠ logpath := fun h => hside (Or.inl (by rw [h]; simp))
  have htmp : ∀ chosen, sys.mkstemp = some chosen → p ≠ tmppath chosen := by
    intro chosen hmk h
    exact hside (Or.inr (Or.inr (by rw [hmk, h]; rfl)))
  unfold main_log
  cases hopen : efopen sys w logpath with
  | none => rfl
  | some w1 =>
    have h1 : w1.files p = w.files p := efopen_files sys w w1 logpath p hopen hlog
    have hc1 : w1.files p ≠ none ∨ ∀ id, p ≠ commitpath id := by rw [h1]; exact hc
    simp only
    cases hh : repo.head with
    | none =>
      cases hcf : cfg.cachefile with
      | none => exact log_tail_frame sys _ p _ hlog h1
      | some cachefile => exact log_tail_frame sys _ p _ hlog h1
    | some head =>
      cases hcf : cfg.cachefile with
      | none =>
        exact log_tail_frame sys _ p _ hlog
          ((writelog_frame repo sys none git_oid.zero _ head p hc1).trans h1)
      | some cachefile =>
        simp only
        split
        · exact (store_files_ne _ _ _ _ hlog).trans h1
        · rename_i lastoid rcachefp hcur
          split
          · exact (store_files_ne _ _ _ _ hlog).trans h1
          · rename_i chosen hmk
            have ht := htmp chosen hmk
            have h2 : (w1.create (tmppath chosen)).files p = w.files p :=
              (create_files_ne _ _ _ ht).trans h1
            have hw := writelog_frame repo sys (some cachefile) lastoid
              { relpath := [], nlogcommits := cfg.nlogcommits, fp := sys.logheader,
                wcachefp := git_oid_tostr head ++ ['\n'], remcommits := 0,
                world := w1.create (tmppath chosen) } head p (by
                  show (w1.create (tmppath chosen)).files p ≠ none ∨ _
                  rw [h2]; exact hc)
            split
            · exact (store_files_ne _ _ _ _ hlog).trans h1
            · split
              · show ((World.store _ logpath _).store (tmppath chosen) _).files p = _
                rw [store_files_ne _ _ _ _ ht, store_files_ne _ _ _ _ hlog]
                exact hw.trans h2
              · split
                · show ((World.store _ logpath _).store (tmppath chosen) _).files p = _
                  rw [store_files_ne _ _ _ _ ht, store_files_ne _ _ _ _ hlog]
                  exact hw.trans h2
                · split
                  · show ((World.store _ (tmppath chosen) _).store logpath _).files p = _
                    rw [store_files_ne _ _ _ _ hlog, store_files_ne _ _ _ _ ht]
                    exact hw.trans h2
                  · split
                    · show ((World.store _ (tmppath chosen) _).store logpath _).files p = _
                      rw [store_files_ne _ _ _ _ hlog, store_files_ne _ _ _ _ ht]
                      exact hw.trans h2
                    · show ((World.store _ (tmppath chosen) _).store logpath _).files p = _
                      rw [store_files_ne _ _ _ _ hlog, store_files_ne _ _ _ _ ht]
                      exact hw.trans h2

theorem writepage_frame (sys : Sys) (w : World) (page : List Char × List Char) (p : List Char)
    (hp : p ≠ page.1) : (pages_final (writepage sys w page)).files p = w.files p := by
  unfold writepage
  cases hopen : efopen sys w page.1 with
  | none => rfl
  | some w1 =>
    have h1 := efopen_files sys w w1 page.1 p hopen hp
    simp only
    by_cases he : sys.write_error page.1 = true
    · rw [if_pos he]
      exact (store_files_ne _ _ _ _ hp).trans h1
    · rw [if_neg he]
      exact (store_files_ne _ _ _ _ hp).trans h1

theorem writepages_frame (sys : Sys) (p : List Char) (pages : List (List Char × List Char)) :
    ∀ w : World, (∀ pg ∈ pages, p ≠ pg.1) →
      (pages_final (writepages sys w pages)).files p = w.files p := by
  induction pages with
  | nil =>
    intro w _
    rfl
  | cons page rest ih =>
    intro w h
    have h1 := writepage_frame sys w page p (h page (List.mem_cons_self _ _))
    unfold writepages
    cases hw : writepage sys w page with
    | error w1 =>
      rw [hw] at h1
      exact h1
    | ok w1 =>
      rw [hw] at h1
      simp only
      exact (ih w1 (fun pg hpg => h pg (List.mem_cons_of_mem _ hpg))).trans h1

theorem main_pages_frame (sys : Sys) (w : World) (p : List Char) (hside : ¬ sidepath sys p) :
    (pages_final (main_pages sys w)).files p = w.files p := by
  have hfiles : p ≠ "files.html".toList := fun h => hside (Or.inl (by rw [h]; simp))
  have hblobs : ∀ pg ∈ sys.blobs.map (fun b => ("file/".toList ++ b.1 ++ ".html".toList, b.2)),
      p ≠ pg.1 := by
    intro pg hpg h
    exact hside (Or.inr (Or.inl (by
      rw [h]
      exact List.mem_map_of_mem Prod.fst hpg)))
  have hlast : ∀ pg ∈ [("refs.html".toList, sys.refs_html), ("atom.xml".toList, sys.atom_xml),
      ("tags.xml".toList, sys.tags_xml)], p ≠ pg.1 := by
    intro pg hpg h
    simp only [List.mem_cons, List.mem_singleton, List.not_mem_nil, or_false] at hpg
    rcases hpg with rfl | rfl | rfl
    · exact hside (Or.inl (by rw [h]; simp))
    · exact hside (Or.inl (by rw [h]; simp))
    · exact hside (Or.inl (by rw [h]; simp))
  unfold main_pages
  cases hopen : efopen sys w "files.html".toList with
  | none => rfl
  | some w1 =>
    have h1 := efopen_files sys w w1 _ p hopen hfiles
    have h2 := writepages_frame sys p _ w1 hblobs
    simp only
    cases hw : writepages sys w1
        (sys.blobs.map (fun b => ("file/".toList ++ b.1 ++ ".html".toList, b.2))) with
    | error w2 =>
      rw [hw] at h2
      exact (store_files_ne _ _ _ _ hfiles).trans (h2.trans h1)
    | ok w2 =>
      rw [hw] at h2
      simp only
      by_cases he : sys.write_error "files.html".toList = true
      · rw [if_pos he]
        exact (store_files_ne _ _ _ _ hfiles).trans (h2.trans h1)
      · rw [if_neg he]
        exact (writepages_frame sys p _ _ hlast).trans
          ((store_files_ne _ _ _ _ hfiles).trans (h2.trans h1))

theorem main_tail_frame (repo : git_repository) (sys : Sys) (cfg : Config) (w1 : World)
    (p : List Char) (x : Option (List Char)) (hchmod : sys.chmod_fails = false)
    (hside : ¬ sidepath sys p) (h1 : w1.files p = x)
    (hc1 : w1.files p ≠ none ∨ ∀ id, p ≠ commitpath id)
    (habort : (match main_log repo sys cfg w1 with
          | Except.error w2 => ((1 : Nat), w2)
          | Except.ok l =>
            match main_pages sys l.world with
            | Except.error w3 => (1, w3)
            | Except.ok w3 =>
              match cfg.cachefile, l.tmp with
              | some cachefile, some tmp =>
                if sys.rename_fails then (1, w3)
                else if sys.chmod_fails then (1, w3.rename tmp cachefile)
                else (0, w3.rename tmp cachefile)
              | _, _ => (0, w3)).1 ≠ 0) :
    (match main_log repo sys cfg w1 with
          | Except.error w2 => ((1 : Nat), w2)
          | Except.ok l =>
            match main_pages sys l.world with
            | Except.error w3 => (1, w3)
            | Except.ok w3 =>
              match cfg.cachefile, l.tmp with
              | some cachefile, some tmp =>
                if sys.rename_fails then (1, w3)
                else if sys.chmod_fails then (1, w3.rename tmp cachefile)
                else (0, w3.rename tmp cachefile)
              | _, _ => (0, w3)).2.files p = x := by
  have h2 := main_log_frame repo sys cfg w1 p hside hc1
  cases hl : main_log repo sys cfg w1 with
  | error w2 =>
    rw [hl] at h2
    exact h2.trans h1
  | ok l =>
    rw [hl] at h2 habort
    have h3 := main_pages_frame sys l.world p hside
    simp only at habort ⊢
    cases hp : main_pages sys l.world with
    | error w3 =>
      rw [hp] at h3
      exact h3.trans (h2.trans h1)
    | ok w3 =>
      rw [hp] at h3 habort
      have h4 : w3.files p = x := h3.trans (h2.trans h1)
      simp only at habort ⊢
      cases hcf : cfg.cachefile with
      | none =>
        rw [hcf] at habort
        exact absurd rfl habort
      | some cachefile =>
        cases ht : l.tmp with
        | none =>
          rw [hcf, ht] at habort
          exact absurd rfl habort
        | some tmp =>
          rw [hcf, ht] at habort
          simp only at habort ⊢
          by_cases hren : sys.rename_fails = true
          · rw [if_pos hren]
            exact h4
          · rw [if_neg hren, hchmod] at habort
            exact absurd rfl habort

/-- A run of `main` that ends with a status other than 0 while `chmod` does
not fail (the only failure after the `rename`) leaves alone every path that
is not one of its own pages and is either an existing file or not the path of
a commit page. -/
theorem main_abort_frame (repo : Option git_repository) (sys : Sys) (argv : List (List Char))
    (w : World) (p : List Char) (hchmod : sys.chmod_fails = false)
    (habort : (main repo sys argv w).1 ≠ 0) (hside : ¬ sidepath sys p)
    (hc : w.files p ≠ none ∨ ∀ id, p ≠ commitpath id) :
    (main repo sys argv w).2.files p = w.files p := by
  have hreadme : p ≠ "README.html".toList := fun h => hside (Or.inl (by rw [h]; simp))
  unfold main at habort ⊢
  cases hargs : parse_args argv with
  | none => rfl
  | some cfg =>
    rw [hargs] at habort
    simp only at habort ⊢
    by_cases hreal : sys.realpath_fails = true
    · rw [if_pos hreal]
    · rw [if_neg hreal] at habort ⊢
      cases repo with
      | none => rfl
      | some repo =>
        simp only at habort ⊢
        cases hrd : sys.readme with
        | none =>
          rw [hrd] at habort
          exact main_tail_frame repo sys cfg w p _ hchmod hside rfl hc habort
        | some text =>
          rw [hrd] at habort
          simp only at habort ⊢
          cases hopen : efopen sys w "README.html".toList with
          | none => rfl
          | some w0 =>
            rw [hopen] at habort
            have h1 : (w0.store "README.html".toList text).files p = w.files p :=
              (store_files_ne _ _ _ _ hreadme).trans (efopen_files sys w w0 _ p hopen hreadme)
            exact main_tail_frame repo sys cfg _ p _ hchmod hside h1
              (by rw [h1]; exact hc) habort

theorem commitpath_not_sidepath (sys : Sys) (id : git_oid) : ¬ sidepath sys (commitpath id) := by
  have hhead := commitpath_head id
  have hne : ∀ (q : List Char) (d : Char), q.head? = some d → 'c' ≠ d → commitpath id ≠ q := by
    intro q d hq hd h
    rw [h, hq] at hhead
    exact hd (Option.some.inj hhead).symm
  intro h
  rcases h with h | h | h
  · simp only [List.mem_cons, List.mem_singleton, List.not_mem_nil, or_false] at h
    rcases h with h | h | h | h | h | h
    · exact hne "README.html".toList 'R' rfl (by decide) h
    · exact hne logpath 'l' rfl (by decide) h
    · exact hne "files.html".toList 'f' rfl (by decide) h
    · exact hne "refs.html".toList 'r' rfl (by decide) h
    · exact hne "atom.xml".toList 'a' rfl (by decide) h
    · exact hne "tags.xml".toList 't' rfl (by decide) h
  · obtain ⟨pg, hpg, hfst⟩ := List.mem_map.mp h
    unfold blobpages at hpg
    obtain ⟨b, -, rfl⟩ := List.mem_map.mp hpg
    exact hne ("file/".toList ++ b.1 ++ ".html".toList) 'f' rfl (by decide) hfst.symm
  · cases hmk : sys.mkstemp with
    | none =>
      rw [hmk] at h
      cases h
    | some chosen =>
      rw [hmk] at h
      exact tmppath_ne_commitpath chosen id (Option.some.inj h).symm

/-- C18.  A run that ends with a status other than 0 before the `rename`
(that is, while `chmod`, the only call after it, does not fail) leaves the
file at the cache path `cachefile` with exactly the content it had at the
start, provided the cache path is not one of the pages the run writes; and it
leaves every commit page that existed at the start as it was.  The new cache
content is in the temporary file only.  (Nothing is asked of the command
line: this holds for every path, the one given with `-c` included.) -/
theorem main_abort_keeps_cache (repo : Option git_repository) (sys : Sys)
    (argv : List (List Char)) (w : World) (cachefile : List Char)
    (hside : ¬ sidepath sys cachefile)
    (hcp : w.files cachefile ≠ none ∨ ∀ id, cachefile ≠ commitpath id)
    (hchmod : sys.chmod_fails = false)
    (habort : (main repo sys argv w).1 ≠ 0) :
    (main repo sys argv w).2.files cachefile = w.files cachefile ∧
    (∀ id, w.files (commitpath id) ≠ none →
      (main repo sys argv w).2.files (commitpath id) = w.files (commitpath id)) :=
  ⟨main_abort_frame repo sys argv w cachefile hchmod habort hside hcp,
    fun id hex => main_abort_frame repo sys argv w (commitpath id) hchmod habort
      (commitpath_not_sidepath sys id) (Or.inl hex)⟩

theorem main_abort_keeps_cache_witness :
    (main (some sample_repo) { sample_sys with rename_fails := true } sample_argv
        sample_world_cached).2.files "cache".toList
      = sample_world_cached.files "cache".toList :=
  (main_abort_keeps_cache (some sample_repo) { sample_sys with rename_fails := true }
    sample_argv sample_world_cached "cache".toList (by decide) (Or.inl (by decide)) rfl
    (by decide)).1

/-! ## The sections of the references page -/

theorem sorted_refs_split (ris : List referenceinfo) (h : ris.Sorted refs_le) :
    ris = ris.filter (fun r => !r.ref.is_tag) ++ ris.filter (fun r => r.ref.is_tag) := by
  induction ris with
  | nil => rfl
  | cons r rest ih =>
    have hs := List.sorted_cons.mp h
    by_cases ht : r.ref.is_tag = true
    · have hall : ∀ x ∈ rest, x.ref.is_tag = true := by
        intro x hx
        by_contra hxt
        have hxf : x.ref.is_tag = false := by
          cases hb : x.ref.is_tag with
          | false => rfl
          | true => exact absurd hb hxt
        have hle := hs.1 x hx
        unfold refs_le at hle
        rw [refs_cmp_tag_branch r x ht hxf] at hle
        exact absurd hle (by decide)
      have h1 : rest.filter (fun r => !r.ref.is_tag) = [] := by
        rw [List.filter_eq_nil_iff]
        intro x hx
        simp [hall x hx]
      have h2 : rest.filter (fun r => r.ref.is_tag) = rest := by
        rw [List.filter_eq_self]
        intro x hx
        exact hall x hx
      simp [List.filter_cons, ht, h1, h2]
    · have hf : r.ref.is_tag = false := by
        cases hb : r.ref.is_tag with
        | false => rfl
        | true => exact absurd hb ht
      have ih1 := ih hs.2
      simp only [List.filter_cons, hf, Bool.not_false, if_true, Bool.false_eq_true, if_false,
        List.cons_append]
      rw [← ih1]

theorem writerefs_loop_branches (sys : Sys) (bs : List referenceinfo) :
    ∀ (c : Nat) (fp : List Char), (∀ r ∈ bs, r.ref.is_tag = false) →
      writerefs_loop sys { j := 0, count := c, fp := fp } bs
        = { j := 0, count := c + bs.length,
            fp := fp ++ (if c = 0 ∧ bs ≠ [] then refs_header 0 else []) ++ refs_rows sys bs } := by
  induction bs with
  | nil =>
    intro c fp _
    simp [writerefs_loop, refs_rows]
  | cons r rest ih =>
    intro c fp h
    have hr : r.ref.is_tag = false := h r (List.mem_cons_self _ _)
    have hstep : writerefs_step sys { j := 0, count := c, fp := fp } r
        = { j := 0, count := c + 1,
            fp := fp ++ (if c + 1 = 1 then refs_header 0 else []) ++ writerefs_row sys r } := by
      unfold writerefs_step
      simp [hr]
    unfold writerefs_loop
    rw [hstep, ih (c + 1) _ (fun x hx => h x (List.mem_cons_of_mem _ hx))]
    by_cases hc : c = 0
    · subst hc
      simp [refs_rows, List.append_assoc, Nat.add_comm]
    · simp [refs_rows, List.append_assoc, hc, Nat.add_comm, Nat.add_left_comm]

theorem writerefs_loop_tags (sys : Sys) (ts : List referenceinfo) :
    ∀ (c : Nat) (fp : List Char),
      writerefs_loop sys { j := 1, count := c, fp := fp } ts
        = { j := 1, count := c + ts.length,
            fp := fp ++ (if c = 0 ∧ ts ≠ [] then refs_header 1 else []) ++ refs_rows sys ts } := by
  induction ts with
  | nil =>
    intro c fp
    simp [writerefs_loop, refs_rows]
  | cons r rest ih =>
    intro c fp
    have hstep : writerefs_step sys { j := 1, count := c, fp := fp } r
        = { j := 1, count := c + 1,
            fp := fp ++ (if c + 1 = 1 then refs_header 1 else []) ++ writerefs_row sys r } := by
      unfold writerefs_step
      simp
    unfold writerefs_loop
    rw [hstep, ih (c + 1) _]
    by_cases hc : c = 0
    · subst hc
      simp [refs_rows, List.append_assoc, Nat.add_comm]
    · simp [refs_rows, List.append_assoc, hc, Nat.add_comm, Nat.add_left_comm]

theorem writerefs_loop_first_tag (sys : Sys) (c : Nat) (fp : List Char) (r : referenceinfo)
    (rest : List referenceinfo) (hr : r.ref.is_tag = true) :
    writerefs_loop sys { j := 0, count := c, fp := fp } (r :: rest)
      = writerefs_loop sys
          { j := 1, count := 0, fp := fp ++ (if c ≠ 0 then refs_footer else []) } (r :: rest) := by
  have hstep : writerefs_step sys { j := 0, count := c, fp := fp } r
      = writerefs_step sys
          { j := 1, count := 0, fp := fp ++ (if c ≠ 0 then refs_footer else []) } r := by
    unfold writerefs_step
    simp [hr]
  unfold writerefs_loop
  rw [hstep]

theorem writerefs_loop_append (sys : Sys) (a b : List referenceinfo) :
    ∀ s, writerefs_loop sys s (a ++ b) = writerefs_loop sys (writerefs_loop sys s a) b := by
  induction a with
  | nil =>
    intro s
    rfl
  | cons r rest ih =>
    intro s
    show writerefs_loop sys (writerefs_step sys s r) (rest ++ b) = _
    rw [ih]
    rfl

theorem writerefs_text_split (sys : Sys) (bs ts : List referenceinfo)
    (hb : ∀ r ∈ bs, r.ref.is_tag = false) (ht : ∀ r ∈ ts, r.ref.is_tag = true) :
    writerefs_text sys (bs ++ ts) = refs_section sys 0 bs ++ refs_section sys 1 ts := by
  unfold writerefs_text
  simp only
  rw [writerefs_loop_append, writerefs_loop_branches sys bs 0 [] hb]
  cases ts with
  | nil =>
    cases bs with
    | nil => simp [writerefs_loop, refs_section, refs_rows]
    | cons b bs1 => simp [writerefs_loop, refs_section, List.append_assoc]
  | cons t ts1 =>
    rw [writerefs_loop_first_tag sys _ _ t ts1 (ht t (List.mem_cons_self _ _)),
      writerefs_loop_tags]
    cases bs with
    | nil => simp [refs_section, refs_rows, List.append_assoc]
    | cons b bs1 => simp [refs_section, List.append_assoc]

theorem getrefs_sorted (repo : git_repository) (st : Refs)
    (h : getrefs repo = Outcome.ok st) : st.ris.Sorted refs_le := by
  unfold getrefs at h
  cases hr : repo.references with
  | none =>
    rw [hr] at h
    cases h
  | some refs =>
    rw [hr] at h
    simp only at h
    cases hl : getrefs_loop repo { ris := [], freed := false } refs with
    | fail =>
      rw [hl] at h
      cases h
    | fault =>
      rw [hl] at h
      cases h
    | ok l =>
      rw [hl] at h
      simp only at h
      unfold getrefs_sort at h
      split at h
      · cases h
      · cases h
        exact qsort_refs_sorted l.ris

/-- C19.  When `getrefs` returns a list none of whose references was freed,
`writerefs` writes the section of the branches followed by the section of the
tags.  The section of a kind is empty when the list has no entry of that
kind; otherwise it is the header of the kind (`Branches`, `Tags`), once, the
rows of the entries of that kind in the order of the list, and the footer of
the table.  An entry counts as a branch when it is not a tag.  When the list
holds the entry of a symbolic reference, whose reference `getrefs` has freed,
`writerefs` reads freed memory and frees it again. -/
theorem writerefs_section_headers (repo : git_repository) (sys : Sys)
    (st : Refs) (h : getrefs repo = Outcome.ok st) :
    (st.freed = false →
      writerefs repo sys
        = Outcome.ok
          ((if st.ris.filter (fun r => !r.ref.is_tag) = [] then []
            else refs_header 0 ++ refs_rows sys (st.ris.filter (fun r => !r.ref.is_tag))
              ++ refs_footer)
           ++ (if st.ris.filter (fun r => r.ref.is_tag) = [] then []
            else refs_header 1 ++ refs_rows sys (st.ris.filter (fun r => r.ref.is_tag))
              ++ refs_footer))) ∧
    (st.freed = true → writerefs repo sys = Outcome.fault) ∧
    st.ris
      = st.ris.filter (fun r => !r.ref.is_tag) ++ st.ris.filter (fun r => r.ref.is_tag) ∧
    refs_header 0
      = "<h2>Branches</h2><table id=\"branches\"><thead>\n<tr><td><b>Name</b></td><td><b>Last commit date</b></td><td><b>Author</b></td>\n</tr>\n</thead><tbody>\n".toList ∧
    refs_header 1
      = "<h2>Tags</h2><table id=\"tags\"><thead>\n<tr><td><b>Name</b></td><td><b>Last commit date</b></td><td><b>Author</b></td>\n</tr>\n</thead><tbody>\n".toList ∧
    refs_footer = "</tbody></table><br/>\n".toList ∧
    (∀ (ri : referenceinfo) (rest : List referenceinfo),
      refs_rows sys (ri :: rest) = writerefs_row sys ri ++ refs_rows sys rest) ∧
    (∀ (ri : referenceinfo) (a : git_signature), ri.ci.author = some a →
      writerefs_row sys ri
        = "<tr><td>".toList ++ xmlencode ri.ref.shorthand (strlen ri.ref.shorthand)
          ++ "</td><td>".toList ++ sys.printtimeshort a.when_
          ++ "</td><td>".toList ++ xmlencode a.name (strlen a.name)
          ++ "</td></tr>\n".toList) := by
  have hsplit := sorted_refs_split st.ris (getrefs_sorted repo st h)
  refine ⟨?_, ?_, hsplit, by decide, by decide, rfl, fun _ _ => rfl, ?_⟩
  · intro hf
    unfold writerefs
    rw [h]
    simp only
    rw [hf]
    have ht := writerefs_text_split sys (st.ris.filter (fun r => !r.ref.is_tag))
      (st.ris.filter (fun r => r.ref.is_tag))
      (fun r hr => by
        have := (List.mem_filter.mp hr).2
        simpa using this)
      (fun r hr => (List.mem_filter.mp hr).2)
    rw [← hsplit] at ht
    rw [ht]
    rfl
  · intro hf
    unfold writerefs
    rw [h]
    simp only
    rw [hf]
    rfl
  · intro ri a ha
    unfold writerefs_row
    rw [ha]

/-- C19, instances: the tag `v1` and the branches `b` and `c` give the two
sections; the symbolic branch `s` alone makes `writerefs` read the reference
that `getrefs` freed. -/
theorem writerefs_section_headers_witness :
    writerefs (sample_repo_refs [ref_v1, ref_b, ref_c]) sample_sys
      = Outcome.ok
        (refs_header 0
          ++ refs_rows sample_sys [sample_ri ref_c 2 200, sample_ri ref_b 1 100] ++ refs_footer
         ++ (refs_header 1 ++ refs_rows sample_sys [sample_ri ref_v1 3 50] ++ refs_footer)) ∧
    writerefs (sample_repo_refs [ref_s]) sample_sys = Outcome.fault :=
  ⟨(writerefs_section_headers (sample_repo_refs [ref_v1, ref_b, ref_c]) sample_sys
      { ris := [sample_ri ref_c 2 200, sample_ri ref_b 1 100, sample_ri ref_v1 3 50],
        freed := false } (by decide)).1 rfl,
   (writerefs_section_headers (sample_repo_refs [ref_s]) sample_sys
      { ris := [sample_ri ref_c 2 200], freed := true } (by decide)).2.1 rfl⟩

/-! ## The entries of the feed of `HEAD` -/

theorem strlen_cons (c : Char) (cs : List Char) (h : c ≠ NUL) :
    strlen (c :: cs) = strlen cs + 1 := by
  unfold strlen
  rw [List.takeWhile_cons]
  simp [h]

theorem strlen_cons_nul (cs : List Char) : strlen (NUL :: cs) = 0 := rfl

/-- What `xmlencode` writes for one character that is not the NUL. -/
theorem xmlencode_cons (c : Char) (cs : List Char) (len : Nat) (h : c ≠ NUL) :
    xmlencode (c :: cs) (len + 1) = xmlencode [c] 1 ++ xmlencode cs len := by
  simp only [xmlencode, if_neg h, List.append_nil]

theorem xmlencode_one (c : Char) (h : c ≠ NUL) :
    (xmlencode [c] 1 ∈ xmlentities ∧ (c = '<' ∨ c = '>' ∨ c = '\'' ∨ c = '&' ∨ c = '"')) ∨
    (xmlencode [c] 1 = [c] ∧ c ≠ '<' ∧ c ≠ '>' ∧ c ≠ '\'' ∧ c ≠ '&' ∧ c ≠ '"') := by
  simp only [xmlencode, if_neg h, List.append_nil]
  by_cases h1 : c = '<'
  · rw [if_pos h1]
    exact Or.inl ⟨by decide, Or.inl h1⟩
  · rw [if_neg h1]
    by_cases h2 : c = '>'
    · rw [if_pos h2]
      exact Or.inl ⟨by decide, Or.inr (Or.inl h2)⟩
    · rw [if_neg h2]
      by_cases h3 : c = '\''
      · rw [if_pos h3]
        exact Or.inl ⟨by decide, Or.inr (Or.inr (Or.inl h3))⟩
      · rw [if_neg h3]
        by_cases h4 : c = '&'
        · rw [if_pos h4]
          exact Or.inl ⟨by decide, Or.inr (Or.inr (Or.inr (Or.inl h4)))⟩
        · rw [if_neg h4]
          by_cases h5 : c = '"'
          · rw [if_pos h5]
            exact Or.inl ⟨by decide, Or.inr (Or.inr (Or.inr (Or.inr h5)))⟩
          · rw [if_neg h5]
            exact Or.inr ⟨rfl, h1, h2, h3, h4, h5⟩

theorem xmlskip_one (c : Char) (t : List Char) (h : c ≠ NUL) :
    xmlskip 0 (xmlencode [c] 1 ++ t) = c :: xmlskip 0 t := by
  simp only [xmlencode, if_neg h, List.append_nil]
  by_cases h1 : c = '<'
  · subst h1
    simp [xmlskip]
  · rw [if_neg h1]
    by_cases h2 : c = '>'
    · subst h2
      simp [xmlskip]
    · rw [if_neg h2]
      by_cases h3 : c = '\''
      · subst h3
        simp [xmlskip]
      · rw [if_neg h3]
        by_cases h4 : c = '&'
        · subst h4
          simp [xmlskip]
        · rw [if_neg h4]
          by_cases h5 : c = '"'
          · subst h5
            simp [xmlskip]
          · rw [if_neg h5]
            simp [xmlskip, h4]

theorem xmldecode_xmlencode (s : List Char) :
    ∀ len, xmldecode (xmlencode s len) = s.take (min len (strlen s)) := by
  unfold xmldecode
  induction s with
  | nil =>
    intro len
    simp [xmlencode, xmlskip]
  | cons c cs ih =>
    intro len
    cases len with
    | zero => simp [xmlencode, xmlskip]
    | succ n =>
      by_cases h : c = NUL
      · subst h
        rw [strlen_cons_nul]
        simp [xmlencode, xmlskip]
      · rw [xmlencode_cons c cs n h, xmlskip_one c _ h, ih n, strlen_cons c cs h,
          Nat.succ_min_succ, List.take_succ_cons]

theorem xmlencode_chars (s : List Char) :
    ∀ len, ∀ c ∈ xmlencode s len, c ≠ '<' ∧ c ≠ '>' ∧ c ≠ '\'' ∧ c ≠ '"' := by
  induction s with
  | nil =>
    intro len c hc
    simp [xmlencode] at hc
  | cons x xs ih =>
    intro len c hc
    cases len with
    | zero => simp [xmlencode] at hc
    | succ n =>
      by_cases h : x = NUL
      · simp [xmlencode, h] at hc
      · rw [xmlencode_cons x xs n h, List.mem_append] at hc
        rcases hc with hc | hc
        · rcases xmlencode_one x h with ⟨he, -⟩ | ⟨he, h1, h2, h3, -, h5⟩
          · have hall : ∀ e ∈ xmlentities, ∀ d ∈ e, d ≠ '<' ∧ d ≠ '>' ∧ d ≠ '\'' ∧ d ≠ '"' := by
              decide
            exact hall _ he c hc
          · rw [he, List.mem_singleton] at hc
            rw [hc]
            exact ⟨h1, h2, h3, h5⟩
        · exact ih n c hc

theorem entity_amp_first (e : List Char) (he : e ∈ xmlentities) :
    ∃ t, e = '&' :: t ∧ '&' ∉ t := by
  have hall : ∀ e ∈ xmlentities, e.head? = some '&' ∧ '&' ∉ e.tail := by decide
  obtain ⟨h1, h2⟩ := hall e he
  cases e with
  | nil => cases h1
  | cons x t =>
    have hx : x = '&' := Option.some.inj h1
    subst hx
    exact ⟨t, rfl, h2⟩

theorem xmlencode_amp (s : List Char) :
    ∀ len front back, xmlencode s len = front ++ '&' :: back →
      ∃ e ∈ xmlentities, ∃ t, '&' :: back = e ++ t := by
  induction s with
  | nil =>
    intro len front back h
    simp [xmlencode] at h
  | cons x xs ih =>
    intro len front back h
    cases len with
    | zero => simp [xmlencode] at h
    | succ n =>
      by_cases hx : x = NUL
      · simp [xmlencode, hx] at h
      · rw [xmlencode_cons x xs n hx] at h
        rcases List.append_eq_append_iff.mp h with ⟨a, ha, hrest⟩ | ⟨c1, hp, hrest⟩
        · exact ih n a back hrest
        · cases c1 with
          | nil =>
            rw [List.nil_append] at hrest
            exact ih n [] back hrest.symm
          | cons y ys =>
            rw [List.cons_append] at hrest
            have hy : y = '&' := (List.cons.inj hrest).1.symm
            subst hy
            rcases xmlencode_one x hx with ⟨he, -⟩ | ⟨he, -, -, -, h4, -⟩
            · obtain ⟨t, ht, hnot⟩ := entity_amp_first _ he
              have hfront : front = [] := by
                cases front with
                | nil => rfl
                | cons f fs =>
                  exfalso
                  rw [ht, List.cons_append] at hp
                  have h2 := (List.cons.inj hp).2
                  apply hnot
                  rw [h2]
                  simp
              rw [hfront, List.nil_append] at hp
              refine ⟨_, he, xmlencode xs n, ?_⟩
              rw [hrest, hp]
              rfl
            · exfalso
              rw [he] at hp
              cases front with
              | nil =>
                rw [List.nil_append] at hp
                exact h4 (List.cons.inj hp).1
              | cons f fs =>
                rw [List.cons_append] at hp
                have h2 := (List.cons.inj hp).2
                simp at h2

/-- C21.  For every buffer `s` and length `len`, what `xmlencode` writes holds
none of the bytes `<`, `>`, single quote and double quote; every `&` in it is
the first byte of one of the five entities `&lt;`, `&gt;`, `&#39;`, `&amp;`,
`&quot;` standing there; and replacing the entities by their characters gives
back exactly the first `min len (strlen s)` bytes of `s`. -/
theorem xmlencode_escapes (s : List Char) (len : Nat) :
    (∀ c ∈ xmlencode s len, c ≠ '<' ∧ c ≠ '>' ∧ c ≠ '\'' ∧ c ≠ '"') ∧
    (∀ front back, xmlencode s len = front ++ '&' :: back →
      ∃ e ∈ xmlentities, ∃ t, '&' :: back = e ++ t) ∧
    xmldecode (xmlencode s len) = s.take (min len (strlen s)) ∧
    xmlencode "a<b>&'\"c".toList 9 = "a&lt;b&gt;&amp;&#39;&quot;c".toList ∧
    xmldecode "a&lt;b&gt;&amp;&#39;&quot;c".toList = "a<b>&'\"c".toList :=
  ⟨xmlencode_chars s len, xmlencode_amp s len, xmldecode_xmlencode s len, by decide, by decide⟩

/-! ## Percent-encoding -/

theorem hexval_hexupper : ∀ n : Fin 16, hexval (hexupper n.val) = some n.val := by
  decide

theorem toNat_ofNat_byte (n : Nat) (h : n < 256) : (Char.ofNat n).toNat = n := by
  have hv : n.isValidChar := Or.inl (by omega)
  unfold Char.ofNat
  rw [dif_pos hv]
  unfold Char.ofNatAux Char.toNat
  simp [UInt32.toNat, BitVec.toNat_ofNatLt]

theorem tobyte_of_byte (c : Char) (h : c.toNat < 256) : tobyte c = c := by
  apply char_toNat_eq
  unfold tobyte
  rw [Nat.mod_eq_of_lt h]
  exact toNat_ofNat_byte _ h

theorem tobyte_ne_percent (c : Char) (h : ¬ (c.toNat % 256 < 44)) : tobyte c ≠ '%' := by
  intro hc
  have h1 := congrArg Char.toNat hc
  unfold tobyte at h1
  rw [toNat_ofNat_byte _ (Nat.mod_lt _ (by decide))] at h1
  have h2 : ('%' : Char).toNat = 37 := rfl
  omega

theorem percentencode_cons (c : Char) (cs : List Char) (len : Nat) (h : c ≠ NUL) :
    percentencode (c :: cs) (len + 1) = percentencode [c] 1 ++ percentencode cs len := by
  simp only [percentencode, if_neg h, List.append_nil]

/-- What `percentencode` writes for one character that is not the NUL: the
byte itself, or `%` and the two digits of its value. -/
theorem percentencode_one (c : Char) (h : c ≠ NUL) :
    percentencode [c] 1
      = if c.toNat % 256 < 44 ∨ c.toNat % 256 ≥ 127 ∨ (c.toNat % 256 ≥ 58 ∧ c.toNat % 256 ≤ 64) ∨
            c.toNat % 256 = 91 ∨ c.toNat % 256 = 93 then
          ['%', hexupper (c.toNat % 256 / 16), hexupper (c.toNat % 256 % 16)]
        else [tobyte c] := by
  have h16 : c.toNat % 256 / 16 % 16 = c.toNat % 256 / 16 := by
    apply Nat.mod_eq_of_lt
    have := Nat.mod_lt c.toNat (show 256 > 0 by decide)
    omega
  simp only [percentencode, if_neg h, List.append_nil, h16, tobyte]

theorem pctdecode_plain (c : Char) (t : List Char) (h : c ≠ '%') :
    pctdecode (c :: t) = c :: pctdecode t := by
  match t with
  | [] => simp [pctdecode]
  | [d] => simp [pctdecode]
  | d :: e :: r => simp [pctdecode, h]

theorem pctdecode_escape (a b : Nat) (ha : a < 16) (hb : b < 16) (t : List Char) :
    pctdecode ('%' :: hexupper a :: hexupper b :: t) = Char.ofNat (16 * a + b) :: pctdecode t := by
  have h1 := hexval_hexupper ⟨a, ha⟩
  have h2 := hexval_hexupper ⟨b, hb⟩
  simp only at h1 h2
  simp [pctdecode, h1, h2]

theorem pctdecode_one (c : Char) (t : List Char) (h : c ≠ NUL) :
    pctdecode (percentencode [c] 1 ++ t) = tobyte c :: pctdecode t := by
  have hlt := Nat.mod_lt c.toNat (show 256 > 0 by decide)
  rw [percentencode_one c h]
  by_cases hc : c.toNat % 256 < 44 ∨ c.toNat % 256 ≥ 127 ∨
      (c.toNat % 256 ≥ 58 ∧ c.toNat % 256 ≤ 64) ∨ c.toNat % 256 = 91 ∨ c.toNat % 256 = 93
  · rw [if_pos hc]
    show pctdecode ('%' :: hexupper _ :: hexupper _ :: t) = _
    rw [pctdecode_escape _ _ (by omega) (Nat.mod_lt _ (by decide))]
    unfold tobyte
    congr 2
    omega
  · rw [if_neg hc]
    show pctdecode (tobyte c :: t) = _
    exact pctdecode_plain _ t (tobyte_ne_percent c (fun h44 => hc (Or.inl h44)))

theorem pctdecode_percentencode (s : List Char) :
    ∀ len, pctdecode (percentencode s len) = (s.take (min len (strlen s))).map tobyte := by
  induction s with
  | nil =>
    intro len
    simp [percentencode, pctdecode]
  | cons c cs ih =>
    intro len
    cases len with
    | zero => simp [percentencode, pctdecode]
    | succ n =>
      by_cases h : c = NUL
      · subst h
        rw [strlen_cons_nul]
        simp [percentencode, pctdecode]
      · rw [percentencode_cons c cs n h, pctdecode_one c _ h, ih n, strlen_cons c cs h,
          Nat.succ_min_succ, List.take_succ_cons, List.map_cons]

theorem percentencode_pieces (s : List Char) :
    ∀ len, percentencode s len
      = ((s.take (min len (strlen s))).map (fun c => percentencode [c] 1)).flatten := by
  induction s with
  | nil =>
    intro len
    simp [percentencode]
  | cons c cs ih =>
    intro len
    cases len with
    | zero => simp [percentencode]
    | succ n =>
      by_cases h : c = NUL
      · subst h
        rw [strlen_cons_nul]
        simp [percentencode]
      · rw [percentencode_cons c cs n h, ih n, strlen_cons c cs h, Nat.succ_min_succ,
          List.take_succ_cons, List.map_cons, List.flatten_cons]

theorem map_tobyte_bytes (s : List Char) (h : ∀ c ∈ s, c.toNat < 256) : s.map tobyte = s := by
  induction s with
  | nil => rfl
  | cons c cs ih =>
    rw [List.map_cons, tobyte_of_byte c (h c (List.mem_cons_self _ _)),
      ih (fun x hx => h x (List.mem_cons_of_mem _ hx))]

/-- C22.  For every buffer `s` and length `len`, what `percentencode` writes
is, byte after byte of the first `min len (strlen s)` bytes of `s`, either the
byte itself or `%` followed by the two upper-case hexadecimal digits of its
value.  The bytes `,`, `-`, `.`, `/`, the ASCII letters and the digits are
written as they are, `%` is written as `%25`, and percent-decoding the output
gives back exactly those bytes. -/
theorem percentencode_roundtrip (s : List Char) (len : Nat) :
    percentencode s len
      = ((s.take (min len (strlen s))).map (fun c => percentencode [c] 1)).flatten ∧
    (∀ c, c ≠ NUL →
      percentencode [c] 1 = [tobyte c] ∨
      percentencode [c] 1
        = ['%', hexupper (c.toNat % 256 / 16), hexupper (c.toNat % 256 % 16)]) ∧
    (∀ n, n < 16 → hexupper n = "0123456789ABCDEF".toList.getD n '0') ∧
    (∀ c : Char, (c = ',' ∨ c = '-' ∨ c = '.' ∨ c = '/' ∨
        (('0' : Char).toNat ≤ c.toNat ∧ c.toNat ≤ ('9' : Char).toNat) ∨
        (('A' : Char).toNat ≤ c.toNat ∧ c.toNat ≤ ('Z' : Char).toNat) ∨
        (('a' : Char).toNat ≤ c.toNat ∧ c.toNat ≤ ('z' : Char).toNat)) →
      percentencode [c] 1 = [c]) ∧
    percentencode ['%'] 1 = ['%', '2', '5'] ∧
    pctdecode (percentencode s len) = (s.take (min len (strlen s))).map tobyte ∧
    ((∀ c ∈ s, c.toNat < 256) →
      pctdecode (percentencode s len) = s.take (min len (strlen s))) ∧
    percentencode "a b/c%.txt".toList 10 = "a%20b/c%25.txt".toList ∧
    pctdecode "a%20b/c%25.txt".toList = "a b/c%.txt".toList := by
  refine ⟨percentencode_pieces s len, ?_, ?_, ?_, by decide, pctdecode_percentencode s len, ?_,
    by decide, by decide⟩
  · intro c hc
    rw [percentencode_one c hc]
    by_cases h : c.toNat % 256 < 44 ∨ c.toNat % 256 ≥ 127 ∨
        (c.toNat % 256 ≥ 58 ∧ c.toNat % 256 ≤ 64) ∨ c.toNat % 256 = 91 ∨ c.toNat % 256 = 93
    · rw [if_pos h]
      exact Or.inr rfl
    · rw [if_neg h]
      exact Or.inl rfl
  · intro n hn
    have hall : ∀ m : Fin 16, hexupper m.val = "0123456789ABCDEF".toList.getD m.val '0' := by
      decide
    exact hall ⟨n, hn⟩
  · intro c hc
    have h0 : ('0' : Char).toNat = 48 := rfl
    have h9 : ('9' : Char).toNat = 57 := rfl
    have hA : ('A' : Char).toNat = 65 := rfl
    have hZ : ('Z' : Char).toNat = 90 := rfl
    have ha : ('a' : Char).toNat = 97 := rfl
    have hz : ('z' : Char).toNat = 122 := rfl
    have hrange : (44 ≤ c.toNat ∧ c.toNat ≤ 57) ∨ (65 ≤ c.toNat ∧ c.toNat ≤ 90) ∨
        (97 ≤ c.toNat ∧ c.toNat ≤ 122) := by
      rcases hc with h | h | h | h | h | h | h
      · subst h
        exact Or.inl (by decide)
      · subst h
        exact Or.inl (by decide)
      · subst h
        exact Or.inl (by decide)
      · subst h
        exact Or.inl (by decide)
      · exact Or.inl (by omega)
      · exact Or.inr (Or.inl (by omega))
      · exact Or.inr (Or.inr (by omega))
    have hbyte : c.toNat < 256 := by omega
    have hnul : c ≠ NUL := by
      intro h
      rw [h, nul_toNat] at hrange
      omega
    rw [percentencode_one c hnul, Nat.mod_eq_of_lt hbyte, if_neg (by omega),
      tobyte_of_byte c hbyte]
  · intro hbytes
    rw [pctdecode_percentencode s len]
    exact map_tobyte_bytes _ (fun c hc => hbytes c (List.mem_of_mem_take hc))

/-! ## The bar of the diffstat -/

theorem rne_near (x : ℚ) : (rne x : ℚ) ≤ x + 1 / 2 ∧ x - 1 / 2 ≤ (rne x : ℚ) := by
  have h1 : ((⌊x⌋ : ℤ) : ℚ) ≤ x := Int.floor_le x
  have h2 : x < ((⌊x⌋ : ℤ) : ℚ) + 1 := Int.lt_floor_add_one x
  unfold rne
  simp only
  split_ifs with ha hb hc
  · constructor <;> linarith
  · push_cast
    constructor <;> linarith
  · constructor <;> linarith
  · push_cast
    constructor <;> linarith

theorem floor_le_rne (x : ℚ) : ⌊x⌋ ≤ rne x := by
  unfold rne
  simp only
  split_ifs <;> omega

theorem f32_zero : f32 0 = 0 := by
  unfold f32
  rw [if_pos (le_refl 0)]

/-- The relative error of a rounding to `float` is at most `2^-24`. -/
theorem f32_near (x : ℚ) (hx : 0 ≤ x) :
    f32 x ≤ x * (16777217 / 16777216) ∧ x * (16777215 / 16777216) ≤ f32 x := by
  rcases eq_or_lt_of_le hx with h0 | hpos
  · rw [← h0, f32_zero]
    constructor <;> norm_num
  · have hp : (0 : ℚ) < 2 ^ Int.log 2 x := zpow_pos (by norm_num) _
    have hle : (2 : ℚ) ^ Int.log 2 x ≤ x := by
      have := Int.zpow_log_le_self (b := 2) (r := x) (by norm_num) hpos
      simpa using this
    unfold f32
    rw [if_neg (not_le.mpr hpos)]
    simp only
    generalize (2 : ℚ) ^ Int.log 2 x = p at hp hle
    obtain ⟨h1, h2⟩ := rne_near (x * 8388608 / p)
    have e1 : x * 8388608 / p * p = x * 8388608 := by field_simp
    constructor
    · have : (rne (x * 8388608 / p) : ℚ) * p ≤ (x * 8388608 / p + 1 / 2) * p :=
        mul_le_mul_of_nonneg_right h1 hp.le
      rw [add_mul, e1] at this
      rw [div_le_iff₀ (by norm_num)]
      linarith
    · have : (x * 8388608 / p - 1 / 2) * p ≤ (rne (x * 8388608 / p) : ℚ) * p :=
        mul_le_mul_of_nonneg_right h2 hp.le
      rw [sub_mul, e1] at this
      rw [le_div_iff₀ (by norm_num)]
      linarith

theorem f32_nonneg (x : ℚ) : 0 ≤ f32 x := by
  rcases le_or_lt x 0 with h | h
  · unfold f32
    rw [if_pos h]
  · exact le_trans (mul_nonneg h.le (by norm_num)) (f32_near x h.le).2

theorem one_le_f32 (x : ℚ) (hx : 1 ≤ x) : 1 ≤ f32 x := by
  have hpos : 0 < x := by linarith
  have hlog : 0 ≤ Int.log 2 x := by
    rw [Int.log_of_one_le_right 2 hx]
    exact Int.natCast_nonneg _
  have hp1 : (1 : ℚ) ≤ 2 ^ Int.log 2 x := one_le_zpow₀ (by norm_num) hlog
  have hle : (2 : ℚ) ^ Int.log 2 x ≤ x := by
    have := Int.zpow_log_le_self (b := 2) (r := x) (by norm_num) hpos
    simpa using this
  unfold f32
  rw [if_neg (not_le.mpr hpos)]
  simp only
  generalize (2 : ℚ) ^ Int.log 2 x = p at hp1 hle
  have hp : 0 < p := by linarith
  have hm : (8388608 : ℚ) ≤ x * 8388608 / p := by
    rw [le_div_iff₀ hp]
    nlinarith
  have hf : (8388608 : ℤ) ≤ ⌊x * 8388608 / p⌋ := by
    rw [Int.le_floor]
    exact_mod_cast hm
  have hr : (8388608 : ℤ) ≤ rne (x * 8388608 / p) := le_trans hf (floor_le_rne _)
  have hr2 : (8388608 : ℚ) ≤ (rne (x * 8388608 / p) : ℚ) := by exact_mod_cast hr
  rw [le_div_iff₀ (by norm_num)]
  nlinarith

theorem f32_78 : f32 78 = 78 := by decide!

theorem f32_1 : f32 1 = 1 := by decide!

theorem scaleval_upper (c x : Nat) (hc : 0 < c) :
    scaleval c x ≤ (78 * x / c : ℚ) * (1001 / 1000) + 1001 / 1000 := by
  have hcq : (0 : ℚ) < c := by exact_mod_cast hc
  have hxq : (0 : ℚ) ≤ x := by exact_mod_cast Nat.zero_le x
  have hfc := (f32_near c hcq.le).2
  have hfcpos : (0 : ℚ) < f32 c := lt_of_lt_of_le (mul_pos hcq (by norm_num)) hfc
  have h1 : 78 / f32 (c : ℚ) ≤ 78 / ((c : ℚ) * (16777215 / 16777216)) :=
    div_le_div_of_nonneg_left (by norm_num) (mul_pos hcq (by norm_num)) hfc
  have h1n : (0 : ℚ) ≤ 78 / f32 (c : ℚ) := div_nonneg (by norm_num) hfcpos.le
  have h2 := (f32_near _ h1n).1
  have h3 := (f32_near _ hxq).1
  have h2n := f32_nonneg (78 / f32 (c : ℚ))
  have h3n := f32_nonneg (x : ℚ)
  have h4 : f32 (78 / f32 (c : ℚ)) * f32 x
      ≤ (78 / ((c : ℚ) * (16777215 / 16777216)) * (16777217 / 16777216))
        * ((x : ℚ) * (16777217 / 16777216)) :=
    mul_le_mul (le_trans h2 (mul_le_mul_of_nonneg_right h1 (by norm_num))) h3 h3n
      (mul_nonneg (div_nonneg (by norm_num) (mul_pos hcq (by norm_num)).le) (by norm_num))
  have h4n : (0 : ℚ) ≤ f32 (78 / f32 (c : ℚ)) * f32 x := mul_nonneg h2n h3n
  have h5 := (f32_near _ h4n).1
  have h5n := f32_nonneg (f32 (78 / f32 (c : ℚ)) * f32 x)
  have h6 := (f32_near (f32 (f32 (78 / f32 (c : ℚ)) * f32 x) + 1) (by linarith)).1
  unfold scaleval
  rw [f32_78, f32_1]
  have e : 78 / ((c : ℚ) * (16777215 / 16777216)) * (16777217 / 16777216)
        * ((x : ℚ) * (16777217 / 16777216))
      = (78 * x / c : ℚ) * (16777217 * 16777217 / (16777215 * 16777216)) := by
    field_simp
    ring
  rw [e] at h4
  have hy : (0 : ℚ) ≤ 78 * x / c := div_nonneg (mul_nonneg (by norm_num) hxq) hcq.le
  generalize (78 * x / c : ℚ) = y at h4 hy
  generalize f32 (78 / f32 (c : ℚ)) * f32 x = w at h4 h5 h5n h6
  generalize f32 w = v at h5 h5n h6
  generalize f32 (v + 1) = s at h6
  nlinarith

theorem scaleval_lower (c x : Nat) (hc : 0 < c) :
    (78 * x / c : ℚ) * (999 / 1000) + 999 / 1000 ≤ scaleval c x := by
  have hcq : (0 : ℚ) < c := by exact_mod_cast hc
  have hxq : (0 : ℚ) ≤ x := by exact_mod_cast Nat.zero_le x
  have hfc := (f32_near c hcq.le).1
  have hfcl := (f32_near c hcq.le).2
  have hfcpos : (0 : ℚ) < f32 c := lt_of_lt_of_le (mul_pos hcq (by norm_num)) hfcl
  have h1 : 78 / ((c : ℚ) * (16777217 / 16777216)) ≤ 78 / f32 (c : ℚ) :=
    div_le_div_of_nonneg_left (by norm_num) hfcpos hfc
  have h1n : (0 : ℚ) ≤ 78 / f32 (c : ℚ) := div_nonneg (by norm_num) hfcpos.le
  have h2 := (f32_near _ h1n).2
  have h3 := (f32_near _ hxq).2
  have h2n := f32_nonneg (78 / f32 (c : ℚ))
  have h3n := f32_nonneg (x : ℚ)
  have h4 : (78 / ((c : ℚ) * (16777217 / 16777216)) * (16777215 / 16777216))
        * ((x : ℚ) * (16777215 / 16777216))
      ≤ f32 (78 / f32 (c : ℚ)) * f32 x :=
    mul_le_mul (le_trans (mul_le_mul_of_nonneg_right h1 (by norm_num)) h2) h3
      (mul_nonneg hxq (by norm_num)) h2n
  have h4n : (0 : ℚ) ≤ f32 (78 / f32 (c : ℚ)) * f32 x := mul_nonneg h2n h3n
  have h5 := (f32_near _ h4n).2
  have h5n := f32_nonneg (f32 (78 / f32 (c : ℚ)) * f32 x)
  have h6 := (f32_near (f32 (f32 (78 / f32 (c : ℚ)) * f32 x) + 1) (by linarith)).2
  unfold scaleval
  rw [f32_78, f32_1]
  have e : 78 / ((c : ℚ) * (16777217 / 16777216)) * (16777215 / 16777216)
        * ((x : ℚ) * (16777215 / 16777216))
      = (78 * x / c : ℚ) * (16777215 * 16777215 / (16777217 * 16777216)) := by
    field_simp
    ring
  rw [e] at h4
  have hy : (0 : ℚ) ≤ 78 * x / c := div_nonneg (mul_nonneg (by norm_num) hxq) hcq.le
  generalize (78 * x / c : ℚ) = y at h4 hy
  generalize f32 (78 / f32 (c : ℚ)) * f32 x = w at h4 h5 h5n h6
  generalize f32 w = v at h5 h5n h6
  generalize f32 (v + 1) = s at h6
  nlinarith

theorem one_le_scaleval (c x : Nat) : 1 ≤ scaleval c x := by
  unfold scaleval
  apply one_le_f32
  rw [f32_1]
  have := f32_nonneg (f32 (f32 78 / f32 (c : ℚ)) * f32 (x : ℚ))
  linarith

theorem one_le_scalebar (c x : Nat) : 1 ≤ scalebar c x := by
  unfold scalebar
  exact Nat.le_floor (by exact_mod_cast one_le_scaleval c x)

theorem scalebar_le (c x : Nat) (hc : 0 < c) :
    (scalebar c x : ℚ) ≤ (78 * x / c : ℚ) * (1001 / 1000) + 1001 / 1000 := by
  unfold scalebar
  exact le_trans (Nat.floor_le (le_trans (by norm_num) (one_le_scaleval c x)))
    (scaleval_upper c x hc)

/-- The scaled length the code computes is at most one off the value of exact
arithmetic, `scale_exact`. -/
theorem scalebar_near_exact (c x : Nat) (hc : 0 < c) (hx : x ≤ c) :
    scale_exact c x ≤ scalebar c x + 1 ∧ scalebar c x ≤ scale_exact c x + 1 := by
  have hcq : (0 : ℚ) < c := by exact_mod_cast hc
  have hxq : (0 : ℚ) ≤ x := by exact_mod_cast Nat.zero_le x
  have hxc : (x : ℚ) ≤ c := by exact_mod_cast hx
  have hy78 : (78 * x / c : ℚ) ≤ 78 := by
    rw [div_le_iff₀ hcq]
    linarith
  have hy0 : (0 : ℚ) ≤ 78 * x / c := div_nonneg (mul_nonneg (by norm_num) hxq) hcq.le
  have hfl : ((78 * x / c : ℕ) : ℚ) ≤ (78 * x / c : ℚ) := by
    have := Nat.cast_div_le (α := ℚ) (m := 78 * x) (n := c)
    simpa using this
  have hfu : (78 * x / c : ℚ) < ((78 * x / c : ℕ) : ℚ) + 1 := by
    rw [div_lt_iff₀ hcq]
    have h2 : 78 * x < (78 * x / c + 1) * c := by
      have := Nat.div_add_mod (78 * x) c
      have hm := Nat.mod_lt (78 * x) hc
      nlinarith
    exact_mod_cast h2
  have hup := scaleval_upper c x hc
  have hlo := scaleval_lower c x hc
  have hs0 : (0 : ℚ) ≤ scaleval c x := le_trans (by norm_num) (one_le_scaleval c x)
  unfold scale_exact scalebar
  constructor
  · have : 78 * x / c ≤ ⌊scaleval c x⌋₊ := by
      apply Nat.le_floor
      linarith
    omega
  · have h1 : (⌊scaleval c x⌋₊ : ℚ) ≤ scaleval c x := Nat.floor_le hs0
    have h2 : (⌊scaleval c x⌋₊ : ℚ) < ((78 * x / c : ℕ) : ℚ) + 3 := by linarith
    have h3 : ⌊scaleval c x⌋₊ < 78 * x / c + 3 := by exact_mod_cast h2
    omega

theorem barlengths_small (add del : Nat) (h : add + del ≤ 78) :
    barlengths add del = (add, del) := by
  unfold barlengths
  simp only
  rw [if_neg (by omega)]

theorem barlengths_scaled (add del : Nat) (h : 78 < add + del) :
    barlengths add del
      = (if add ≠ 0 then scalebar (add + del) add else add,
         if del ≠ 0 then scalebar (add + del) del else del) := by
  unfold barlengths
  simp only
  rw [if_pos h]

/-- The two lengths of the bar never add up to more than 80. -/
theorem barlengths_bound (add del : Nat) :
    (barlengths add del).1 + (barlengths add del).2 ≤ 80 := by
  by_cases h : add + del ≤ 78
  · rw [barlengths_small add del h]
    show add + del ≤ 80
    omega
  · have hc : 0 < add + del := by omega
    have hcq : (0 : ℚ) < ((add + del : ℕ) : ℚ) := by exact_mod_cast hc
    rw [barlengths_scaled add del (by omega)]
    have ha : ((if add ≠ 0 then scalebar (add + del) add else add : ℕ) : ℚ)
        ≤ (78 * add / ((add + del : ℕ) : ℚ)) * (1001 / 1000) + 1001 / 1000 := by
      by_cases h0 : add = 0
      · rw [if_neg (by simpa using h0), h0]
        norm_num
      · rw [if_pos h0]
        exact scalebar_le (add + del) add hc
    have hd : ((if del ≠ 0 then scalebar (add + del) del else del : ℕ) : ℚ)
        ≤ (78 * del / ((add + del : ℕ) : ℚ)) * (1001 / 1000) + 1001 / 1000 := by
      by_cases h0 : del = 0
      · rw [if_neg (by simpa using h0), h0]
        norm_num
      · rw [if_pos h0]
        exact scalebar_le (add + del) del hc
    have hsum : (78 * add / ((add + del : ℕ) : ℚ)) + (78 * del / ((add + del : ℕ) : ℚ)) = 78 := by
      rw [← add_div, div_eq_iff hcq.ne']
      push_cast
      ring
    generalize (if add ≠ 0 then scalebar (add + del) add else add) = a1 at ha
    generalize (if del ≠ 0 then scalebar (add + del) del else del) = d1 at hd
    have hq : ((a1 + d1 : ℕ) : ℚ) < 81 := by
      push_cast
      linarith
    have hn : a1 + d1 < 81 := by exact_mod_cast hq
    show a1 + d1 ≤ 80
    omega

theorem memset_inside (buf : List Char) (off : Nat) (c : Char) (n : Nat)
    (h : off + n ≤ buf.length) :
    memset buf off c n = some (buf.take off ++ List.replicate n c ++ buf.drop (off + n)) := by
  unfold memset
  rw [if_pos h]

theorem diffstat_bar_inside (linestr : List Char) (add del : Nat)
    (hbuf : linestr.length = 80)
    (h : (barlengths add del).1 + (barlengths add del).2 ≤ 80) :
    diffstat_bar linestr add del
      = some (List.replicate (barlengths add del).1 '+',
              List.replicate (barlengths add del).2 '-') := by
  unfold diffstat_bar
  generalize barlengths add del = bar at h
  obtain ⟨a, d⟩ := bar
  simp only at h ⊢
  rw [memset_inside linestr 0 '+' a (by omega)]
  simp only
  rw [memset_inside _ a '-' d (by simp; omega)]
  simp only
  have hlen : (List.take a (List.take 0 linestr ++ List.replicate a '+'
      ++ List.drop (0 + a) linestr) ++ List.replicate d '-'
      ++ List.drop (a + d) (List.take 0 linestr ++ List.replicate a '+'
      ++ List.drop (0 + a) linestr)).length = 80 := by
    simp
    omega
  unfold fwrite
  rw [if_pos (by rw [hlen]; omega), if_pos (by rw [hlen]; omega)]
  simp

/-- C23, counterexample.  For the counts `add = 22` and `del = 110` the code
computes the lengths 13 and 66, while exact arithmetic gives
`floor(78 * 22 / 132) + 1 = 14` for the first; for 88 and 44 it computes 52
and 26 where exact arithmetic gives 53 and 27; for 151 and 0 it computes 78
where exact arithmetic gives 79. -/
theorem barlengths_below_exact :
    barlengths 22 110 = (13, 66) ∧
    (scale_exact (22 + 110) 22, scale_exact (22 + 110) 110) = (14, 66) ∧
    barlengths 88 44 = (52, 26) ∧
    (scale_exact (88 + 44) 88, scale_exact (88 + 44) 44) = (53, 27) ∧
    barlengths 151 0 = (78, 0) ∧ scale_exact (151 + 0) 151 = 79 := by
  decide!

/-- C23 (as the code has it).  The two lengths of the bar are the counts
themselves for `add + del ≤ 78`; otherwise each count `x` that is not 0 is
replaced by the value of `((float)78 / (add + del) * x) + 1` computed in
single precision and cut to an integer, which is at most one away from
`floor(78 * x / (add + del)) + 1`.  Their sum is at most 80, the two calls of
`memset` and the two calls of `fwrite` on the 80 bytes of `linestr` stay inside
the buffer and write the run of `+` and the run of `-` of these lengths, and a
count that is not 0 has a run of at least one byte. -/
theorem diffstat_bar_within_linestr (linestr : List Char) (add del : Nat)
    (hbuf : linestr.length = 80) :
    (add + del ≤ 78 → barlengths add del = (add, del)) ∧
    (78 < add + del →
      barlengths add del
        = (if add ≠ 0 then
             ⌊f32 (f32 (f32 (f32 78 / f32 ((add + del : ℕ) : ℚ)) * f32 (add : ℚ)) + f32 1)⌋₊
           else 0,
           if del ≠ 0 then
             ⌊f32 (f32 (f32 (f32 78 / f32 ((add + del : ℕ) : ℚ)) * f32 (del : ℚ)) + f32 1)⌋₊
           else 0)) ∧
    (78 < add + del →
      (add ≠ 0 → 78 * add / (add + del) + 1 ≤ (barlengths add del).1 + 1 ∧
        (barlengths add del).1 ≤ 78 * add / (add + del) + 1 + 1) ∧
      (del ≠ 0 → 78 * del / (add + del) + 1 ≤ (barlengths add del).2 + 1 ∧
        (barlengths add del).2 ≤ 78 * del / (add + del) + 1 + 1)) ∧
    (∀ x : ℚ, 0 ≤ x →
      f32 x ≤ x * (16777217 / 16777216) ∧ x * (16777215 / 16777216) ≤ f32 x) ∧
    (barlengths add del).1 + (barlengths add del).2 ≤ 80 ∧
    diffstat_bar linestr add del
      = some (List.replicate (barlengths add del).1 '+',
              List.replicate (barlengths add del).2 '-') ∧
    (add ≠ 0 → 1 ≤ (barlengths add del).1) ∧
    (del ≠ 0 → 1 ≤ (barlengths add del).2) := by
  have hbound := barlengths_bound add del
  have hscaled : 78 < add + del →
      barlengths add del
        = (if add ≠ 0 then scalebar (add + del) add else 0,
           if del ≠ 0 then scalebar (add + del) del else 0) := by
    intro h
    rw [barlengths_scaled add del h]
    by_cases ha : add = 0 <;> by_cases hd : del = 0 <;> simp [ha, hd]
  refine ⟨barlengths_small add del, hscaled, ?_, f32_near, hbound,
    diffstat_bar_inside linestr add del hbuf hbound, ?_, ?_⟩
  · intro h
    rw [hscaled h]
    constructor
    · intro ha
      rw [if_pos ha]
      exact scalebar_near_exact (add + del) add (by omega) (by omega)
    · intro hd
      rw [if_pos hd]
      exact scalebar_near_exact (add + del) del (by omega) (by omega)
  · intro ha
    by_cases h : add + del ≤ 78
    · rw [barlengths_small add del h]
      show 1 ≤ add
      omega
    · rw [hscaled (by omega), if_pos ha]
      exact one_le_scalebar _ _
  · intro hd
    by_cases h : add + del ≤ 78
    · rw [barlengths_small add del h]
      show 1 ≤ del
      omega
    · rw [hscaled (by omega), if_pos hd]
      exact one_le_scalebar _ _

theorem diffstat_bar_within_linestr_witness :
    (barlengths 100 50).1 + (barlengths 100 50).2 ≤ 80 ∧
    diffstat_bar (List.replicate 80 ' ') 100 50
      = some (List.replicate (barlengths 100 50).1 '+',
              List.replicate (barlengths 100 50).2 '-') :=
  have h := diffstat_bar_within_linestr (List.replicate 80 ' ') 100 50 (by simp)
  ⟨h.2.2.2.2.1, h.2.2.2.2.2.1⟩

end Stagit
